import Mathlib

/-!
# Crinkler export table: `Export.cpp`

A shallow embedding of `parseExport`, `createExportTable` and `stripExports`
from `Export.cpp`, followed by the properties proved about them.

Conventions of the embedding.

* A `std::string` is a `String`; every `Char` stands for one C `char` and is
  stored in memory as one byte holding its code.
* Memory (`std::vector<char>` and the `char*` of a hunk) is a `List Nat` of
  bytes; 32-bit and 16-bit accesses are little endian, as on the x86 target.
* A C `int` is an `Int`; stores reduce modulo `2 ^ 32`, loads sign-extend, and
  the additions of `stripExports` wrap to the signed 32-bit range.
* `exit(1)` and reads outside the buffer make a function return `none`.
* A `std::set<Export>` is a `List Export` strictly ascending by name.
-/

namespace Crinkler

/-! ## Export records (`Export.h`, constructors in `Export.cpp`) -/

/-- The three data members of class `Export`. -/
structure Export where
  m_name : String
  m_symbol : String
  m_value : Int
deriving DecidableEq, Repr

namespace Export

/-- Constructor `Export::Export(const std::string name, const std::string symbol)`. -/
def fromSymbol (name symbol : String) : Export := ⟨name, symbol, 0⟩

/-- Constructor `Export::Export(const std::string name, int value)`. -/
def fromValue (name : String) (value : Int) : Export := ⟨name, "", value⟩

def getName (e : Export) : String := e.m_name

def getSymbol (e : Export) : String := e.m_symbol

def getValue (e : Export) : Int := e.m_value

/-- Modelled from the spec: `Export::hasValue` is declared in `Export.h`, which is
not part of the sources. A record has either a symbol reference or a literal
value; the value constructor is the one that leaves `m_symbol` empty, so a
record has a value exactly when its symbol reference is empty. -/
def hasValue (e : Export) : Bool := e.m_symbol.data.isEmpty

end Export

/-! ## C library pieces used by `parseExport` -/

/-- C `isspace` in the "C" locale: space, `\t`, `\n`, `\v`, `\f`, `\r`. -/
def isspace (c : Char) : Bool :=
  c.toNat = 32 || (9 ≤ c.toNat && c.toNat ≤ 13)

/-- Value of a character as a digit, for any base up to 36. -/
def digitValue (c : Char) : Option Nat :=
  if 48 ≤ c.toNat ∧ c.toNat ≤ 57 then some (c.toNat - 48)
  else if 97 ≤ c.toNat ∧ c.toNat ≤ 122 then some (c.toNat - 97 + 10)
  else if 65 ≤ c.toNat ∧ c.toNat ≤ 90 then some (c.toNat - 65 + 10)
  else none

/-- Value of `c` as a digit valid in `base`. -/
def digitIn (base : Nat) (c : Char) : Option Nat :=
  match digitValue c with
  | some d => if d < base then some d else none
  | none => none

/-- Longest run of digits of `base` at the head of the text: number of digits
consumed, their value, and the text left. -/
def scanDigits (base : Nat) : Nat → Nat → List Char → Nat × Nat × List Char
  | cnt, acc, [] => (cnt, acc, [])
  | cnt, acc, c :: cs =>
    match digitIn base c with
    | some d => scanDigits base (cnt + 1) (acc * base + d) cs
    | none => (cnt, acc, c :: cs)

/-- Largest and smallest `long` of the target (Windows, 32-bit `long`). -/
def LONG_MAX : Int := 2147483647

def LONG_MIN : Int := -2147483648

/-- Optional sign in front of the subject text of `strtol`. -/
def takeSign : List Char → Bool × List Char
  | [] => (false, [])
  | c :: r => if c = '-' then (true, r) else if c = '+' then (false, r) else (false, c :: r)

/-- Optional `0x`/`0X` of `strtol` in base 16; it belongs to the number only
when a hexadecimal digit follows it. -/
def takeHexLead (base : Nat) : List Char → List Char
  | z :: x :: h :: r =>
    if base = 16 ∧ z = '0' ∧ (x = 'x' ∨ x = 'X') ∧ (digitIn 16 h).isSome then h :: r
    else z :: x :: h :: r
  | s => s

/-- C `strtol(nptr, &end, base)` for `base` 8, 10 or 16: skips white space,
takes an optional sign and (base 16) an optional `0x`/`0X`, then the longest
run of digits. The result is the value, clamped to the range of `long`, and
the text `end` points at; with no digit at all, `end` is the start of the text
and the value is 0. -/
def strtol (nptr : List Char) (base : Nat) : Int × List Char :=
  let s1 := nptr.dropWhile isspace
  let s2 := takeSign s1
  let s3 := takeHexLead base s2.2
  let r := scanDigits base 0 0 s3
  if r.1 = 0 then (0, nptr)
  else
    let v : Int := if s2.1 then -(r.2.1 : Int) else (r.2.1 : Int)
    (max LONG_MIN (min LONG_MAX v), r.2.2)

/-- Conversion of a wider integer to `int`, and the wrap-around of `int`
arithmetic: the representative in `[-2^31, 2^31)` modulo `2^32`. -/
def toInt32 (x : Int) : Int := (x + 2147483648) % 4294967296 - 2147483648

/-! ## `parseExport` -/

/-- `parseExport(name, value)`; `none` is the fatal error (`exit(1)`). -/
def parseExport (name value : String) : Option Export :=
  match value.data with
  | [] => some (Export.fromSymbol name name)
  | c0 :: rest =>
    if '0' ≤ c0 ∧ c0 ≤ '9' then
      let r :=
        if c0 = '0' then
          match rest with
          | c1 :: c2 :: tl =>
            if c1 = 'x' ∨ c1 = 'X' then strtol (c2 :: tl) 16
            else strtol (c0 :: rest) 8
          | _ => strtol (c0 :: rest) 8
        else strtol (c0 :: rest) 10
      if r.2 ≠ [] then none
      else some (Export.fromValue name (toInt32 r.1))
    else some (Export.fromSymbol name value)

/-! ## Hunks, symbols and relocations (`Hunk.h`, `Symbol.h`) -/

/-- Symbol flags used by `Export.cpp`. -/
inductive SymbolFlag where
  | SYMBOL_IS_RELOCATEABLE
  | SYMBOL_IS_SECTION
deriving DecidableEq, Repr

/-- Hunk flags used by `Export.cpp`. -/
inductive HunkFlag where
  | HUNK_IS_TRAILING
deriving DecidableEq, Repr

/-- Relocation kinds used by `Export.cpp`. -/
inductive RelocType where
  | RELOCTYPE_ABS32
deriving DecidableEq, Repr

/-- The arguments of `new Symbol(name, value, flags, hunk, miscString)`; the
owning hunk is the one the symbol is added to. -/
structure Symbol where
  name : String
  value : Int
  flags : List SymbolFlag
  miscString : String
deriving DecidableEq, Repr

/-- The record passed to `Hunk::addRelocation`. -/
structure Relocation where
  symbolname : String
  offset : Int
  type : RelocType
  objectname : String
deriving DecidableEq, Repr

/-- Modelled from the spec: class `Hunk` is declared in `Hunk.h`, which is not
part of the sources. An image fragment holds its bytes, a used length, and the
symbol and relocation records added to it, kept here in the order of the
`addSymbol` and `addRelocation` calls. -/
structure Hunk where
  name : String
  data : List Nat
  flags : List HunkFlag
  alignmentBits : Nat
  rawsize : Int
  virtualsize : Int
  symbols : List Symbol
  relocations : List Relocation
deriving DecidableEq, Repr

namespace Hunk

/-- Modelled from the spec: `addSymbol` adds a named symbol record. -/
def addSymbol (h : Hunk) (s : Symbol) : Hunk := { h with symbols := h.symbols ++ [s] }

/-- Modelled from the spec: `addRelocation` adds a relocation record. -/
def addRelocation (h : Hunk) (r : Relocation) : Hunk :=
  { h with relocations := h.relocations ++ [r] }

/-- Modelled from the spec: `appendZeroes(n)` appends `n` zero bytes. -/
def appendZeroes (h : Hunk) (n : Nat) : Hunk :=
  { h with data := h.data ++ List.replicate n 0, rawsize := h.rawsize + n }

/-- Modelled from the spec: raw pointer to the bytes of the fragment. -/
def getPtr (h : Hunk) : List Nat := h.data

/-- Modelled from the spec: `setRawSize(n)` sets the used length to `n`; the
bytes of the fragment are those below its used length. -/
def setRawSize (h : Hunk) (n : Int) : Hunk := { h with rawsize := n }

end Hunk

/-! ## Memory accesses -/

/-- The four bytes of a stored 32-bit `int`, little endian. -/
def le32 (w : Int) : List Nat :=
  let u := (w % 4294967296).toNat
  [u % 256, u / 256 % 256, u / 65536 % 256, u / 16777216 % 256]

/-- The two bytes of a stored 16-bit `short`, little endian. -/
def le16 (w : Int) : List Nat :=
  let u := (w % 65536).toNat
  [u % 256, u / 256 % 256]

/-- The C string a `std::string` hands out through `c_str()`: its characters
up to the first NUL. -/
def c_str (s : String) : List Char := s.data.takeWhile (fun c => c.toNat ≠ 0)

/-- The bytes `strcpy` writes for a C string: the characters and the NUL. -/
def strcpyBytes (s : List Char) : List Nat := s.map Char.toNat ++ [0]

/-- The byte at offset `i`, if it lies in the buffer. -/
def readByte (data : List Nat) (i : Int) : Option Nat :=
  if 0 ≤ i then data[i.toNat]? else none

/-- Load of an `int` through `(int*)&data[i]`. -/
def read32 (data : List Nat) (i : Int) : Option Int :=
  match readByte data i, readByte data (i + 1), readByte data (i + 2), readByte data (i + 3) with
  | some b0, some b1, some b2, some b3 =>
    some (toInt32 ((b0 : Int) + 256 * b1 + 65536 * b2 + 16777216 * b3))
  | _, _, _, _ => none

/-- Conversion to `short`: the representative in `[-2^15, 2^15)` modulo `2^16`. -/
def toInt16 (x : Int) : Int := (x + 32768) % 65536 - 32768

/-- Load of a `short` through `(short*)&data[i]`. -/
def read16 (data : List Nat) (i : Int) : Option Int :=
  match readByte data i, readByte data (i + 1) with
  | some b0, some b1 => some (toInt16 ((b0 : Int) + 256 * b1))
  | _, _ => none

/-- The C string starting at `&data[i]`, read up to its NUL; `none` when the
pointer is outside the buffer or no NUL follows. -/
def readCString (data : List Nat) (i : Int) : Option (List Char) :=
  if 0 ≤ i ∧ i.toNat < data.length ∧ 0 ∈ data.drop i.toNat then
    some (((data.drop i.toNat).takeWhile (fun b => b ≠ 0)).map Char.ofNat)
  else none

/-! ## `createExportTable` -/

/-- `values[k] = v` on a `std::map<int, int>`, kept as a list ascending by key. -/
def mapAssign : List (Int × Int) → Int → Int → List (Int × Int)
  | [], k, v => [(k, v)]
  | (k', v') :: m, k, v =>
    if k < k' then (k, v) :: (k', v') :: m
    else if k = k' then (k', v) :: m
    else (k', v') :: mapAssign m k v

/-- Reading `values[k]` of a `std::map<int, int>` (0 for a key not in it). -/
def mapAt : List (Int × Int) → Int → Int
  | [], _ => 0
  | (k', v') :: m, k => if k = k' then v' else mapAt m k

namespace createExportTable

/-- First loop: `values[e.getValue()] = 0` for every export with a value. -/
def collectValues (exports : List Export) : List (Int × Int) :=
  exports.foldl (fun m e => if e.hasValue then mapAssign m e.getValue 0 else m) []

/-- The loop `for (auto& v : values) v.second = index++`. -/
def numberValues : List (Int × Int) → Int → List (Int × Int)
  | [], _ => []
  | (k, _) :: m, index => (k, index) :: numberValues m (index + 1)

/-- The map `values` after both loops. -/
def values (exports : List Export) : List (Int × Int) :=
  numberValues (collectValues exports) 0

def total_name_length (exports : List Export) : Nat :=
  (exports.map (fun e => e.getName.length + 1)).sum

def table_offset (exports : List Export) : Nat := (values exports).length * 4

def addresses_offset (exports : List Export) : Nat := table_offset exports + 40

def name_pointers_offset (exports : List Export) : Nat :=
  addresses_offset exports + exports.length * 4

def ordinals_offset (exports : List Export) : Nat :=
  name_pointers_offset exports + exports.length * 4

def names_offset (exports : List Export) : Nat :=
  ordinals_offset exports + exports.length * 2

def hunk_size (exports : List Export) : Nat :=
  names_offset exports + total_name_length exports

/-- Bytes written by "Put values". -/
def putValues (exports : List Export) : List Nat :=
  (values exports).flatMap (fun v => le32 v.1)

/-- Bytes written by "Put table": the ten words of the directory header. -/
def putTable (CRINKLER_IMAGEBASE : Int) (exports : List Export) : List Nat :=
  [0, 0, 0, 0, 1, (exports.length : Int), (exports.length : Int),
    -CRINKLER_IMAGEBASE, -CRINKLER_IMAGEBASE, -CRINKLER_IMAGEBASE].flatMap le32

/-- Bytes written by "Put addresses and name pointers". -/
def putAddresses (CRINKLER_IMAGEBASE : Int) (exports : List Export) : List Nat :=
  (List.replicate (exports.length * 2) (-CRINKLER_IMAGEBASE)).flatMap le32

/-- Bytes written by "Put ordinals". -/
def putOrdinals (exports : List Export) : List Nat :=
  (List.range exports.length).flatMap (fun i => le16 (i : Int))

/-- Bytes written by "Put names": `strcpy` of each name, the cursor moving on
by `strlen(name) + 1`. -/
def putNames (exports : List Export) : List Nat :=
  exports.flatMap (fun e => strcpyBytes (c_str e.getName))

/-- The bytes written through the cursor `words`/`ordinals`/`names`, which
starts at `&data[0]` and only moves forward. -/
def written (CRINKLER_IMAGEBASE : Int) (exports : List Export) : List Nat :=
  putValues exports ++ putTable CRINKLER_IMAGEBASE exports ++
    putAddresses CRINKLER_IMAGEBASE exports ++ putOrdinals exports ++ putNames exports

/-- The vector `data(hunk_size)` after all writes: it starts zeroed, and the
bytes the cursor does not reach stay zero. -/
def data (CRINKLER_IMAGEBASE : Int) (exports : List Export) : List Nat :=
  written CRINKLER_IMAGEBASE exports ++
    List.replicate (hunk_size exports - (written CRINKLER_IMAGEBASE exports).length) 0

/-- Symbols added for the literal values: one per export with a value. -/
def valueSymbols (exports : List Export) : List Symbol :=
  (exports.filter (fun e => e.hasValue)).map (fun e =>
    { name := String.mk (c_str e.getName),
      value := mapAt (values exports) e.getValue * 4,
      flags := [SymbolFlag.SYMBOL_IS_RELOCATEABLE], miscString := "" })

/-- Symbols `_ExportName_<name>`, `name_offset` running over the names. -/
def nameSymbols : List Export → Nat → List Symbol
  | [], _ => []
  | e :: es, name_offset =>
    { name := String.mk (c_str ("_ExportName_" ++ e.getName)),
      value := (name_offset : Int),
      flags := [SymbolFlag.SYMBOL_IS_RELOCATEABLE], miscString := "" } ::
      nameSymbols es (name_offset + (e.getName.length + 1))

/-- All `addSymbol` calls, in order. -/
def symbols (exports : List Export) : List Symbol :=
  [{ name := "exports", value := 0,
     flags := [SymbolFlag.SYMBOL_IS_RELOCATEABLE, SymbolFlag.SYMBOL_IS_SECTION],
     miscString := "EXPORT" }] ++
  valueSymbols exports ++
  [{ name := "_ExportTable", value := (table_offset exports : Int),
     flags := [SymbolFlag.SYMBOL_IS_RELOCATEABLE], miscString := "" },
   { name := "_ExportAddresses", value := (addresses_offset exports : Int),
     flags := [SymbolFlag.SYMBOL_IS_RELOCATEABLE], miscString := "" },
   { name := "_ExportNames", value := (name_pointers_offset exports : Int),
     flags := [SymbolFlag.SYMBOL_IS_RELOCATEABLE], miscString := "" },
   { name := "_ExportOrdinals", value := (ordinals_offset exports : Int),
     flags := [SymbolFlag.SYMBOL_IS_RELOCATEABLE], miscString := "" }] ++
  nameSymbols exports (names_offset exports)

/-- The two relocations of each export, `i` counting the exports. -/
def exportRelocations (addresses_offset name_pointers_offset : Nat) :
    List Export → Nat → List Relocation
  | [], _ => []
  | e :: es, i =>
    { symbolname := if e.hasValue then e.getName else e.getSymbol,
      offset := ((addresses_offset + i * 4 : Nat) : Int),
      type := RelocType.RELOCTYPE_ABS32, objectname := "EXPORT" } ::
    { symbolname := "_ExportName_" ++ e.getName,
      offset := ((name_pointers_offset + i * 4 : Nat) : Int),
      type := RelocType.RELOCTYPE_ABS32, objectname := "EXPORT" } ::
    exportRelocations addresses_offset name_pointers_offset es (i + 1)

/-- All `addRelocation` calls, in order. -/
def relocations (exports : List Export) : List Relocation :=
  [{ symbolname := "_ExportAddresses", offset := ((table_offset exports + 28 : Nat) : Int),
     type := RelocType.RELOCTYPE_ABS32, objectname := "EXPORT" },
   { symbolname := "_ExportNames", offset := ((table_offset exports + 32 : Nat) : Int),
     type := RelocType.RELOCTYPE_ABS32, objectname := "EXPORT" },
   { symbolname := "_ExportOrdinals", offset := ((table_offset exports + 36 : Nat) : Int),
     type := RelocType.RELOCTYPE_ABS32, objectname := "EXPORT" }] ++
  exportRelocations (addresses_offset exports) (name_pointers_offset exports) exports 0

end createExportTable

/-- `createExportTable(exports)`: the hunk `"Exports"` with its bytes, symbols
and relocations. `CRINKLER_IMAGEBASE` is a constant of `Crinkler.h`. -/
def createExportTable (CRINKLER_IMAGEBASE : Int) (exports : List Export) : Hunk :=
  let hunk : Hunk :=
    { name := "Exports", data := createExportTable.data CRINKLER_IMAGEBASE exports,
      flags := [HunkFlag.HUNK_IS_TRAILING], alignmentBits := 2,
      rawsize := (createExportTable.hunk_size exports : Int),
      virtualsize := (createExportTable.hunk_size exports : Int),
      symbols := [], relocations := [] }
  let hunk := (createExportTable.symbols exports).foldl Hunk.addSymbol hunk
  (createExportTable.relocations exports).foldl Hunk.addRelocation hunk

/-! ## `stripExports` -/

/-- Modelled from the spec: `Export::operator<` is declared in `Export.h`, which
is not part of the sources. Exports are ordered by name; names compare as
`std::string` does, character by character. -/
def nameLt (a b : String) : Prop := a.data < b.data

instance nameLt.decidable (a b : String) : Decidable (nameLt a b) :=
  inferInstanceAs (Decidable (a.data < b.data))

/-- A `std::set<Export>`: the records strictly ascending by name. -/
def IsExportSet (exports : List Export) : Prop :=
  exports.Pairwise (fun a b => nameLt a.m_name b.m_name)

/-- `std::set<Export>::insert`: the record goes to its place in the ascending
order of names, and the set stays as it is when it has the name already. -/
def setInsert (e : Export) : List Export → List Export
  | [] => [e]
  | x :: xs =>
    if nameLt e.m_name x.m_name then e :: x :: xs
    else if nameLt x.m_name e.m_name then x :: setInsert e xs
    else x :: xs

/-- The comparison handed to `std::stable_sort`: `a.second < b.second`. -/
def lessSecond (a b : Int × Int) : Bool := a.2 < b.2

/-- Insertion of `p` in front of a sorted vector: `p` moves behind the entries
that compare less than it, and stays in front of those it is equivalent to. -/
def stableInsert (p : Int × Int) : List (Int × Int) → List (Int × Int)
  | [] => [p]
  | q :: qs => if lessSecond q p then q :: stableInsert p qs else p :: q :: qs

/-- `std::stable_sort` with `lessSecond`: the sorted arrangement that keeps
equivalent entries in their original order. -/
def stable_sort : List (Int × Int) → List (Int × Int)
  | [] => []
  | p :: ps => stableInsert p (stable_sort ps)

namespace stripExports

/-- The loop "Collect exports" from index `i` on, `k` iterations left: the
pairs (offset the `char*` name points at, address offset). -/
def collect (data : List Nat) (rva_to_offset addresses_offset name_pointers_offset
    ordinals_offset : Int) : Nat → Int → Option (List (Int × Int))
  | 0, _ => some []
  | k + 1, i =>
    match read16 data (ordinals_offset + 2 * i) with
    | none => none
    | some ordinal =>
      match read32 data (addresses_offset + 4 * ordinal),
          read32 data (name_pointers_offset + 4 * i) with
      | some address, some name_pointer =>
        match collect data rva_to_offset addresses_offset name_pointers_offset
            ordinals_offset k (i + 1) with
        | some l =>
          some ((toInt32 (name_pointer + rva_to_offset), toInt32 (address + rva_to_offset)) :: l)
        | none => none
      | _, _ => none

/-- The loop "Extract value exports". The vector `export_offsets` is given
back to front, so that its head is `export_offsets.back()`; the result is what
is left of the vector (back to front), `export_hunk_offset` and the set. -/
def extractValues (data : List Nat) :
    List (Int × Int) → Int → List Export → Option (List (Int × Int) × Int × List Export)
  | [], export_hunk_offset, exports => some ([], export_hunk_offset, exports)
  | back :: others, export_hunk_offset, exports =>
    if back.2 ≥ toInt32 (export_hunk_offset - 4) then
      match read32 data back.2, readCString data back.1 with
      | some value, some name =>
        extractValues data others back.2
          (setInsert (Export.fromValue (String.mk name) value) exports)
      | _, _ => none
    else some (back :: others, export_hunk_offset, exports)

/-- The loop "Get remaining exports" over the vector front to back. -/
def remaining (data : List Nat) :
    List (Int × Int) → Hunk → List Export → Option (Hunk × List Export)
  | [], phase1, exports => some (phase1, exports)
  | export_offset :: others, phase1, exports =>
    match readCString data export_offset.1 with
    | some name =>
      remaining data others
        (phase1.addSymbol
          { name := String.mk name, value := export_offset.2,
            flags := [SymbolFlag.SYMBOL_IS_RELOCATEABLE], miscString := "EXPORT" })
        (setInsert (Export.fromSymbol (String.mk name) (String.mk name)) exports)
    | none => none

/-- "Collect exports" to "Truncate hunk": the body of `stripExports` once the
tables are located. -/
def fromTables (data : List Nat) (phase1 : Hunk) (rva_to_offset table_offset n_exports
    addresses_offset name_pointers_offset ordinals_offset : Int) : Option (List Export × Hunk) :=
  match collect data rva_to_offset addresses_offset name_pointers_offset ordinals_offset
      n_exports.toNat 0 with
  | none => none
  | some export_offsets =>
    let export_offsets := stable_sort export_offsets
    match extractValues data export_offsets.reverse table_offset [] with
    | none => none
    | some (export_offsets, export_hunk_offset, exports) =>
      match remaining data export_offsets.reverse phase1 exports with
      | none => none
      | some (phase1, exports) => some (exports, phase1.setRawSize export_hunk_offset)

end stripExports

/-- `stripExports(phase1, exports_rva)`: the set of exports and the hunk as it
is left. `CRINKLER_IMAGEBASE` and `CRINKLER_CODEBASE` are constants of
`Crinkler.h`. -/
def stripExports (CRINKLER_IMAGEBASE CRINKLER_CODEBASE : Int) (phase1 : Hunk)
    (exports_rva : Int) : Option (List Export × Hunk) :=
  let rva_to_offset := toInt32 (CRINKLER_IMAGEBASE - CRINKLER_CODEBASE)
  let phase1 := phase1.appendZeroes 1
  let data := phase1.getPtr
  let table_offset := toInt32 (exports_rva + rva_to_offset)
  match read32 data (table_offset + 24), read32 data (table_offset + 28),
      read32 data (table_offset + 32), read32 data (table_offset + 36) with
  | some n_exports, some t7, some t8, some t9 =>
    stripExports.fromTables data phase1 rva_to_offset table_offset n_exports
      (toInt32 (t7 + rva_to_offset)) (toInt32 (t8 + rva_to_offset))
      (toInt32 (t9 + rva_to_offset))
  | _, _, _, _ => none

/-! ## Linking: the fragment inside the image `stripExports` is given -/

/-- Store of an `int` through `(int*)&data[i]`; `none` outside the buffer. -/
def write32 (data : List Nat) (i : Int) (w : Int) : Option (List Nat) :=
  if 0 ≤ i ∧ i.toNat + 4 ≤ data.length then
    some (data.take i.toNat ++ le32 w ++ data.drop (i.toNat + 4))
  else none

/-- Modelled from the spec: relocation is done by the linker around this code
(`Hunk::relocate` is not part of the sources). A slot holds the image-base
sentinel `-CRINKLER_IMAGEBASE` and is corrected by its relocation to the RVA
of the target: the address of the target, which lies at offset `target` of the
image loaded at `CRINKLER_CODEBASE`, is added to the word. The relocations
are against the labels of `lookup` (offset of a label in the image), and the
fragment lies at offset `base` of the image. -/
def relocate (CRINKLER_CODEBASE : Int) (lookup : String → Option Int) (base : Int) :
    List Relocation → List Nat → Option (List Nat)
  | [], data => some data
  | r :: rs, data =>
    match lookup r.symbolname, read32 data (base + r.offset) with
    | some target, some word =>
      match write32 data (base + r.offset) (word + (target + CRINKLER_CODEBASE)) with
      | some data' => relocate CRINKLER_CODEBASE lookup base rs data'
      | none => none
    | _, _ => none

/-- Modelled from the spec: the image fragment that holds the content `pre`
followed by the trailing hunk `table`, its relocations resolved. -/
def link (CRINKLER_CODEBASE : Int) (lookup : String → Option Int) (pre table : Hunk) :
    Option Hunk :=
  match relocate CRINKLER_CODEBASE lookup pre.data.length table.relocations
      (pre.data ++ table.data) with
  | some data =>
    some { pre with
      data := data
      rawsize := (data.length : Int)
      virtualsize := (data.length : Int)
      symbols := pre.symbols ++
        table.symbols.map (fun s => { s with value := s.value + pre.data.length }) }
  | none => none

/-! ## Literals as the specification describes them -/

/-- Value of a digit text read in `base`, most significant digit first. -/
def literalValue (base : Nat) (digits : List Char) : Nat :=
  Nat.ofDigits base (digits.reverse.map (fun c => (digitValue c).getD 0))

/-- `WellFormedLiteral text base digits`: `text` is a well-formed literal whose
implied base is `base` and whose digit text is `digits`: `0x`/`0X` and at
least one hexadecimal digit, or `0` and octal digits, or a decimal number
starting with a digit other than `0`. -/
inductive WellFormedLiteral : List Char → Nat → List Char → Prop
  | hex (x : Char) (ds : List Char) : (x = 'x' ∨ x = 'X') → ds ≠ [] →
      (∀ c ∈ ds, (digitIn 16 c).isSome) → WellFormedLiteral ('0' :: x :: ds) 16 ds
  | octal (ds : List Char) : (∀ c ∈ ds, (digitIn 8 c).isSome) →
      WellFormedLiteral ('0' :: ds) 8 ('0' :: ds)
  | decimal (c : Char) (ds : List Char) : c ≠ '0' → (digitIn 10 c).isSome →
      (∀ c ∈ ds, (digitIn 10 c).isSome) → WellFormedLiteral (c :: ds) 10 (c :: ds)

/-- Number of distinct literal values among the exports that have a value. -/
def distinctValues (exports : List Export) : Nat :=
  ((exports.filter (fun e => e.hasValue)).map (fun e => e.getValue)).dedup.length
/-- The name of the export `i` of `manyExports`: three characters, the digits
of `i` in base 64 with `0` as the digit zero, so that for `i < 262144` the
names ascend with `i` and hold no NUL. -/
def exportName (i : Nat) : String :=
  String.mk [Char.ofNat (48 + i / 4096), Char.ofNat (48 + i / 64 % 64), Char.ofNat (48 + i % 64)]

/-- An Export Set of `n` symbol exports with the three-character names
`exportName 0`, `exportName 1`, ..., all of them for the symbol `f`. -/
def manyExports (n : Nat) : List Export :=
  (List.range n).map (fun i => Export.fromSymbol (exportName i) "f")

/-! ## A small image, used to instantiate the theorems -/

/-- Two exports: the literal value 5 and the symbol `main`. -/
def exampleExports : List Export := [Export.fromValue "A" 5, Export.fromSymbol "D" "main"]

/-- Eight bytes of content, with the label `main` at offset 2. -/
def examplePre : Hunk :=
  { name := "code", data := [85, 137, 195, 144, 144, 144, 144, 144], flags := [],
    alignmentBits := 0, rawsize := 8, virtualsize := 8,
    symbols := [{ name := "main", value := 2, flags := [], miscString := "" }],
    relocations := [] }

/-- The labels of an image: those of `labels`, and those of the export table
of `exports` placed at offset `base`. -/
def imageLookup (labels : List (String × Int)) (exports : List Export) (base : Int)
    (s : String) : Option Int :=
  match labels.find? (fun l => l.1 = s) with
  | some l => some l.2
  | none =>
    ((createExportTable 4194304 exports).symbols.find? (fun y => y.name = s)).map
      (fun y => base + y.value)

/-- Labels of the example image: `main` at offset 2, the table at offset 8. -/
def exampleLookup : String → Option Int := imageLookup [("main", 2)] exampleExports 8

/-- An image without content in front of the export table. -/
def emptyPre : Hunk :=
  { name := "code", data := [], flags := [], alignmentBits := 0, rawsize := 0,
    virtualsize := 0, symbols := [], relocations := [] }

/-- The image in which `examplePre` is followed by the export table of
`exampleExports`, relocated: what `link` gives for them. -/
def exampleImage : Hunk :=
  { name := "code",
    data := [85, 137, 195, 144, 144, 144, 144, 144, 5, 0, 0, 0, 0, 0, 0, 0, 0, 0, 0, 0, 0, 0, 0,
      0, 0, 0, 0, 0, 1, 0, 0, 0, 2, 0, 0, 0, 2, 0, 0, 0, 52, 0, 2, 0, 60, 0, 2, 0, 68, 0, 2, 0,
      8, 0, 2, 0, 2, 0, 2, 0, 72, 0, 2, 0, 74, 0, 2, 0, 0, 0, 1, 0, 65, 0, 68, 0],
    flags := [], alignmentBits := 0, rawsize := 76, virtualsize := 76,
    symbols := examplePre.symbols ++
      (createExportTable 4194304 exampleExports).symbols.map
        (fun s => { s with value := s.value + 8 }),
    relocations := [] }

/-! ## Vocabulary of the round trip -/

/-- The relocation record `{ symbolname, offset, RELOCTYPE_ABS32, "EXPORT" }`. -/
def abs32 (r : String × Nat) : Relocation :=
  { symbolname := r.1, offset := (r.2 : Int), type := RelocType.RELOCTYPE_ABS32,
    objectname := "EXPORT" }

/-- The label the address-table slot of an export is relocated against. -/
def exportLabel (e : Export) : String := if e.hasValue then e.getName else e.getSymbol

/-- The exports with their index and the offset of their name, counted from
index `i` and offset `off` on. -/
def entries : List Export → Nat → Nat → List (Nat × Export × Nat)
  | [], _, _ => []
  | e :: es, i, off => (i, e, off) :: entries es (i + 1) (off + (e.getName.length + 1))

/-- The record `stripExports` gives back for an export of the table: a value
export as it is, a symbol export as the self-referencing `Export(name, name)`. -/
def recovered (e : Export) : Export :=
  if e.hasValue then Export.fromValue e.getName e.getValue
  else Export.fromSymbol e.getName e.getName

/-- The symbol `stripExports` adds for a symbol export: its name, at the
offset its symbol reference resolves to. -/
def recoveredSymbol (lookup : String → Option Int) (e : Export) : Symbol :=
  { name := e.getName, value := (lookup e.getSymbol).getD 0,
    flags := [SymbolFlag.SYMBOL_IS_RELOCATEABLE], miscString := "EXPORT" }

/-- The setting of the round trip: the Export Set `exports` is encoded by
`createExportTable`, the hunk is placed behind the content `pre` of an image
and its relocations are resolved by `lookup`.

* `exports` is a `std::set` (strictly ascending names), the names hold no NUL,
  the literal values are `int`s and there are at most 32768 exports;
* the image is loaded at or above the image base, and the RVAs of the image
  with the table are `int`s;
* the labels of the hunk resolve to where the hunk lies, and the symbol
  reference of every symbol export resolves to an offset of the content
  `pre`, more than four bytes below the table. -/
structure Linked (IB CB : Int) (lookup : String → Option Int) (pre : Hunk)
    (exports : List Export) : Prop where
  sorted : IsExportSet exports
  nul_free : ∀ e ∈ exports, ∀ c ∈ e.m_name.data, c.toNat ≠ 0
  int_values : ∀ e ∈ exports, e.hasValue = true →
    -2147483648 ≤ e.m_value ∧ e.m_value < 2147483648
  count : exports.length ≤ 32768
  bases : 0 ≤ CB - IB
  fits : (pre.data.length : Int) + createExportTable.hunk_size exports + (CB - IB) < 2147483648
  own_labels : ∀ s ∈ (createExportTable IB exports).symbols,
    lookup s.name = some ((pre.data.length : Int) + s.value)
  symbol_refs : ∀ e ∈ exports, e.hasValue = false →
    ∃ a, lookup e.getSymbol = some a ∧ 0 ≤ a ∧ a < (pre.data.length : Int) - 4

/-- The two relocation slots of an export: label and offset. -/
def slotsOf (addresses_offset name_pointers_offset : Nat) (t : Nat × Export × Nat) :
    List (String × Nat) :=
  [(exportLabel t.2.1, addresses_offset + t.1 * 4),
   ("_ExportName_" ++ t.2.1.getName, name_pointers_offset + t.1 * 4)]

/-- All relocation slots of the table: label and offset. -/
def relocSlots (exports : List Export) : List (String × Nat) :=
  [("_ExportAddresses", createExportTable.table_offset exports + 28),
   ("_ExportNames", createExportTable.table_offset exports + 32),
   ("_ExportOrdinals", createExportTable.table_offset exports + 36)] ++
  (entries exports 0 0).flatMap (slotsOf (createExportTable.addresses_offset exports)
    (createExportTable.name_pointers_offset exports))

open createExportTable in
/-- What `stripExports` reads in a memory `D` that holds, at offset `B`, the
relocated table of `exports`: the header fields, the three tables, the value
slots and the names. -/
structure TableAt (IB CB : Int) (lookup : String → Option Int) (B : Nat)
    (exports : List Export) (D : List Nat) : Prop where
  count : read32 D ((B + table_offset exports + 24 : Nat) : Int) = some (exports.length : Int)
  addresses : read32 D ((B + table_offset exports + 28 : Nat) : Int) =
    some (((B + addresses_offset exports : Nat) : Int) + (CB - IB))
  names : read32 D ((B + table_offset exports + 32 : Nat) : Int) =
    some (((B + name_pointers_offset exports : Nat) : Int) + (CB - IB))
  ordinals : read32 D ((B + table_offset exports + 36 : Nat) : Int) =
    some (((B + ordinals_offset exports : Nat) : Int) + (CB - IB))
  ordinal : ∀ k, k < exports.length →
    read16 D ((B + ordinals_offset exports + 2 * k : Nat) : Int) = some (k : Int)
  address : ∀ t ∈ entries exports 0 (names_offset exports), ∀ target,
    lookup (exportLabel t.2.1) = some target →
    read32 D ((B + addresses_offset exports + 4 * t.1 : Nat) : Int) =
      some (toInt32 (target + (CB - IB)))
  name_pointer : ∀ t ∈ entries exports 0 (names_offset exports),
    read32 D ((B + name_pointers_offset exports + 4 * t.1 : Nat) : Int) =
      some (((B + t.2.2 : Nat) : Int) + (CB - IB))
  value : ∀ (k : Nat) (v : Int), ((values exports).map Prod.fst)[k]? = some v →
    read32 D ((B + 4 * k : Nat) : Int) = some (toInt32 v)
  name : ∀ t ∈ entries exports 0 (names_offset exports),
    readCString D ((B + t.2.2 : Nat) : Int) = some t.2.1.getName.data

/-- The name `stripExports` reads for a collected pair. -/
def nameAt (D : List Nat) (p : Int × Int) : String := String.mk ((readCString D p.1).getD [])

/-- The value export `stripExports` makes of a collected pair. -/
def valueOf (D : List Nat) (p : Int × Int) : Export :=
  Export.fromValue (nameAt D p) ((read32 D p.2).getD 0)

/-- The symbol export `stripExports` makes of a collected pair. -/
def symbolOf (D : List Nat) (p : Int × Int) : Export :=
  Export.fromSymbol (nameAt D p) (nameAt D p)

/-- The symbol `stripExports` adds for a collected pair. -/
def symbolAt (D : List Nat) (p : Int × Int) : Symbol :=
  { name := nameAt D p, value := p.2, flags := [SymbolFlag.SYMBOL_IS_RELOCATEABLE],
    miscString := "EXPORT" }

/-- The export made of a pair, by the side of `B` its address offset lies on. -/
def recAt (D : List Nat) (B : Int) (p : Int × Int) : Export :=
  if B ≤ p.2 then valueOf D p else symbolOf D p

/-- The pair `stripExports` collects for an entry of the table at `B`. -/
def pairOf (lookup : String → Option Int) (B : Nat) (t : Nat × Export × Nat) : Int × Int :=
  (((B + t.2.2 : Nat) : Int), (lookup (exportLabel t.2.1)).getD 0)

/-- Insertion of a sequence of records into a `std::set<Export>`. -/
def insertAll (X : List Export) (s : List Export) : List Export :=
  X.foldl (fun s e => setInsert e s) s

/-! ## Vocabulary of the later properties -/

/-- The two relocations registered for the export `x.2` of index `x.1`. -/
def relocationsOf (addresses_offset name_pointers_offset : Nat) (x : Nat × Export) :
    List Relocation :=
  [abs32 (if x.2.hasValue then x.2.getName else x.2.getSymbol, addresses_offset + x.1 * 4),
   abs32 ("_ExportName_" ++ x.2.getName, name_pointers_offset + x.1 * 4)]

namespace createExportTable

/-- The write cursor `words`, as an offset from `&data[0]`, when the assertion
after "Put values" is reached: the bytes written so far. -/
def cursorAfterValues (exports : List Export) : Nat := (putValues exports).length

/-- The write cursor when the assertion after "Put table" is reached. -/
def cursorAfterTable (CRINKLER_IMAGEBASE : Int) (exports : List Export) : Nat :=
  cursorAfterValues exports + (putTable CRINKLER_IMAGEBASE exports).length

/-- The write cursor when the assertion after "Put addresses and name
pointers" is reached. -/
def cursorAfterAddresses (CRINKLER_IMAGEBASE : Int) (exports : List Export) : Nat :=
  cursorAfterTable CRINKLER_IMAGEBASE exports + (putAddresses CRINKLER_IMAGEBASE exports).length

/-- The cursor `ordinals` when the assertion after "Put ordinals" is reached. -/
def cursorAfterOrdinals (CRINKLER_IMAGEBASE : Int) (exports : List Export) : Nat :=
  cursorAfterAddresses CRINKLER_IMAGEBASE exports + (putOrdinals exports).length

/-- The cursor `names` when the assertion after "Put names" is reached. -/
def cursorAfterNames (CRINKLER_IMAGEBASE : Int) (exports : List Export) : Nat :=
  cursorAfterOrdinals CRINKLER_IMAGEBASE exports + (putNames exports).length

/-- The five `assert`s of `createExportTable`, in order. -/
def assertions (CRINKLER_IMAGEBASE : Int) (exports : List Export) : List Prop :=
  [cursorAfterValues exports = table_offset exports,
   cursorAfterTable CRINKLER_IMAGEBASE exports = addresses_offset exports,
   cursorAfterAddresses CRINKLER_IMAGEBASE exports = ordinals_offset exports,
   cursorAfterOrdinals CRINKLER_IMAGEBASE exports = names_offset exports,
   cursorAfterNames CRINKLER_IMAGEBASE exports = hunk_size exports]

end createExportTable

/-- The bytes of a name in the Names block: its characters and one NUL. -/
def nameBytes (e : Export) : List Nat := e.getName.data.map Char.toNat ++ [0]

/-- Offset of the name of export `i` inside the Names block: the lengths of
the names in front of it, each with its NUL. -/
def nameOffset (exports : List Export) (i : Nat) : Nat :=
  ((exports.take i).map (fun e => e.getName.length + 1)).sum

/-- The names of a list of exports hold no NUL character. -/
def NulFree (exports : List Export) : Prop :=
  ∀ e ∈ exports, ∀ c ∈ e.m_name.data, c.toNat ≠ 0

/-! ## `printExports` -/

/-- The digit `d` as `%X` prints it. -/
def hexChar (d : Nat) : Char := "0123456789ABCDEF".data.getD d '0'

/-- The digits of `n` in base 16, most significant first, without leading
zeros; `fuel` bounds the number of digits. -/
def hexUpper : Nat → Nat → List Char
  | 0, _ => []
  | fuel + 1, n => if n < 16 then [hexChar n] else hexUpper fuel (n / 16) ++ [hexChar (n % 16)]

/-- The conversion `%08X` of `printf` applied to an `int`: the argument is read
as an `unsigned int`, written in upper-case hexadecimal and padded on the left
with zeros to at least 8 characters. An `unsigned int` has at most 8 such
digits. -/
def printf08X (value : Int) : List Char :=
  let ds := hexUpper 8 (value % 4294967296).toNat
  List.replicate (8 - ds.length) '0' ++ ds

namespace printExports

/-- The characters one pass through the loop of `printExports` prints. -/
def line (e : Export) : List Char :=
  if e.hasValue then
    "  ".data ++ c_str e.getName ++ " = 0x".data ++ printf08X e.getValue ++ "\n".data
  else if e.getSymbol = e.getName then
    "  ".data ++ c_str e.getName ++ "\n".data
  else
    "  ".data ++ c_str e.getName ++ " -> ".data ++ c_str e.getSymbol ++ "\n".data

end printExports

/-- `printExports(exports)`: the characters written to the standard output. -/
def printExports (exports : List Export) : List Char :=
  exports.foldl (fun out e => out ++ printExports.line e) []

/-- The text of the line of an export as the specification words it: the
name, ` = 0x` and the digits of the value; or the name alone; or the name,
` -> ` and the symbol reference. -/
def renderedText (e : Export) : List Char :=
  if e.hasValue then e.getName.data ++ " = 0x".data ++ printf08X e.getValue
  else if e.getSymbol = e.getName then e.getName.data
  else e.getName.data ++ " -> ".data ++ e.getSymbol.data

/-- A character is one of `0`..`9`, `A`..`F`. -/
def IsUpperHex (c : Char) : Prop :=
  (48 ≤ c.toNat ∧ c.toNat ≤ 57) ∨ (65 ≤ c.toNat ∧ c.toNat ≤ 70)

/-- Neither the names nor the symbol references of the exports hold a NUL. -/
def NulFreeText (exports : List Export) : Prop :=
  ∀ e ∈ exports, (∀ c ∈ e.m_name.data, c.toNat ≠ 0) ∧ (∀ c ∈ e.m_symbol.data, c.toNat ≠ 0)

/-! ## The passes of `stripExports` -/

namespace stripExports

/-- The memory `stripExports` reads, `data`: the bytes of the hunk after
`appendZeroes(1)`. -/
def memory (phase1 : Hunk) : List Nat := (phase1.appendZeroes 1).getPtr

/-- The local `table_offset`: the offset of the directory header in the hunk. -/
def headerOffset (CRINKLER_IMAGEBASE CRINKLER_CODEBASE exports_rva : Int) : Int :=
  toInt32 (exports_rva + toInt32 (CRINKLER_IMAGEBASE - CRINKLER_CODEBASE))

/-- "Locate tables": `n_exports`, `addresses_offset`, `name_pointers_offset`
and `ordinals_offset`. -/
def locate (CRINKLER_IMAGEBASE CRINKLER_CODEBASE : Int) (phase1 : Hunk) (exports_rva : Int) :
    Option (Int × Int × Int × Int) :=
  let rva_to_offset := toInt32 (CRINKLER_IMAGEBASE - CRINKLER_CODEBASE)
  let data := memory phase1
  let table_offset := headerOffset CRINKLER_IMAGEBASE CRINKLER_CODEBASE exports_rva
  match read32 data (table_offset + 24), read32 data (table_offset + 28),
      read32 data (table_offset + 32), read32 data (table_offset + 36) with
  | some n_exports, some t7, some t8, some t9 =>
    some (n_exports, toInt32 (t7 + rva_to_offset), toInt32 (t8 + rva_to_offset),
      toInt32 (t9 + rva_to_offset))
  | _, _, _, _ => none

/-- The vector `export_offsets` when the loop "Collect exports" is left. -/
def collected (CRINKLER_IMAGEBASE CRINKLER_CODEBASE : Int) (phase1 : Hunk) (exports_rva : Int) :
    Option (List (Int × Int)) :=
  match locate CRINKLER_IMAGEBASE CRINKLER_CODEBASE phase1 exports_rva with
  | some t =>
    collect (memory phase1) (toInt32 (CRINKLER_IMAGEBASE - CRINKLER_CODEBASE)) t.2.1 t.2.2.1
      t.2.2.2 t.1.toNat 0
  | none => none

/-- The vector `export_offsets` after `std::stable_sort`. -/
def sortedOffsets (CRINKLER_IMAGEBASE CRINKLER_CODEBASE : Int) (phase1 : Hunk)
    (exports_rva : Int) : Option (List (Int × Int)) :=
  (collected CRINKLER_IMAGEBASE CRINKLER_CODEBASE phase1 exports_rva).map stable_sort

/-- Number of pairs for which the condition of the loop "Extract value
exports" holds in turn; the vector is given back to front. -/
def scanCount : List (Int × Int) → Int → Nat
  | [], _ => 0
  | back :: others, export_hunk_offset =>
    if back.2 ≥ toInt32 (export_hunk_offset - 4) then scanCount others back.2 + 1 else 0

/-- The local `export_hunk_offset` when the condition of the loop "Extract
value exports" fails; the vector is given back to front. -/
def scanBoundary : List (Int × Int) → Int → Int
  | [], export_hunk_offset => export_hunk_offset
  | back :: others, export_hunk_offset =>
    if back.2 ≥ toInt32 (export_hunk_offset - 4) then scanBoundary others back.2
    else export_hunk_offset

/-- The pairs the loop "Extract value exports" pops off the sorted vector, in
the order it pops them: from the back of the vector on. -/
def consumed (sorted : List (Int × Int)) (table_offset : Int) : List (Int × Int) :=
  sorted.reverse.take (scanCount sorted.reverse table_offset)

/-- The pairs left in the sorted vector for the loop "Get remaining exports",
front to back. -/
def unconsumed (sorted : List (Int × Int)) (table_offset : Int) : List (Int × Int) :=
  (sorted.reverse.drop (scanCount sorted.reverse table_offset)).reverse

end stripExports

/-- The sorted vector `export_offsets` of `stripExports` on the example image:
the name of `D` at offset 74 with address offset 2, the name of `A` at offset
72 with address offset 8. -/
def exampleSorted : List (Int × Int) := [(74, 2), (72, 8)]

/-- The example image as `stripExports` leaves it. -/
def exampleStripped : Hunk :=
  ((exampleImage.appendZeroes 1).addSymbol
    { name := "D", value := 2, flags := [SymbolFlag.SYMBOL_IS_RELOCATEABLE],
      miscString := "EXPORT" }).setRawSize 8

/-- An image whose export table has two entries with the same name: behind the
eight bytes of `examplePre` the value 5 at offset 8, the directory header at
offset 12, the addresses of offsets 8 and 2 at offset 52, two name pointers to
offset 72 at offset 60, the ordinals 0 and 1 at offset 68 and the name `A` at
offset 72. -/
def duplicateImage : Hunk :=
  { name := "code",
    data := [85, 137, 195, 144, 144, 144, 144, 144, 5, 0, 0, 0, 0, 0, 0, 0, 0, 0, 0, 0, 0, 0, 0,
      0, 0, 0, 0, 0, 1, 0, 0, 0, 2, 0, 0, 0, 2, 0, 0, 0, 52, 0, 2, 0, 60, 0, 2, 0, 68, 0, 2, 0,
      8, 0, 2, 0, 2, 0, 2, 0, 72, 0, 2, 0, 72, 0, 2, 0, 0, 0, 1, 0, 65, 0, 65, 0],
    flags := [], alignmentBits := 0, rawsize := 76, virtualsize := 76,
    symbols := examplePre.symbols, relocations := [] }

/-! # Theorems -/

/-! ## Lemmas on `strtol` -/

theorem digitIn_some_toNat {base : Nat} {c : Char} {d : Nat} (h : digitIn base c = some d) :
    digitValue c = some d ∧ d < base := by
  unfold digitIn at h
  split at h
  · rename_i d' hd
    split at h
    · simp at h; subst h; exact ⟨hd, by assumption⟩
    · simp at h
  · simp at h

theorem literalValue_cons (base : Nat) (c : Char) (ds : List Char) :
    literalValue base (c :: ds) =
      (digitValue c).getD 0 * base ^ ds.length + literalValue base ds := by
  simp [literalValue, Nat.ofDigits_append, Nat.ofDigits_singleton]
  ring

theorem scanDigits_all (base : Nat) (ds : List Char)
    (h : ∀ c ∈ ds, (digitIn base c).isSome) (cnt acc : Nat) :
    scanDigits base cnt acc ds =
      (cnt + ds.length, acc * base ^ ds.length + literalValue base ds, []) := by
  induction ds generalizing cnt acc with
  | nil => simp [scanDigits, literalValue]
  | cons c ds ih =>
    have hc := h c (List.mem_cons_self _ _)
    obtain ⟨d, hd⟩ := Option.isSome_iff_exists.mp hc
    have hv := (digitIn_some_toNat hd).1
    rw [scanDigits, hd]
    simp only
    rw [ih (fun c hc => h c (List.mem_cons_of_mem _ hc)), literalValue_cons, hv]
    simp only [List.length_cons, Option.getD_some, pow_succ]
    refine Prod.ext (by simp; omega) (Prod.ext ?_ rfl)
    simp only
    ring

theorem digitIn_not_space {base : Nat} {c : Char} (h : (digitIn base c).isSome) :
    isspace c = false := by
  obtain ⟨d, hd⟩ := Option.isSome_iff_exists.mp h
  have hv := (digitIn_some_toNat hd).1
  unfold digitValue at hv
  unfold isspace
  split_ifs at hv <;> simp <;> omega

theorem digitIn_minus (base : Nat) : digitIn base '-' = none := by
  simp [digitIn, digitValue]

theorem digitIn_plus (base : Nat) : digitIn base '+' = none := by
  simp [digitIn, digitValue]

theorem digitIn_x : digitIn 16 'x' = none := by decide

theorem digitIn_X : digitIn 16 'X' = none := by decide

theorem takeHexLead_all (base : Nat) (ds : List Char)
    (h : ∀ c ∈ ds, (digitIn base c).isSome) : takeHexLead base ds = ds := by
  unfold takeHexLead
  split
  · rename_i z x hh r
    rw [if_neg]
    rintro ⟨hb, -, hx, -⟩
    have := h x (by simp)
    subst hb
    rcases hx with rfl | rfl
    · rw [digitIn_x] at this; simp at this
    · rw [digitIn_X] at this; simp at this
  · rfl

theorem strtol_all (base : Nat) (ds : List Char) (hne : ds ≠ [])
    (h : ∀ c ∈ ds, (digitIn base c).isSome) :
    strtol ds base = (max LONG_MIN (min LONG_MAX (literalValue base ds : Int)), []) := by
  obtain ⟨c, cs, rfl⟩ := List.exists_cons_of_ne_nil hne
  have hc := h c (List.mem_cons_self _ _)
  have hsp := digitIn_not_space hc
  have hm : c ≠ '-' := by
    rintro rfl; rw [digitIn_minus] at hc; simp at hc
  have hp : c ≠ '+' := by
    rintro rfl; rw [digitIn_plus] at hc; simp at hc
  have h1 : (c :: cs).dropWhile isspace = c :: cs := by
    simp [List.dropWhile, hsp]
  have h2 : takeSign (c :: cs) = (false, c :: cs) := by
    simp [takeSign, hm, hp]
  unfold strtol
  simp only [h1, h2, takeHexLead_all base (c :: cs) h, scanDigits_all base (c :: cs) h]
  simp

theorem char_le_iff (a b : Char) : a ≤ b ↔ a.toNat ≤ b.toNat := by
  show a.val ≤ b.val ↔ _
  rw [UInt32.le_def]
  rfl

theorem digitIn_ten_range {c : Char} (h : (digitIn 10 c).isSome) : '0' ≤ c ∧ c ≤ '9' := by
  obtain ⟨d, hd⟩ := Option.isSome_iff_exists.mp h
  obtain ⟨hv, hlt⟩ := digitIn_some_toNat hd
  rw [char_le_iff, char_le_iff]
  have h0 : '0'.toNat = 48 := by decide
  have h9 : '9'.toNat = 57 := by decide
  rw [h0, h9]
  unfold digitValue at hv
  split_ifs at hv with h1 h2 h3
  · exact h1
  · simp at hv; omega
  · simp at hv; omega

theorem digitIn_mono {c : Char} {b b' : Nat} (hb : b ≤ b') (h : (digitIn b c).isSome) :
    (digitIn b' c).isSome := by
  obtain ⟨d, hd⟩ := Option.isSome_iff_exists.mp h
  obtain ⟨hv, hlt⟩ := digitIn_some_toNat hd
  simp [digitIn, hv]
  omega

theorem toInt32_clamp_of_lt (v : Nat) (h : v < 2 ^ 31) :
    toInt32 (max LONG_MIN (min LONG_MAX (v : Int))) = v := by
  have h' : (v : Int) < 2147483648 := by
    have : (2 : Nat) ^ 31 = 2147483648 := by norm_num
    omega
  unfold toInt32 LONG_MIN LONG_MAX
  rw [min_eq_right (by omega), max_eq_right (by omega)]
  omega

/-! ## Lemmas on the map `values` -/

theorem mapAssign_keys_mem (m : List (Int × Int)) (k v k' : Int) :
    k' ∈ (mapAssign m k v).map Prod.fst ↔ k' = k ∨ k' ∈ m.map Prod.fst := by
  induction m with
  | nil => simp [mapAssign]
  | cons p m ih =>
    obtain ⟨a, b⟩ := p
    unfold mapAssign
    split_ifs with h1 h2
    · simp
    · subst h2; simp
    · simp only [List.map_cons, List.mem_cons, ih]
      tauto

theorem mapAssign_keys_sorted (m : List (Int × Int)) (k v : Int)
    (hm : (m.map Prod.fst).Pairwise (· < ·)) :
    ((mapAssign m k v).map Prod.fst).Pairwise (· < ·) := by
  induction m with
  | nil => simp [mapAssign]
  | cons p m ih =>
    obtain ⟨a, b⟩ := p
    simp only [List.map_cons, List.pairwise_cons] at hm
    unfold mapAssign
    split_ifs with h1 h2
    · simp only [List.map_cons, List.pairwise_cons]
      refine ⟨?_, hm⟩
      intro x hx
      rcases List.mem_cons.mp hx with rfl | hx
      · exact h1
      · exact lt_trans h1 (hm.1 x hx)
    · simpa using hm
    · simp only [List.map_cons, List.pairwise_cons]
      refine ⟨?_, ih hm.2⟩
      intro x hx
      rcases (mapAssign_keys_mem m k v x).mp hx with rfl | hx
      · omega
      · exact hm.1 x hx

namespace createExportTable

theorem collectValues_foldl_keys (exports : List Export) (m : List (Int × Int))
    (hm : (m.map Prod.fst).Pairwise (· < ·)) :
    ((exports.foldl (fun m e => if e.hasValue then mapAssign m e.getValue 0 else m) m).map
        Prod.fst).Pairwise (· < ·) ∧
    ∀ v, v ∈ (exports.foldl (fun m e => if e.hasValue then mapAssign m e.getValue 0 else m) m).map
        Prod.fst ↔ (v ∈ m.map Prod.fst ∨ ∃ e ∈ exports, e.hasValue = true ∧ e.getValue = v) := by
  induction exports generalizing m with
  | nil => simp [hm]
  | cons e es ih =>
    simp only [List.foldl_cons]
    by_cases he : e.hasValue = true
    · simp only [he, if_true]
      obtain ⟨h1, h2⟩ := ih (mapAssign m e.getValue 0) (mapAssign_keys_sorted m _ _ hm)
      refine ⟨h1, fun v => ?_⟩
      rw [h2, mapAssign_keys_mem]
      constructor
      · rintro ((rfl | h) | ⟨e', he', hv⟩)
        · exact Or.inr ⟨e, by simp, he, rfl⟩
        · exact Or.inl h
        · exact Or.inr ⟨e', by simp [he'], hv⟩
      · rintro (h | ⟨e', he', hv⟩)
        · exact Or.inl (Or.inr h)
        · rcases List.mem_cons.mp he' with rfl | he'
          · exact Or.inl (Or.inl hv.2.symm)
          · exact Or.inr ⟨e', he', hv⟩
    · have he' : e.hasValue = false := by simpa using he
      simp only [he', Bool.false_eq_true, if_false]
      obtain ⟨h1, h2⟩ := ih m hm
      refine ⟨h1, fun v => ?_⟩
      rw [h2]
      constructor
      · rintro (h | ⟨e', he', hv⟩)
        · exact Or.inl h
        · exact Or.inr ⟨e', by simp [he'], hv⟩
      · rintro (h | ⟨e', he', hv⟩)
        · exact Or.inl h
        · rcases List.mem_cons.mp he' with rfl | he'
          · exact absurd hv.1 he
          · exact Or.inr ⟨e', he', hv⟩

theorem numberValues_keys (m : List (Int × Int)) (i : Int) :
    (numberValues m i).map Prod.fst = m.map Prod.fst := by
  induction m generalizing i with
  | nil => simp [numberValues]
  | cons p m ih => obtain ⟨a, b⟩ := p; simp [numberValues, ih]

theorem numberValues_length (m : List (Int × Int)) (i : Int) :
    (numberValues m i).length = m.length := by
  have := congrArg List.length (numberValues_keys m i)
  simpa using this

theorem mapAt_numberValues (m : List (Int × Int)) (i : Int)
    (hm : (m.map Prod.fst).Pairwise (· < ·)) (j : Nat) (k : Int)
    (hj : (m.map Prod.fst)[j]? = some k) : mapAt (numberValues m i) k = i + j := by
  induction m generalizing i j with
  | nil => simp at hj
  | cons p m ih =>
    obtain ⟨a, b⟩ := p
    simp only [List.map_cons, List.pairwise_cons] at hm
    cases j with
    | zero =>
      simp at hj
      subst hj
      simp [numberValues, mapAt]
    | succ j =>
      simp only [List.map_cons, List.getElem?_cons_succ] at hj
      have hmem : k ∈ m.map Prod.fst := List.mem_iff_getElem?.mpr ⟨j, hj⟩
      have hne : k ≠ a := by
        have := hm.1 k hmem
        omega
      simp only [numberValues, mapAt, hne, if_false]
      rw [ih (i + 1) hm.2 j hj]
      push_cast
      ring

/-- The distinct literal values, ascending: the keys of the map `values`. -/
theorem values_keys_sorted (exports : List Export) :
    ((values exports).map Prod.fst).Pairwise (· < ·) := by
  unfold values
  rw [numberValues_keys]
  exact (collectValues_foldl_keys exports [] (by simp)).1

theorem values_keys_mem (exports : List Export) (v : Int) :
    v ∈ (values exports).map Prod.fst ↔ ∃ e ∈ exports, e.hasValue = true ∧ e.getValue = v := by
  unfold values
  rw [numberValues_keys]
  have := (collectValues_foldl_keys exports [] (by simp)).2 v
  simpa using this

theorem mapAt_values (exports : List Export) (j : Nat) (k : Int)
    (hj : ((values exports).map Prod.fst)[j]? = some k) :
    mapAt (values exports) k = j := by
  unfold values at hj ⊢
  rw [numberValues_keys] at hj
  have := mapAt_numberValues (collectValues exports) 0
    (collectValues_foldl_keys exports [] (by simp)).1 j k hj
  simpa using this

end createExportTable

/-! ## Lemmas on the hunk built by `createExportTable` -/

theorem le32_length (w : Int) : (le32 w).length = 4 := rfl

theorem le16_length (w : Int) : (le16 w).length = 2 := rfl

theorem flatMap_length_const {α β : Type} (l : List α) (f : α → List β) (c : Nat)
    (h : ∀ a ∈ l, (f a).length = c) : (l.flatMap f).length = l.length * c := by
  induction l with
  | nil => simp
  | cons a l ih =>
    rw [List.flatMap_cons, List.length_append, h a (List.mem_cons_self _ _),
      ih (fun b hb => h b (List.mem_cons_of_mem _ hb)), List.length_cons]
    ring

theorem foldl_addSymbol (l : List Symbol) (h : Hunk) :
    l.foldl Hunk.addSymbol h = { h with symbols := h.symbols ++ l } := by
  induction l generalizing h with
  | nil => simp
  | cons s l ih => simp [List.foldl_cons, ih, Hunk.addSymbol]

theorem foldl_addRelocation (l : List Relocation) (h : Hunk) :
    l.foldl Hunk.addRelocation h = { h with relocations := h.relocations ++ l } := by
  induction l generalizing h with
  | nil => simp
  | cons s l ih => simp [List.foldl_cons, ih, Hunk.addRelocation]

theorem createExportTable_eq (IB : Int) (exports : List Export) :
    createExportTable IB exports =
      { name := "Exports", data := createExportTable.data IB exports,
        flags := [HunkFlag.HUNK_IS_TRAILING], alignmentBits := 2,
        rawsize := (createExportTable.hunk_size exports : Int),
        virtualsize := (createExportTable.hunk_size exports : Int),
        symbols := createExportTable.symbols exports,
        relocations := createExportTable.relocations exports } := by
  simp [createExportTable, foldl_addSymbol, foldl_addRelocation]

namespace createExportTable

theorem putValues_length (exports : List Export) :
    (putValues exports).length = table_offset exports := by
  unfold putValues table_offset
  exact flatMap_length_const _ _ 4 (fun _ _ => rfl)

theorem putTable_length (IB : Int) (exports : List Export) :
    (putTable IB exports).length = 40 := by
  unfold putTable
  rw [flatMap_length_const _ le32 4 (fun _ _ => rfl)]
  rfl

theorem putAddresses_length (IB : Int) (exports : List Export) :
    (putAddresses IB exports).length = exports.length * 8 := by
  unfold putAddresses
  rw [flatMap_length_const _ le32 4 (fun _ _ => rfl), List.length_replicate]
  ring

theorem putOrdinals_length (exports : List Export) :
    (putOrdinals exports).length = exports.length * 2 := by
  unfold putOrdinals
  rw [flatMap_length_const _ (fun i : Nat => le16 (i : Int)) 2 (fun _ _ => rfl), List.length_range]

theorem c_str_length_le (s : String) : (c_str s).length ≤ s.length := by
  unfold c_str
  exact (List.takeWhile_sublist _).length_le

theorem putNames_length_le (exports : List Export) :
    (putNames exports).length ≤ total_name_length exports := by
  unfold putNames total_name_length
  induction exports with
  | nil => simp
  | cons e es ih =>
    simp only [List.flatMap_cons, List.length_append, List.map_cons, List.sum_cons]
    have := c_str_length_le e.getName
    have h2 : (strcpyBytes (c_str e.getName)).length = (c_str e.getName).length + 1 := by
      simp [strcpyBytes]
    omega

theorem written_length (IB : Int) (exports : List Export) :
    (written IB exports).length = names_offset exports + (putNames exports).length := by
  simp only [written, List.length_append, putValues_length, putTable_length,
    putAddresses_length, putOrdinals_length, names_offset, ordinals_offset,
    name_pointers_offset, addresses_offset]
  ring

theorem data_length (IB : Int) (exports : List Export) :
    (data IB exports).length = hunk_size exports := by
  have h1 := written_length IB exports
  have h2 := putNames_length_le exports
  simp only [data, List.length_append, List.length_replicate, hunk_size] at *
  omega

theorem values_length_eq_distinct (exports : List Export) :
    (values exports).length = distinctValues exports := by
  have hnd : ((values exports).map Prod.fst).Nodup :=
    (values_keys_sorted exports).imp (fun h => ne_of_lt h)
  have hperm : ((values exports).map Prod.fst).Perm
      ((exports.filter (fun e => e.hasValue)).map (fun e => e.getValue)).dedup := by
    rw [List.perm_ext_iff_of_nodup hnd (List.nodup_dedup _)]
    intro v
    rw [values_keys_mem, List.mem_dedup, List.mem_map]
    constructor
    · rintro ⟨e, he, hv, rfl⟩
      exact ⟨e, List.mem_filter.mpr ⟨he, hv⟩, rfl⟩
    · rintro ⟨e, he, rfl⟩
      obtain ⟨he, hv⟩ := List.mem_filter.mp he
      exact ⟨e, he, hv, rfl⟩
  have := hperm.length_eq
  simpa [distinctValues] using this

end createExportTable

/-! ## Lemmas on memory accesses -/

theorem readByte_natCast (data : List Nat) (a : Nat) : readByte data (a : Int) = data[a]? := by
  simp [readByte]

theorem readByte_natCast_add (data : List Nat) (a : Nat) (k : Nat) :
    readByte data ((a : Int) + (k : Int)) = data[a + k]? := by
  have : ((a : Int) + (k : Int)).toNat = a + k := by omega
  simp only [readByte, this]
  rw [if_pos (by omega)]

theorem decode_le32 (w : Int) :
    toInt32 ((((w % 4294967296).toNat % 256 : Nat) : Int) +
      256 * (((w % 4294967296).toNat / 256 % 256 : Nat) : Int) +
      65536 * (((w % 4294967296).toNat / 65536 % 256 : Nat) : Int) +
      16777216 * (((w % 4294967296).toNat / 16777216 % 256 : Nat) : Int)) = toInt32 w := by
  unfold toInt32
  omega

theorem decode_le16 (w : Int) :
    toInt16 ((((w % 65536).toNat % 256 : Nat) : Int) +
      256 * (((w % 65536).toNat / 256 % 256 : Nat) : Int)) = toInt16 w := by
  unfold toInt16
  omega

/-- Loading the word whose four bytes lie at `a`. -/
theorem read32_of_le32 (data : List Nat) (a : Nat) (w : Int)
    (h : ∀ j, j < 4 → data[a + j]? = (le32 w)[j]?) : read32 data (a : Int) = some (toInt32 w) := by
  have h0 := h 0 (by norm_num)
  have h1 := h 1 (by norm_num)
  have h2 := h 2 (by norm_num)
  have h3 := h 3 (by norm_num)
  simp only [le32, List.getElem?_cons_zero, List.getElem?_cons_succ, Nat.add_zero] at h0 h1 h2 h3
  have e1 := readByte_natCast_add data a 1
  have e2 := readByte_natCast_add data a 2
  have e3 := readByte_natCast_add data a 3
  simp only [Nat.cast_ofNat, Nat.cast_one] at e1 e2 e3
  unfold read32
  rw [readByte_natCast, e1, e2, e3, h0, h1, h2, h3]
  simp only
  rw [decode_le32]

/-- Loading the `short` whose two bytes lie at `a`. -/
theorem read16_of_le16 (data : List Nat) (a : Nat) (w : Int)
    (h : ∀ j, j < 2 → data[a + j]? = (le16 w)[j]?) : read16 data (a : Int) = some (toInt16 w) := by
  have h0 := h 0 (by norm_num)
  have h1 := h 1 (by norm_num)
  simp only [le16, List.getElem?_cons_zero, List.getElem?_cons_succ, Nat.add_zero] at h0 h1
  have e1 := readByte_natCast_add data a 1
  simp only [Nat.cast_one] at e1
  unfold read16
  rw [readByte_natCast, e1, h0, h1]
  simp only
  rw [decode_le16]

/-- Indexing a concatenation of blocks of one length `c`. -/
theorem getElem?_flatMap_const {α β : Type} (l : List α) (f : α → List β) (c : Nat)
    (h : ∀ a ∈ l, (f a).length = c) (k j : Nat) (hj : j < c) :
    (l.flatMap f)[k * c + j]? = (l[k]?).bind (fun a => (f a)[j]?) := by
  induction l generalizing k with
  | nil => simp
  | cons a l ih =>
    have ha := h a (List.mem_cons_self _ _)
    rw [List.flatMap_cons]
    cases k with
    | zero =>
      simp only [Nat.zero_mul, Nat.zero_add, List.getElem?_cons_zero, Option.some_bind]
      rw [List.getElem?_append_left (by omega)]
    | succ k =>
      rw [List.getElem?_append_right (by rw [ha]; nlinarith)]
      have : (k + 1) * c + j - (f a).length = k * c + j := by
        rw [ha, Nat.succ_mul]; omega
      rw [this, ih (fun b hb => h b (List.mem_cons_of_mem _ hb))]
      simp

theorem getElem?_append_mid {α : Type} (A B C : List α) (j : Nat) (hj : j < B.length) :
    (A ++ (B ++ C))[A.length + j]? = B[j]? := by
  rw [List.getElem?_append_right (by omega)]
  have : A.length + j - A.length = j := by omega
  rw [this, List.getElem?_append_left hj]

namespace createExportTable

theorem data_eq (IB : Int) (exports : List Export) :
    data IB exports = putValues exports ++ (putTable IB exports ++ (putAddresses IB exports ++
      (putOrdinals exports ++ (putNames exports ++
        List.replicate (hunk_size exports - (written IB exports).length) 0)))) := by
  simp only [data, written, List.append_assoc]

theorem data_at_values (IB : Int) (exports : List Export) (j : Nat)
    (hj : j < (putValues exports).length) :
    (data IB exports)[j]? = (putValues exports)[j]? := by
  rw [data_eq, List.getElem?_append_left hj]

theorem data_at_table (IB : Int) (exports : List Export) (j : Nat) (hj : j < 40) :
    (data IB exports)[table_offset exports + j]? = (putTable IB exports)[j]? := by
  rw [data_eq, ← putValues_length]
  exact getElem?_append_mid _ _ _ j (by rw [putTable_length]; exact hj)

theorem data_at_addresses (IB : Int) (exports : List Export) (j : Nat)
    (hj : j < exports.length * 8) :
    (data IB exports)[addresses_offset exports + j]? = (putAddresses IB exports)[j]? := by
  have h := getElem?_append_mid (putValues exports ++ putTable IB exports)
    (putAddresses IB exports) (putOrdinals exports ++ (putNames exports ++
        List.replicate (hunk_size exports - (written IB exports).length) 0)) j
    (by rw [putAddresses_length]; exact hj)
  rw [List.length_append, putValues_length, putTable_length, List.append_assoc] at h
  rw [data_eq]
  exact h

theorem data_at_ordinals (IB : Int) (exports : List Export) (j : Nat)
    (hj : j < exports.length * 2) :
    (data IB exports)[ordinals_offset exports + j]? = (putOrdinals exports)[j]? := by
  have h := getElem?_append_mid
    (putValues exports ++ putTable IB exports ++ putAddresses IB exports)
    (putOrdinals exports) (putNames exports ++
        List.replicate (hunk_size exports - (written IB exports).length) 0) j
    (by rw [putOrdinals_length]; exact hj)
  rw [List.length_append, List.length_append, putValues_length, putTable_length,
    putAddresses_length, List.append_assoc, List.append_assoc] at h
  rw [data_eq]
  have e : ordinals_offset exports = table_offset exports + 40 + exports.length * 8 := by
    unfold ordinals_offset name_pointers_offset addresses_offset; ring
  rw [e]
  exact h

theorem data_at_names (IB : Int) (exports : List Export) (j : Nat)
    (hj : j < (putNames exports).length) :
    (data IB exports)[names_offset exports + j]? = (putNames exports)[j]? := by
  have h := getElem?_append_mid
    (putValues exports ++ putTable IB exports ++ putAddresses IB exports ++ putOrdinals exports)
    (putNames exports)
    (List.replicate (hunk_size exports - (written IB exports).length) 0) j hj
  rw [List.length_append, List.length_append, List.length_append, putValues_length,
    putTable_length, putAddresses_length, putOrdinals_length, List.append_assoc,
    List.append_assoc, List.append_assoc] at h
  rw [data_eq]
  have e : names_offset exports =
      table_offset exports + 40 + exports.length * 8 + exports.length * 2 := by
    unfold names_offset ordinals_offset name_pointers_offset addresses_offset; ring
  rw [e]
  exact h

/-- The bytes of ordinal slot `i`. -/
theorem data_ordinal_slot (IB : Int) (exports : List Export) (i : Nat) (hi : i < exports.length)
    (j : Nat) (hj : j < 2) :
    (data IB exports)[ordinals_offset exports + 2 * i + j]? = (le16 (i : Int))[j]? := by
  rw [Nat.add_assoc, data_at_ordinals IB exports (2 * i + j) (by omega)]
  unfold putOrdinals
  rw [Nat.mul_comm 2 i, getElem?_flatMap_const _ (fun i : Nat => le16 (i : Int)) 2 (fun _ _ => rfl) i j hj,
    List.getElem?_range hi]
  rfl

/-- The bytes of value slot `k`. -/
theorem data_value_slot (IB : Int) (exports : List Export) (k : Nat) (v : Int)
    (hk : ((values exports).map Prod.fst)[k]? = some v) (j : Nat) (hj : j < 4) :
    (data IB exports)[4 * k + j]? = (le32 v)[j]? := by
  have hlt : k < (values exports).length := by
    have := (List.getElem?_eq_some_iff.mp hk).1
    simpa using this
  rw [data_at_values IB exports (4 * k + j) (by rw [putValues_length, table_offset]; omega)]
  unfold putValues
  rw [Nat.mul_comm 4 k, getElem?_flatMap_const _ (fun v : Int × Int => le32 v.1) 4 (fun _ _ => rfl) k j hj]
  rw [List.getElem?_map] at hk
  cases hv : (values exports)[k]? with
  | none => rw [hv] at hk; simp at hk
  | some p =>
    rw [hv] at hk
    simp only [Option.map_some', Option.some.injEq] at hk
    simp [hk]

end createExportTable

/-! ## Lemmas on `std::set<Export>` and `std::stable_sort` -/

theorem nameLt_irrefl (a : String) : ¬ nameLt a a := lt_irrefl a.data

theorem nameLt_trans {a b c : String} (h1 : nameLt a b) (h2 : nameLt b c) : nameLt a c :=
  lt_trans (a := a.data) h1 h2

theorem nameLt_asymm {a b : String} (h1 : nameLt a b) : ¬ nameLt b a :=
  lt_asymm (a := a.data) h1

theorem eq_of_not_nameLt {a b : String} (h1 : ¬ nameLt a b) (h2 : ¬ nameLt b a) : a = b := by
  rcases lt_trichotomy a.data b.data with h | h | h
  · exact absurd h h1
  · exact String.ext h
  · exact absurd h h2

theorem setInsert_mem_name (e : Export) (s : List Export) (x : Export)
    (hx : x ∈ setInsert e s) : x = e ∨ x ∈ s := by
  induction s with
  | nil => simp [setInsert] at hx; exact Or.inl hx
  | cons y ys ih =>
    unfold setInsert at hx
    split_ifs at hx with h1 h2
    · rcases List.mem_cons.mp hx with rfl | hx
      · exact Or.inl rfl
      · exact Or.inr hx
    · rcases List.mem_cons.mp hx with rfl | hx
      · exact Or.inr (List.mem_cons_self _ _)
      · rcases ih hx with h | h
        · exact Or.inl h
        · exact Or.inr (List.mem_cons_of_mem _ h)
    · exact Or.inr hx

theorem setInsert_isExportSet (e : Export) (s : List Export) (hs : IsExportSet s) :
    IsExportSet (setInsert e s) := by
  unfold IsExportSet at *
  induction s with
  | nil => simp [setInsert]
  | cons y ys ih =>
    rw [List.pairwise_cons] at hs
    unfold setInsert
    split_ifs with h1 h2
    · rw [List.pairwise_cons]
      refine ⟨?_, List.pairwise_cons.mpr hs⟩
      intro x hx
      rcases List.mem_cons.mp hx with rfl | hx
      · exact h1
      · exact nameLt_trans h1 (hs.1 x hx)
    · rw [List.pairwise_cons]
      refine ⟨?_, ih hs.2⟩
      intro x hx
      rcases setInsert_mem_name e ys x hx with rfl | hx
      · exact h2
      · exact hs.1 x hx
    · exact List.pairwise_cons.mpr hs

/-- Inserting a record whose name the set already has leaves the set as it is. -/
theorem setInsert_present (e : Export) (s : List Export) (hs : IsExportSet s)
    (h : ∃ x ∈ s, x.m_name = e.m_name) : setInsert e s = s := by
  unfold IsExportSet at hs
  induction s with
  | nil => simp at h
  | cons y ys ih =>
    rw [List.pairwise_cons] at hs
    obtain ⟨x, hx, hxe⟩ := h
    unfold setInsert
    rcases List.mem_cons.mp hx with rfl | hx
    · rw [if_neg (by rw [← hxe]; exact nameLt_irrefl _),
        if_neg (by rw [← hxe]; exact nameLt_irrefl _)]
    · have hlt : nameLt y.m_name e.m_name := by rw [← hxe]; exact hs.1 x hx
      rw [if_neg (nameLt_asymm hlt), if_pos hlt, ih hs.2 ⟨x, hx, hxe⟩]

theorem setInsert_mem_self (e : Export) (s : List Export) :
    ∃ x ∈ setInsert e s, x.m_name = e.m_name := by
  induction s with
  | nil => exact ⟨e, by simp [setInsert], rfl⟩
  | cons y ys ih =>
    unfold setInsert
    split_ifs with h1 h2
    · exact ⟨e, by simp, rfl⟩
    · obtain ⟨x, hx, hxe⟩ := ih
      exact ⟨x, List.mem_cons_of_mem _ hx, hxe⟩
    · exact ⟨y, by simp, eq_of_not_nameLt h2 h1⟩

theorem isExportSet_count_le_one (s : List Export) (hs : IsExportSet s) (n : String) :
    (s.filter (fun x => x.m_name = n)).length ≤ 1 := by
  unfold IsExportSet at hs
  induction s with
  | nil => simp
  | cons y ys ih =>
    rw [List.pairwise_cons] at hs
    by_cases hy : y.m_name = n
    · have : ys.filter (fun x => x.m_name = n) = [] := by
        rw [List.filter_eq_nil_iff]
        intro x hx
        have := hs.1 x hx
        simp only [decide_eq_true_eq]
        rintro rfl
        rw [hy] at this
        exact nameLt_irrefl _ this
      simp [List.filter_cons, hy, this]
    · simp only [List.filter_cons, hy, decide_False, Bool.false_eq_true, if_false]
      exact ih hs.2

theorem stableInsert_perm (p : Int × Int) (l : List (Int × Int)) :
    (stableInsert p l).Perm (p :: l) := by
  induction l with
  | nil => simp [stableInsert]
  | cons q qs ih =>
    unfold stableInsert
    split_ifs
    · exact (List.Perm.cons q ih).trans (List.Perm.swap p q qs)
    · exact List.Perm.refl _

theorem stable_sort_perm (l : List (Int × Int)) : (stable_sort l).Perm l := by
  induction l with
  | nil => exact List.Perm.refl _
  | cons p ps ih => exact (stableInsert_perm p _).trans (List.Perm.cons p ih)

theorem stableInsert_sorted (p : Int × Int) (l : List (Int × Int))
    (hl : l.Pairwise (fun a b => a.2 ≤ b.2)) :
    (stableInsert p l).Pairwise (fun a b => a.2 ≤ b.2) := by
  induction l with
  | nil => simp [stableInsert]
  | cons q qs ih =>
    rw [List.pairwise_cons] at hl
    unfold stableInsert lessSecond
    split_ifs with h
    · rw [List.pairwise_cons]
      refine ⟨?_, ih hl.2⟩
      intro x hx
      rcases List.mem_cons.mp ((stableInsert_perm p qs).subset hx) with rfl | hx
      · simp at h; omega
      · exact hl.1 x hx
    · rw [List.pairwise_cons]
      refine ⟨?_, List.pairwise_cons.mpr hl⟩
      simp at h
      intro x hx
      rcases List.mem_cons.mp hx with rfl | hx
      · exact h
      · exact le_trans h (hl.1 x hx)

theorem stable_sort_sorted (l : List (Int × Int)) :
    (stable_sort l).Pairwise (fun a b => a.2 ≤ b.2) := by
  induction l with
  | nil => simp [stable_sort]
  | cons p ps ih => exact stableInsert_sorted p _ ih

theorem stableInsert_filter (p : Int × Int) (l : List (Int × Int)) (k : Int) :
    (stableInsert p l).filter (fun x => x.2 = k) = (p :: l).filter (fun x => x.2 = k) := by
  induction l with
  | nil => simp [stableInsert]
  | cons q qs ih =>
    unfold stableInsert lessSecond
    split_ifs with h
    · simp at h
      rw [List.filter_cons, ih]
      by_cases hp : p.2 = k
      · have hq : ¬ q.2 = k := by omega
        simp [List.filter_cons, hp, hq]
      · simp [List.filter_cons, hp]
    · rfl

theorem stable_sort_filter (l : List (Int × Int)) (k : Int) :
    (stable_sort l).filter (fun x => x.2 = k) = l.filter (fun x => x.2 = k) := by
  induction l with
  | nil => rfl
  | cons p ps ih =>
    show (stableInsert p (stable_sort ps)).filter _ = _
    rw [stableInsert_filter, List.filter_cons, List.filter_cons, ih]

theorem createExportTable_values_block_aux (IB : Int) (exports : List Export) :
    ∀ e ∈ exports, e.hasValue = true →
      ∃ k, ((createExportTable.values exports).map Prod.fst)[k]? = some e.getValue ∧
        ({ name := String.mk (c_str e.getName), value := ((k : Nat) : Int) * 4,
           flags := [SymbolFlag.SYMBOL_IS_RELOCATEABLE], miscString := "" } : Symbol) ∈
          (createExportTable IB exports).symbols := by
  intro e he hv
  obtain ⟨k, hk⟩ := List.mem_iff_getElem?.mp
    ((createExportTable.values_keys_mem exports e.getValue).mpr ⟨e, he, hv, rfl⟩)
  refine ⟨k, hk, ?_⟩
  rw [createExportTable_eq]
  show _ ∈ createExportTable.symbols exports
  unfold createExportTable.symbols createExportTable.valueSymbols
  simp only [List.mem_append, List.mem_map, List.mem_filter]
  refine Or.inl (Or.inl (Or.inr ⟨e, ⟨he, hv⟩, ?_⟩))
  rw [createExportTable.mapAt_values exports k e.getValue hk]

/-! ## Lemmas on stores and relocation -/

theorem write32_length (data : List Nat) (i : Int) (w : Int) (data' : List Nat)
    (h : write32 data i w = some data') : data'.length = data.length := by
  unfold write32 at h
  split_ifs at h with hc
  simp only [Option.some.injEq] at h
  subst h
  simp only [List.length_append, List.length_take, List.length_drop, le32_length]
  omega

theorem write32_getElem? (data : List Nat) (a : Nat) (w : Int) (data' : List Nat)
    (h : write32 data (a : Int) w = some data') (j : Nat) :
    data'[j]? = if a ≤ j ∧ j < a + 4 then (le32 w)[j - a]? else data[j]? := by
  unfold write32 at h
  split_ifs at h with hc
  simp only [Option.some.injEq, Int.toNat_ofNat] at h
  simp only [Int.toNat_ofNat] at hc
  subst h
  have hl : (data.take a).length = a := by rw [List.length_take]; omega
  by_cases h1 : j < a
  · rw [if_neg (by omega), List.append_assoc, List.getElem?_append_left (by omega),
      List.getElem?_take, if_pos h1]
  · by_cases h2 : j < a + 4
    · rw [if_pos ⟨by omega, h2⟩, List.append_assoc, List.getElem?_append_right (by omega),
        hl, List.getElem?_append_left (by rw [le32_length]; omega)]
    · rw [if_neg (by omega), List.getElem?_append_right
        (by rw [List.length_append, hl, le32_length]; omega),
        List.length_append, hl, le32_length, List.getElem?_drop]
      congr 1
      omega

theorem write32_some (data : List Nat) (a : Nat) (w : Int) (h : a + 4 ≤ data.length) :
    ∃ data', write32 data (a : Int) w = some data' := by
  unfold write32
  rw [if_pos ⟨by omega, by simpa using h⟩]
  exact ⟨_, rfl⟩

/-- A load depends on the four bytes it covers only. -/
theorem read32_congr (d d' : List Nat) (a : Nat) (h : ∀ j, j < 4 → d'[a + j]? = d[a + j]?) :
    read32 d' (a : Int) = read32 d (a : Int) := by
  have e1 := readByte_natCast_add d a 1
  have e2 := readByte_natCast_add d a 2
  have e3 := readByte_natCast_add d a 3
  have f1 := readByte_natCast_add d' a 1
  have f2 := readByte_natCast_add d' a 2
  have f3 := readByte_natCast_add d' a 3
  simp only [Nat.cast_ofNat, Nat.cast_one] at e1 e2 e3 f1 f2 f3
  have h0 := h 0 (by norm_num)
  rw [Nat.add_zero] at h0
  unfold read32
  rw [readByte_natCast, readByte_natCast, e1, e2, e3, f1, f2, f3, h0, h 1 (by norm_num),
    h 2 (by norm_num), h 3 (by norm_num)]

theorem read32_write32_same (data : List Nat) (a : Nat) (w : Int) (data' : List Nat)
    (h : write32 data (a : Int) w = some data') : read32 data' (a : Int) = some (toInt32 w) := by
  apply read32_of_le32
  intro j hj
  rw [write32_getElem? data a w data' h, if_pos ⟨by omega, by omega⟩]
  congr 1
  omega

/-- Relocations of a list `rs`, seen as patches of the slots at `base + offset`:
when every slot lies in the buffer, the slots do not overlap and every label
resolves, `relocate` succeeds, leaves the bytes outside the slots alone and
adds the address of the target to the word of each slot. -/
theorem relocate_spec (CB : Int) (lookup : String → Option Int) (base : Nat)
    (rs : List (String × Nat)) (data : List Nat)
    (hin : ∀ r ∈ rs, base + r.2 + 4 ≤ data.length)
    (hdis : rs.Pairwise (fun r r' => r.2 + 4 ≤ r'.2 ∨ r'.2 + 4 ≤ r.2))
    (hres : ∀ r ∈ rs, (lookup r.1).isSome) :
    ∃ data', relocate CB lookup (base : Int)
        (rs.map abs32) data = some data' ∧
      data'.length = data.length ∧
      (∀ j, (∀ r ∈ rs, j < base + r.2 ∨ base + r.2 + 4 ≤ j) → data'[j]? = data[j]?) ∧
      (∀ r ∈ rs, ∀ t w, lookup r.1 = some t → read32 data ((base + r.2 : Nat) : Int) = some w →
        read32 data' ((base + r.2 : Nat) : Int) = some (toInt32 (w + (t + CB)))) := by
  induction rs generalizing data with
  | nil => exact ⟨data, rfl, rfl, fun _ _ => rfl, fun r hr => by simp at hr⟩
  | cons r rs ih =>
    rw [List.pairwise_cons] at hdis
    obtain ⟨t, ht⟩ := Option.isSome_iff_exists.mp (hres r (List.mem_cons_self _ _))
    have hb := hin r (List.mem_cons_self _ _)
    have hrd : ∃ w, read32 data ((base + r.2 : Nat) : Int) = some w := by
      have g : ∀ j, j < 4 → ∃ b, data[base + r.2 + j]? = some b := fun j hj =>
        ⟨data[base + r.2 + j], List.getElem?_eq_getElem (by omega)⟩
      obtain ⟨b0, h0⟩ := g 0 (by norm_num)
      obtain ⟨b1, h1⟩ := g 1 (by norm_num)
      obtain ⟨b2, h2⟩ := g 2 (by norm_num)
      obtain ⟨b3, h3⟩ := g 3 (by norm_num)
      have e1 := readByte_natCast_add data (base + r.2) 1
      have e2 := readByte_natCast_add data (base + r.2) 2
      have e3 := readByte_natCast_add data (base + r.2) 3
      simp only [Nat.cast_ofNat, Nat.cast_one] at e1 e2 e3
      rw [Nat.add_zero] at h0
      unfold read32
      rw [readByte_natCast, e1, e2, e3, h0, h1, h2, h3]
      exact ⟨_, rfl⟩
    obtain ⟨w, hw⟩ := hrd
    obtain ⟨d1, hd1⟩ := write32_some data (base + r.2) (w + (t + CB)) hb
    have hl1 := write32_length _ _ _ _ hd1
    obtain ⟨d2, hrel, hl2, hout, hslot⟩ := ih d1
      (fun r' hr' => by rw [hl1]; exact hin r' (List.mem_cons_of_mem _ hr'))
      hdis.2 (fun r' hr' => hres r' (List.mem_cons_of_mem _ hr'))
    have hcast : ((base : Int) + ((r.2 : Nat) : Int)) = ((base + r.2 : Nat) : Int) := by
      push_cast; rfl
    refine ⟨d2, ?_, by rw [hl2, hl1], ?_, ?_⟩
    · simp only [List.map_cons, relocate, abs32, hcast, ht, hw, hd1]
      exact hrel
    · intro j hj
      rw [hout j (fun r' hr' => hj r' (List.mem_cons_of_mem _ hr')),
        write32_getElem? data (base + r.2) _ d1 hd1, if_neg]
      have := hj r (List.mem_cons_self _ _)
      omega
    · intro r' hr' t' w' ht' hw'
      rcases List.mem_cons.mp hr' with rfl | hr'
      · rw [ht] at ht'
        rw [hw] at hw'
        simp only [Option.some.injEq] at ht' hw'
        subst ht' hw'
        rw [← read32_write32_same data (base + r'.2) _ d1 hd1]
        apply read32_congr
        intro j hj
        apply hout
        intro r'' hr''
        have := hdis.1 r'' hr''
        omega
      · apply hslot r' hr' t' w' ht'
        rw [← hw']
        apply read32_congr
        intro j hj
        rw [write32_getElem? data (base + r.2) _ d1 hd1, if_neg]
        have := hdis.1 r' hr'
        omega

/-! ## Lemmas on the entries of the table -/

theorem entries_mem_bounds (es : List Export) (i off : Nat) (t : Nat × Export × Nat)
    (h : t ∈ entries es i off) :
    i ≤ t.1 ∧ t.1 < i + es.length ∧ t.2.1 ∈ es ∧ off ≤ t.2.2 := by
  induction es generalizing i off with
  | nil => simp [entries] at h
  | cons e es ih =>
    rcases List.mem_cons.mp h with rfl | h
    · simp
    · obtain ⟨h1, h2, h3, h4⟩ := ih _ _ h
      simp only [List.length_cons, List.mem_cons]
      exact ⟨by omega, by omega, Or.inr h3, by omega⟩

theorem entries_length (es : List Export) (i off : Nat) : (entries es i off).length = es.length := by
  induction es generalizing i off with
  | nil => rfl
  | cons e es ih => simp [entries, ih]

theorem entries_map_export (es : List Export) (i off : Nat) :
    (entries es i off).map (fun t => t.2.1) = es := by
  induction es generalizing i off with
  | nil => rfl
  | cons e es ih => simp [entries, ih]

theorem entries_map_index (es : List Export) (i off : Nat) :
    (entries es i off).map (fun t => t.1) = List.range' i es.length := by
  induction es generalizing i off with
  | nil => rfl
  | cons e es ih => simp [entries, ih, List.range'_succ]

theorem entries_shift (es : List Export) (i off k : Nat) :
    entries es i (off + k) = (entries es i off).map (fun t => (t.1, t.2.1, t.2.2 + k)) := by
  induction es generalizing i off with
  | nil => rfl
  | cons e es ih =>
    simp only [entries, List.map_cons]
    rw [show off + k + (e.getName.length + 1) = off + (e.getName.length + 1) + k by omega, ih]

theorem exportRelocations_eq (a p : Nat) (es : List Export) (i off : Nat) :
    createExportTable.exportRelocations a p es i =
      ((entries es i off).flatMap (slotsOf a p)).map abs32 := by
  induction es generalizing i off with
  | nil => rfl
  | cons e es ih =>
    simp only [createExportTable.exportRelocations, entries, List.flatMap_cons, List.map_append]
    rw [ih (i + 1) (off + (e.getName.length + 1))]
    rfl

theorem relocations_eq (exports : List Export) :
    createExportTable.relocations exports = (relocSlots exports).map abs32 := by
  unfold createExportTable.relocations relocSlots
  rw [List.map_append, exportRelocations_eq _ _ exports 0 0]
  rfl

theorem nameSymbols_eq (es : List Export) (i off : Nat) :
    createExportTable.nameSymbols es off = (entries es i off).map (fun t =>
      { name := String.mk (c_str ("_ExportName_" ++ t.2.1.getName)), value := (t.2.2 : Int),
        flags := [SymbolFlag.SYMBOL_IS_RELOCATEABLE], miscString := "" }) := by
  induction es generalizing i off with
  | nil => rfl
  | cons e es ih =>
    simp only [createExportTable.nameSymbols, entries, List.map_cons]
    rw [ih (i + 1)]

theorem slots_mem_bounds (a p : Nat) (es : List Export) (i off : Nat) (r : String × Nat)
    (h : r ∈ (entries es i off).flatMap (slotsOf a p)) :
    ∃ k, i ≤ k ∧ k < i + es.length ∧ (r.2 = a + k * 4 ∨ r.2 = p + k * 4) := by
  rw [List.mem_flatMap] at h
  obtain ⟨t, ht, hr⟩ := h
  obtain ⟨h1, h2, -, -⟩ := entries_mem_bounds es i off t ht
  refine ⟨t.1, h1, h2, ?_⟩
  simp only [slotsOf, List.mem_cons, List.mem_singleton, List.not_mem_nil, or_false] at hr
  rcases hr with rfl | rfl
  · exact Or.inl rfl
  · exact Or.inr rfl

theorem slots_pairwise (a p n : Nat) (hp : p = a + n * 4) (es : List Export) (i off : Nat)
    (hn : i + es.length ≤ n) :
    ((entries es i off).flatMap (slotsOf a p)).Pairwise
      (fun r r' => r.2 + 4 ≤ r'.2 ∨ r'.2 + 4 ≤ r.2) := by
  induction es generalizing i off with
  | nil => simp [entries]
  | cons e es ih =>
    simp only [List.length_cons] at hn
    simp only [entries, List.flatMap_cons, slotsOf, List.cons_append, List.nil_append,
      List.pairwise_cons]
    refine ⟨?_, ?_, ih (i + 1) _ (by omega)⟩
    · intro r hr
      rcases List.mem_cons.mp hr with rfl | hr
      · simp only; omega
      · obtain ⟨k, h1, h2, h3⟩ := slots_mem_bounds a p es _ _ r hr
        omega
    · intro r hr
      obtain ⟨k, h1, h2, h3⟩ := slots_mem_bounds a p es _ _ r hr
      omega

open createExportTable in
theorem relocSlots_bounds (exports : List Export) (r : String × Nat) (h : r ∈ relocSlots exports) :
    table_offset exports + 28 ≤ r.2 ∧ r.2 + 4 ≤ ordinals_offset exports := by
  unfold relocSlots at h
  rcases List.mem_append.mp h with h | h
  · simp only [List.mem_cons, List.mem_singleton, List.not_mem_nil, or_false] at h
    unfold ordinals_offset name_pointers_offset addresses_offset
    rcases h with rfl | rfl | rfl <;> simp only <;> omega
  · obtain ⟨k, h1, h2, h3⟩ := slots_mem_bounds _ _ exports 0 0 r h
    unfold ordinals_offset name_pointers_offset addresses_offset at *
    omega

open createExportTable in
theorem relocSlots_pairwise (exports : List Export) :
    (relocSlots exports).Pairwise (fun r r' => r.2 + 4 ≤ r'.2 ∨ r'.2 + 4 ≤ r.2) := by
  unfold relocSlots
  rw [List.pairwise_append]
  refine ⟨by simp, slots_pairwise _ _ exports.length (by unfold name_pointers_offset; rfl)
    exports 0 0 (by omega), ?_⟩
  intro r hr r' hr'
  obtain ⟨k, h1, h2, h3⟩ := slots_mem_bounds _ _ exports 0 0 r' hr'
  simp only [List.mem_cons, List.mem_singleton, List.not_mem_nil, or_false] at hr
  unfold name_pointers_offset addresses_offset at h3
  rcases hr with rfl | rfl | rfl <;> simp only <;> omega

/-! ## The table inside the image -/

theorem c_str_of_nul_free (s : String) (h : ∀ c ∈ s.data, c.toNat ≠ 0) : c_str s = s.data := by
  unfold c_str
  rw [List.takeWhile_eq_self_iff]
  intro c hc
  simpa using h c hc

theorem c_str_name_label (s : String) (h : ∀ c ∈ s.data, c.toNat ≠ 0) :
    String.mk (c_str ("_ExportName_" ++ s)) = "_ExportName_" ++ s := by
  rw [c_str_of_nul_free]
  intro c hc
  rw [String.data_append, List.mem_append] at hc
  rcases hc with hc | hc
  · revert c
    decide
  · exact h c hc

namespace createExportTable

/-- The words of the directory header as written. -/
theorem data_header_word (IB : Int) (exports : List Export) (w : Nat) (x : Int)
    (hw : ([0, 0, 0, 0, 1, (exports.length : Int), (exports.length : Int), -IB, -IB, -IB] :
      List Int)[w]? = some x) (j : Nat) (hj : j < 4) :
    (data IB exports)[table_offset exports + w * 4 + j]? = (le32 x)[j]? := by
  have hlt : w < 10 := by
    have := (List.getElem?_eq_some_iff.mp hw).1
    simpa using this
  rw [Nat.add_assoc, data_at_table IB exports (w * 4 + j) (by omega)]
  unfold putTable
  rw [getElem?_flatMap_const _ le32 4 (fun _ _ => rfl) w j hj, hw]
  rfl

/-- The words of the address and name-pointer tables as written. -/
theorem data_address_word (IB : Int) (exports : List Export) (k : Nat)
    (hk : k < exports.length * 2) (j : Nat) (hj : j < 4) :
    (data IB exports)[addresses_offset exports + k * 4 + j]? = (le32 (-IB))[j]? := by
  rw [Nat.add_assoc, data_at_addresses IB exports (k * 4 + j) (by omega)]
  unfold putAddresses
  rw [getElem?_flatMap_const _ le32 4 (fun _ _ => rfl) k j hj,
    List.getElem?_replicate, if_pos hk]
  rfl

end createExportTable

open createExportTable in
/-- Every relocation slot holds the image-base sentinel before relocation. -/
theorem slot_sentinel (IB : Int) (pre : List Nat) (exports : List Export) (r : String × Nat)
    (hr : r ∈ relocSlots exports) :
    read32 (pre ++ data IB exports) ((pre.length + r.2 : Nat) : Int) = some (toInt32 (-IB)) := by
  apply read32_of_le32
  intro j hj
  rw [List.getElem?_append_right (by omega)]
  have e : pre.length + r.2 + j - pre.length = r.2 + j := by omega
  rw [e]
  unfold relocSlots at hr
  rcases List.mem_append.mp hr with h | h
  · simp only [List.mem_cons, List.mem_singleton, List.not_mem_nil, or_false] at h
    rcases h with rfl | rfl | rfl
    · exact data_header_word IB exports 7 (-IB) rfl j hj
    · exact data_header_word IB exports 8 (-IB) rfl j hj
    · exact data_header_word IB exports 9 (-IB) rfl j hj
  · obtain ⟨k, h1, h2, h3⟩ := slots_mem_bounds _ _ exports 0 0 r h
    rcases h3 with h3 | h3
    · rw [h3]
      exact data_address_word IB exports k (by omega) j hj
    · rw [h3]
      have := data_address_word IB exports (exports.length + k) (by omega) j hj
      rw [← this]
      unfold name_pointers_offset
      congr 1
      ring

/-- The labels of the hunk, as `Linked` resolves them. -/
theorem Linked.table_labels {IB CB : Int} {lookup : String → Option Int} {pre : Hunk}
    {exports : List Export} (h : Linked IB CB lookup pre exports) :
    lookup "_ExportAddresses" =
      some ((pre.data.length : Int) + (createExportTable.addresses_offset exports : Int)) ∧
    lookup "_ExportNames" =
      some ((pre.data.length : Int) + (createExportTable.name_pointers_offset exports : Int)) ∧
    lookup "_ExportOrdinals" =
      some ((pre.data.length : Int) + (createExportTable.ordinals_offset exports : Int)) := by
  have hl := h.own_labels
  rw [createExportTable_eq] at hl
  simp only [createExportTable.symbols] at hl
  refine ⟨?_, ?_, ?_⟩
  · exact hl ⟨"_ExportAddresses", (createExportTable.addresses_offset exports : Int),
      [SymbolFlag.SYMBOL_IS_RELOCATEABLE], ""⟩ (by simp)
  · exact hl ⟨"_ExportNames", (createExportTable.name_pointers_offset exports : Int),
      [SymbolFlag.SYMBOL_IS_RELOCATEABLE], ""⟩ (by simp)
  · exact hl ⟨"_ExportOrdinals", (createExportTable.ordinals_offset exports : Int),
      [SymbolFlag.SYMBOL_IS_RELOCATEABLE], ""⟩ (by simp)

theorem Linked.value_label {IB CB : Int} {lookup : String → Option Int} {pre : Hunk}
    {exports : List Export} (h : Linked IB CB lookup pre exports) (e : Export) (he : e ∈ exports)
    (hv : e.hasValue = true) :
    ∃ k : Nat, ((createExportTable.values exports).map Prod.fst)[k]? = some e.getValue ∧
      lookup (exportLabel e) = some ((pre.data.length : Int) + (k : Int) * 4) := by
  obtain ⟨k, hk, hs⟩ := (createExportTable_values_block_aux IB exports) e he hv
  refine ⟨k, hk, ?_⟩
  have := h.own_labels _ hs
  simp only at this
  rw [c_str_of_nul_free e.getName (h.nul_free e he)] at this
  simp only [exportLabel, hv, if_true]
  exact this

theorem Linked.name_label {IB CB : Int} {lookup : String → Option Int} {pre : Hunk}
    {exports : List Export} (h : Linked IB CB lookup pre exports) (t : Nat × Export × Nat)
    (ht : t ∈ entries exports 0 (createExportTable.names_offset exports)) :
    lookup ("_ExportName_" ++ t.2.1.getName) = some ((pre.data.length : Int) + (t.2.2 : Int)) := by
  have hl := h.own_labels
  rw [createExportTable_eq] at hl
  simp only [createExportTable.symbols] at hl
  have hmem := (entries_mem_bounds _ _ _ t ht).2.2.1
  have := hl { name := String.mk (c_str ("_ExportName_" ++ t.2.1.getName)),
               value := (t.2.2 : Int), flags := [SymbolFlag.SYMBOL_IS_RELOCATEABLE],
               miscString := "" } (by
    rw [nameSymbols_eq exports 0]
    simp only [List.mem_append, List.mem_map]
    exact Or.inr ⟨t, ht, rfl⟩)
  simp only at this
  rw [c_str_name_label t.2.1.getName (h.nul_free _ hmem)] at this
  exact this

theorem Linked.resolves {IB CB : Int} {lookup : String → Option Int} {pre : Hunk}
    {exports : List Export} (h : Linked IB CB lookup pre exports) (r : String × Nat)
    (hr : r ∈ relocSlots exports) : (lookup r.1).isSome := by
  unfold relocSlots at hr
  obtain ⟨h1, h2, h3⟩ := h.table_labels
  rcases List.mem_append.mp hr with hr | hr
  · simp only [List.mem_cons, List.mem_singleton, List.not_mem_nil, or_false] at hr
    rcases hr with rfl | rfl | rfl
    · simp [h1]
    · simp [h2]
    · simp [h3]
  · rw [List.mem_flatMap] at hr
    obtain ⟨t, ht, hr⟩ := hr
    simp only [slotsOf, List.mem_cons, List.mem_singleton, List.not_mem_nil, or_false] at hr
    have hmem := (entries_mem_bounds _ _ _ t ht).2.2.1
    rcases hr with rfl | rfl
    · simp only
      by_cases hv : t.2.1.hasValue = true
      · obtain ⟨k, -, hk⟩ := h.value_label t.2.1 hmem hv
        simp [hk]
      · have hv' : t.2.1.hasValue = false := by simpa using hv
        obtain ⟨a, ha, -⟩ := h.symbol_refs t.2.1 hmem hv'
        simp [exportLabel, hv', ha]
    · simp only
      have ht' : (t.1, t.2.1, t.2.2 + createExportTable.names_offset exports) ∈
          entries exports 0 (createExportTable.names_offset exports) := by
        have := entries_shift exports 0 0 (createExportTable.names_offset exports)
        rw [Nat.zero_add] at this
        rw [this]
        exact List.mem_map.mpr ⟨t, ht, rfl⟩
      have := h.name_label _ ht'
      simp only at this
      simp [this]

theorem strcpyBytes_length (cs : List Char) : (strcpyBytes cs).length = cs.length + 1 := by
  simp [strcpyBytes]

/-- Reading back a C string whose characters and NUL lie at `idx`. -/
theorem readCString_of_bytes (D : List Nat) (cs : List Char) (idx : Nat)
    (hz : ∀ c ∈ cs, c.toNat ≠ 0)
    (h : ∀ j, j ≤ cs.length → D[idx + j]? = (strcpyBytes cs)[j]?) :
    readCString D (idx : Int) = some cs := by
  have key : ∀ (cs : List Char) (idx : Nat), (∀ c ∈ cs, c.toNat ≠ 0) →
      (∀ j, j ≤ cs.length → D[idx + j]? = (strcpyBytes cs)[j]?) →
      idx < D.length ∧ 0 ∈ D.drop idx ∧
        ((D.drop idx).takeWhile (fun b => b ≠ 0)).map Char.ofNat = cs := by
    intro cs
    induction cs with
    | nil =>
      intro idx _ h
      have h0 := h 0 (le_refl _)
      simp only [strcpyBytes, List.map_nil, List.nil_append, List.getElem?_cons_zero,
        Nat.add_zero] at h0
      obtain ⟨hlt, hget⟩ := List.getElem?_eq_some_iff.mp h0
      rw [List.drop_eq_getElem_cons hlt, hget]
      simp [hlt]
    | cons c cs ih =>
      intro idx hz h
      have h0 := h 0 (Nat.zero_le _)
      simp only [strcpyBytes, List.map_cons, List.cons_append, List.getElem?_cons_zero,
        Nat.add_zero] at h0
      obtain ⟨hlt, hget⟩ := List.getElem?_eq_some_iff.mp h0
      obtain ⟨h1, h2, h3⟩ := ih (idx + 1) (fun c hc => hz c (List.mem_cons_of_mem _ hc))
        (fun j hj => by
          have := h (j + 1) (by simp only [List.length_cons]; omega)
          simp only [strcpyBytes, List.map_cons, List.cons_append,
            List.getElem?_cons_succ] at this
          rw [show idx + 1 + j = idx + (j + 1) by omega, this]
          rfl)
      have hc : c.toNat ≠ 0 := hz c (List.mem_cons_self _ _)
      rw [List.drop_eq_getElem_cons hlt, hget]
      refine ⟨hlt, List.mem_cons_of_mem _ h2, ?_⟩
      rw [List.takeWhile_cons_of_pos (by simpa using hc), List.map_cons, h3, Char.ofNat_toNat]
  obtain ⟨h1, h2, h3⟩ := key cs idx hz h
  unfold readCString
  simp only [Int.toNat_ofNat]
  rw [if_pos ⟨by omega, h1, h2⟩, h3]

namespace createExportTable

/-- The bytes of a name inside the names block. -/
theorem putNames_entry (es : List Export) (hz : ∀ e ∈ es, ∀ c ∈ e.m_name.data, c.toNat ≠ 0)
    (i off : Nat) (t : Nat × Export × Nat) (ht : t ∈ entries es i off) (j : Nat)
    (hj : j ≤ t.2.1.getName.data.length) :
    (putNames es)[t.2.2 - off + j]? = (strcpyBytes t.2.1.getName.data)[j]? := by
  induction es generalizing i off with
  | nil => simp [entries] at ht
  | cons e es ih =>
    have hsl : e.getName.length = e.getName.data.length := rfl
    have hlen : (strcpyBytes (c_str e.getName)).length = e.getName.length + 1 := by
      rw [c_str_of_nul_free e.getName (hz e (List.mem_cons_self _ _)), strcpyBytes_length, hsl]
    unfold putNames
    rw [List.flatMap_cons]
    rcases List.mem_cons.mp ht with rfl | ht
    · simp only [Nat.sub_self, Nat.zero_add] at hj ⊢
      rw [List.getElem?_append_left (by rw [hlen]; omega),
        c_str_of_nul_free e.getName (hz e (List.mem_cons_self _ _))]
    · have hb := (entries_mem_bounds _ _ _ t ht).2.2.2
      rw [List.getElem?_append_right (by rw [hlen]; omega), hlen]
      have := ih (fun e he => hz e (List.mem_cons_of_mem _ he)) _ _ ht
      unfold putNames at this
      rw [← this]
      congr 1
      omega

end createExportTable

theorem entries_offset_le (es : List Export) (i off : Nat) (t : Nat × Export × Nat)
    (h : t ∈ entries es i off) :
    t.2.2 + (t.2.1.getName.length + 1) ≤ off + createExportTable.total_name_length es := by
  induction es generalizing i off with
  | nil => simp [entries] at h
  | cons e es ih =>
    unfold createExportTable.total_name_length
    rw [List.map_cons, List.sum_cons]
    rcases List.mem_cons.mp h with rfl | h
    · simp only; omega
    · have := ih _ _ h
      unfold createExportTable.total_name_length at this
      omega

theorem entries_mem_shift (es : List Export) (N : Nat) (t : Nat × Export × Nat)
    (h : t ∈ entries es 0 N) :
    N ≤ t.2.2 ∧ (t.1, t.2.1, t.2.2 - N) ∈ entries es 0 0 := by
  have hb := (entries_mem_bounds es 0 N t h).2.2.2
  refine ⟨hb, ?_⟩
  have := entries_shift es 0 0 N
  rw [Nat.zero_add] at this
  rw [this, List.mem_map] at h
  obtain ⟨t0, ht0, rfl⟩ := h
  simpa using ht0

open createExportTable in
/-- The relocated table, followed by the zero byte `stripExports` appends. -/
theorem linked_memory (IB CB : Int) (lookup : String → Option Int) (pre : Hunk)
    (exports : List Export) (h : Linked IB CB lookup pre exports) :
    ∃ data', relocate CB lookup (pre.data.length : Int) (relocations exports)
        (pre.data ++ data IB exports) = some data' ∧
      data'.length = pre.data.length + hunk_size exports ∧
      data'.take pre.data.length = pre.data ∧
      TableAt IB CB lookup pre.data.length exports (data' ++ List.replicate 1 0) := by
  have hfit := h.fits
  have hbase := h.bases
  have hcount := h.count
  have hsize : names_offset exports ≤ hunk_size exports := by unfold hunk_size; omega
  have hoff : ordinals_offset exports + exports.length * 2 = names_offset exports := rfl
  have hoa : addresses_offset exports + exports.length * 8 = ordinals_offset exports := by
    unfold ordinals_offset name_pointers_offset; ring
  have hta : table_offset exports + 40 = addresses_offset exports := rfl
  have hap : addresses_offset exports + exports.length * 4 = name_pointers_offset exports := rfl
  obtain ⟨data', hrel, hlen, hout, hslot⟩ := relocate_spec CB lookup pre.data.length
    (relocSlots exports) (pre.data ++ data IB exports)
    (fun r hr => by
      have := (relocSlots_bounds exports r hr).2
      rw [List.length_append, data_length]
      omega)
    (relocSlots_pairwise exports) (fun r hr => h.resolves r hr)
  rw [List.length_append, data_length] at hlen
  rw [← relocations_eq] at hrel
  have htake : data'.take pre.data.length = pre.data := by
    apply List.ext_getElem?
    intro j
    rw [List.getElem?_take]
    split_ifs with hj
    · rw [hout j (fun r hr => Or.inl (by omega)), List.getElem?_append_left hj]
    · rw [List.getElem?_eq_none (by omega)]
  refine ⟨data', hrel, hlen, htake, ?_⟩
  -- bytes that no relocation touches
  have hU : ∀ x, x < hunk_size exports → (x < table_offset exports + 28 ∨
      ordinals_offset exports ≤ x) →
      (data' ++ List.replicate 1 0)[pre.data.length + x]? = (data IB exports)[x]? := by
    intro x hx hx'
    rw [List.getElem?_append_left (by omega), hout _ (fun r hr => by
      have := relocSlots_bounds exports r hr
      omega), List.getElem?_append_right (by omega)]
    congr 1
    omega
  -- words that a relocation has patched
  have hS : ∀ r ∈ relocSlots exports, ∀ target, lookup r.1 = some target →
      read32 (data' ++ List.replicate 1 0) ((pre.data.length + r.2 : Nat) : Int) =
        some (toInt32 (target + (CB - IB))) := by
    intro r hr target htarget
    have hb := (relocSlots_bounds exports r hr).2
    have := hslot r hr target _ htarget (slot_sentinel IB pre.data exports r hr)
    rw [read32_congr (data' ++ List.replicate 1 0) data' (pre.data.length + r.2)
      (fun j hj => (List.getElem?_append_left (by omega)).symm)] at this
    rw [this]
    congr 1
    unfold toInt32
    omega
  have hlabels := h.table_labels
  have hhs : hunk_size exports = names_offset exports + total_name_length exports := rfl
  have hm1 : (("_ExportAddresses", table_offset exports + 28) : String × Nat) ∈
      relocSlots exports := List.mem_append_left _ (List.mem_cons_self _ _)
  have hm2 : (("_ExportNames", table_offset exports + 32) : String × Nat) ∈
      relocSlots exports :=
    List.mem_append_left _ (List.mem_cons_of_mem _ (List.mem_cons_self _ _))
  have hm3 : (("_ExportOrdinals", table_offset exports + 36) : String × Nat) ∈
      relocSlots exports :=
    List.mem_append_left _ (List.mem_cons_of_mem _ (List.mem_cons_of_mem _
      (List.mem_cons_self _ _)))
  constructor
  · -- count
    have := read32_of_le32 (data' ++ List.replicate 1 0)
      (pre.data.length + table_offset exports + 24) (exports.length : Int) (fun j hj => by
        rw [Nat.add_assoc, Nat.add_assoc, hU _ (by omega) (by omega), ← Nat.add_assoc]
        exact data_header_word IB exports 6 _ rfl j hj)
    have e : toInt32 (exports.length : Int) = (exports.length : Int) := by
      unfold toInt32
      omega
    rw [this, e]
  · have := hS ("_ExportAddresses", table_offset exports + 28) hm1 _ hlabels.1
    rw [Nat.add_assoc, this]
    congr 1
    unfold toInt32
    push_cast
    omega
  · have := hS ("_ExportNames", table_offset exports + 32) hm2 _ hlabels.2.1
    rw [Nat.add_assoc, this]
    congr 1
    unfold toInt32
    push_cast
    omega
  · have := hS ("_ExportOrdinals", table_offset exports + 36) hm3 _ hlabels.2.2
    rw [Nat.add_assoc, this]
    congr 1
    unfold toInt32
    push_cast
    omega
  · -- ordinal
    intro k hk
    have := read16_of_le16 (data' ++ List.replicate 1 0)
      (pre.data.length + ordinals_offset exports + 2 * k) (k : Int) (fun j hj => by
        rw [Nat.add_assoc, Nat.add_assoc, hU _ (by omega) (by omega), ← Nat.add_assoc]
        exact data_ordinal_slot IB exports k hk j hj)
    have e : toInt16 (k : Int) = (k : Int) := by
      unfold toInt16
      omega
    rw [this, e]
  · -- address
    intro t ht target htarget
    obtain ⟨-, ht0⟩ := entries_mem_shift exports _ t ht
    have := hS (exportLabel t.2.1, addresses_offset exports + t.1 * 4) (by
      unfold relocSlots
      refine List.mem_append_right _ (List.mem_flatMap.mpr ⟨_, ht0, ?_⟩)
      simp [slotsOf]) target htarget
    rw [← this]
    congr 2
    ring
  · -- name pointer
    intro t ht
    obtain ⟨hN, ht0⟩ := entries_mem_shift exports _ t ht
    have hle := entries_offset_le exports 0 _ t ht
    have := hS ("_ExportName_" ++ t.2.1.getName, name_pointers_offset exports + t.1 * 4) (by
      unfold relocSlots
      refine List.mem_append_right _ (List.mem_flatMap.mpr ⟨_, ht0, ?_⟩)
      simp [slotsOf]) _ (h.name_label t ht)
    rw [show pre.data.length + name_pointers_offset exports + 4 * t.1 =
      pre.data.length + (name_pointers_offset exports + t.1 * 4) by ring, this]
    congr 1
    unfold toInt32
    push_cast
    omega
  · -- value
    intro k v hk
    have hlt : k < (values exports).length := by
      have := (List.getElem?_eq_some_iff.mp hk).1
      simpa using this
    have ht : table_offset exports = (values exports).length * 4 := rfl
    exact read32_of_le32 (data' ++ List.replicate 1 0) (pre.data.length + 4 * k) v
      (fun j hj => by
        rw [Nat.add_assoc, hU _ (by omega) (by omega)]
        exact data_value_slot IB exports k v hk j hj)
  · -- name
    intro t ht
    obtain ⟨hN, -⟩ := entries_mem_shift exports _ t ht
    have hle := entries_offset_le exports 0 _ t ht
    have hmem := (entries_mem_bounds _ _ _ t ht).2.2.1
    have hsl : t.2.1.getName.length = t.2.1.getName.data.length := rfl
    apply readCString_of_bytes _ t.2.1.getName.data _ (h.nul_free _ hmem)
    intro j hj
    have hp := putNames_entry exports h.nul_free 0 _ t ht j hj
    have hlt : t.2.2 - names_offset exports + j < (putNames exports).length := by
      have : (putNames exports)[t.2.2 - names_offset exports + j]?.isSome := by
        rw [hp]
        rw [List.getElem?_eq_getElem (by rw [strcpyBytes_length]; omega)]
        rfl
      obtain ⟨b, hb⟩ := Option.isSome_iff_exists.mp this
      exact (List.getElem?_eq_some_iff.mp hb).1
    rw [Nat.add_assoc, hU _ (by omega) (by omega), ← hp,
      ← data_at_names IB exports _ hlt]
    congr 1
    omega

/-! ## The loops of `stripExports` on a table with its values below it -/

theorem toInt32_of_range (x : Int) (h1 : -2147483648 ≤ x) (h2 : x < 2147483648) :
    toInt32 x = x := by
  unfold toInt32
  omega

/-- The loop "Extract value exports" on pairs sorted downwards, when the
address offsets are either more than four bytes below `B` or value slots
`B`, `B + 4`, ... below the boundary, every slot below the boundary being
taken by some pair: all the pairs at slots are consumed and the boundary ends
at `B`. -/
theorem extractValues_spec (D : List Nat) (B : Int) (hB : 0 ≤ B) (R : List (Int × Int))
    (eho : Int) (s : List Export)
    (hdesc : R.Pairwise (fun x y => y.2 ≤ x.2))
    (hcls : ∀ p ∈ R, p.2 < B - 4 ∨ (B ≤ p.2 ∧ p.2 ≤ eho ∧ (p.2 - B) % 4 = 0))
    (hcov : ∀ j : Int, B ≤ j → j < eho → (j - B) % 4 = 0 → ∃ p ∈ R, p.2 = j)
    (heho : B ≤ eho ∧ (eho - B) % 4 = 0 ∧ eho < 2147483648)
    (hread : ∀ p ∈ R, (readCString D p.1).isSome ∧ (B ≤ p.2 → (read32 D p.2).isSome)) :
    stripExports.extractValues D R eho s =
      some (R.filter (fun p => p.2 < B - 4), B,
        insertAll ((R.filter (fun p => B ≤ p.2)).map (valueOf D)) s) := by
  induction R generalizing eho s with
  | nil =>
    have : eho = B := by
      by_contra hne
      obtain ⟨p, hp, -⟩ := hcov (eho - 4) (by omega) (by omega) (by omega)
      simp at hp
    subst this
    simp [stripExports.extractValues, insertAll]
  | cons p R ih =>
    rw [List.pairwise_cons] at hdesc
    rcases hcls p (List.mem_cons_self _ _) with hlow | ⟨h1, h2, h3⟩
    · have hall : ∀ q ∈ p :: R, q.2 < B - 4 := by
        intro q hq
        rcases List.mem_cons.mp hq with rfl | hq
        · exact hlow
        · have := hdesc.1 q hq
          omega
      have : eho = B := by
        by_contra hne
        obtain ⟨q, hq, hq2⟩ := hcov (eho - 4) (by omega) (by omega) (by omega)
        have := hall q hq
        omega
      subst this
      have hf1 : (p :: R).filter (fun p => p.2 < eho - 4) = p :: R := by
        rw [List.filter_eq_self]
        intro q hq
        simpa using hall q hq
      have hf2 : (p :: R).filter (fun p => eho ≤ p.2) = [] := by
        rw [List.filter_eq_nil_iff]
        intro q hq
        have := hall q hq
        simp only [decide_eq_true_eq]
        omega
      unfold stripExports.extractValues
      rw [toInt32_of_range _ (by omega) (by omega), if_neg (by omega), hf1, hf2]
      rfl
    · have hge : p.2 ≥ eho - 4 := by
        by_contra hlt
        obtain ⟨q, hq, hq2⟩ := hcov (eho - 4) (by omega) (by omega) (by omega)
        rcases List.mem_cons.mp hq with rfl | hq
        · omega
        · have := hdesc.1 q hq
          omega
      obtain ⟨hn, hv⟩ := hread p (List.mem_cons_self _ _)
      obtain ⟨name, hname⟩ := Option.isSome_iff_exists.mp hn
      obtain ⟨v, hval⟩ := Option.isSome_iff_exists.mp (hv h1)
      unfold stripExports.extractValues
      rw [toInt32_of_range _ (by omega) (by omega), if_pos hge, hval, hname]
      simp only
      rw [ih p.2 _ hdesc.2
        (fun q hq => by
          rcases hcls q (List.mem_cons_of_mem _ hq) with h | ⟨g1, g2, g3⟩
          · exact Or.inl h
          · exact Or.inr ⟨g1, hdesc.1 q hq, g3⟩)
        (fun j hj1 hj2 hj3 => by
          obtain ⟨q, hq, hq2⟩ := hcov j hj1 (by omega) hj3
          rcases List.mem_cons.mp hq with rfl | hq
          · omega
          · exact ⟨q, hq, hq2⟩)
        ⟨h1, h3, by omega⟩
        (fun q hq => hread q (List.mem_cons_of_mem _ hq))]
      have hf1 : (p :: R).filter (fun p => p.2 < B - 4) = R.filter (fun p => p.2 < B - 4) := by
        rw [List.filter_cons, if_neg (by simp only [decide_eq_true_eq]; omega)]
      have hf2 : (p :: R).filter (fun p => B ≤ p.2) = p :: R.filter (fun p => B ≤ p.2) := by
        rw [List.filter_cons, if_pos (by simpa using h1)]
      rw [hf1, hf2]
      simp only [List.map_cons, insertAll, List.foldl_cons, valueOf, nameAt, hname, hval,
        Option.getD_some]

/-- The loop "Get remaining exports": a symbol and a symbol export per pair. -/
theorem remaining_spec (D : List Nat) (L : List (Int × Int)) (phase1 : Hunk) (s : List Export)
    (hread : ∀ p ∈ L, (readCString D p.1).isSome) :
    stripExports.remaining D L phase1 s =
      some ({ phase1 with symbols := phase1.symbols ++ L.map (symbolAt D) },
        insertAll (L.map (symbolOf D)) s) := by
  induction L generalizing phase1 s with
  | nil => simp [stripExports.remaining, insertAll]
  | cons p L ih =>
    obtain ⟨name, hname⟩ := Option.isSome_iff_exists.mp (hread p (List.mem_cons_self _ _))
    unfold stripExports.remaining
    rw [hname]
    simp only
    rw [ih _ _ (fun q hq => hread q (List.mem_cons_of_mem _ hq))]
    simp only [List.map_cons, insertAll, List.foldl_cons, symbolOf, symbolAt, nameAt, hname,
      Option.getD_some, Hunk.addSymbol, List.append_assoc, List.singleton_append]

theorem setInsert_perm_of_fresh (e : Export) (s : List Export)
    (h : ∀ x ∈ s, x.m_name ≠ e.m_name) : (setInsert e s).Perm (e :: s) := by
  induction s with
  | nil => simp [setInsert]
  | cons y ys ih =>
    unfold setInsert
    split_ifs with h1 h2
    · exact List.Perm.refl _
    · exact (List.Perm.cons y (ih (fun x hx => h x (List.mem_cons_of_mem _ hx)))).trans
        (List.Perm.swap e y ys)
    · exact absurd (eq_of_not_nameLt h2 h1) (h y (List.mem_cons_self _ _))

theorem insertAll_perm (X s : List Export)
    (hX : (X.map (fun e => e.m_name)).Nodup)
    (hs : ∀ x ∈ s, ∀ e ∈ X, x.m_name ≠ e.m_name) : (insertAll X s).Perm (X ++ s) := by
  induction X generalizing s with
  | nil => exact List.Perm.refl _
  | cons e X ih =>
    rw [List.map_cons, List.nodup_cons] at hX
    have h1 : (setInsert e s).Perm (e :: s) :=
      setInsert_perm_of_fresh e s (fun x hx => hs x hx e (List.mem_cons_self _ _))
    have := ih (setInsert e s) hX.2 (fun x hx e' he' => by
      rcases List.mem_cons.mp (h1.subset hx) with rfl | hx
      · intro heq
        exact hX.1 (List.mem_map.mpr ⟨e', he', heq.symm⟩)
      · exact hs x hx e' (List.mem_cons_of_mem _ he'))
    show (insertAll X (setInsert e s)).Perm _
    refine this.trans ?_
    refine (List.Perm.append_left X h1).trans ?_
    exact List.perm_middle

theorem insertAll_isExportSet (X s : List Export) (hs : IsExportSet s) :
    IsExportSet (insertAll X s) := by
  induction X generalizing s with
  | nil => exact hs
  | cons e X ih => exact ih _ (setInsert_isExportSet e s hs)

theorem isExportSet_nodup (Y : List Export) (hY : IsExportSet Y) :
    (Y.map (fun e => e.m_name)).Nodup := by
  unfold IsExportSet at hY
  rw [List.Nodup, List.pairwise_map]
  exact hY.imp (fun h heq => by rw [heq] at h; exact nameLt_irrefl _ h)

/-- Inserting, in any order, the records of an Export Set gives that set. -/
theorem insertAll_eq_of_perm (X Y : List Export) (hperm : X.Perm Y) (hY : IsExportSet Y) :
    insertAll X [] = Y := by
  have hnd : (X.map (fun e => e.m_name)).Nodup :=
    (hperm.map _).nodup_iff.mpr (isExportSet_nodup Y hY)
  have h1 := insertAll_perm X [] hnd (fun x hx => by simp at hx)
  rw [List.append_nil] at h1
  have h2 := insertAll_isExportSet X [] (by simp [IsExportSet])
  haveI : IsAntisymm Export (fun a b => nameLt a.m_name b.m_name) :=
    ⟨fun a b hab hba => absurd hba (nameLt_asymm hab)⟩
  exact List.eq_of_perm_of_sorted (h1.trans hperm) h2 hY

/-- Where the address slot of an export points: a value slot for an export
with a value, the content below the table for a symbol export. -/
theorem Linked.target {IB CB : Int} {lookup : String → Option Int} {pre : Hunk}
    {exports : List Export} (h : Linked IB CB lookup pre exports) (e : Export)
    (he : e ∈ exports) :
    ∃ target, lookup (exportLabel e) = some target ∧
      ((e.hasValue = true ∧ ∃ k : Nat,
          ((createExportTable.values exports).map Prod.fst)[k]? = some e.getValue ∧
          target = (pre.data.length : Int) + (k : Int) * 4) ∨
       (e.hasValue = false ∧ 0 ≤ target ∧ target < (pre.data.length : Int) - 4)) := by
  by_cases hv : e.hasValue = true
  · obtain ⟨k, hk, hl⟩ := h.value_label e he hv
    exact ⟨_, hl, Or.inl ⟨hv, k, hk, rfl⟩⟩
  · have hv' : e.hasValue = false := by simpa using hv
    obtain ⟨a, ha, h0, h1⟩ := h.symbol_refs e he hv'
    refine ⟨a, ?_, Or.inr ⟨hv', h0, h1⟩⟩
    simp only [exportLabel, hv', Bool.false_eq_true, if_false]
    exact ha

theorem values_index_lt (exports : List Export) (k : Nat) (v : Int)
    (hk : ((createExportTable.values exports).map Prod.fst)[k]? = some v) :
    k * 4 < createExportTable.table_offset exports := by
  have := (List.getElem?_eq_some_iff.mp hk).1
  simp only [List.length_map] at this
  unfold createExportTable.table_offset
  omega

theorem Linked.target_range {IB CB : Int} {lookup : String → Option Int} {pre : Hunk}
    {exports : List Export} (h : Linked IB CB lookup pre exports) (e : Export)
    (he : e ∈ exports) :
    ∃ target, lookup (exportLabel e) = some target ∧ 0 ≤ target ∧
      target < (pre.data.length : Int) + createExportTable.table_offset exports := by
  obtain ⟨target, hl, hc⟩ := h.target e he
  refine ⟨target, hl, ?_⟩
  rcases hc with ⟨-, k, hk, rfl⟩ | ⟨-, h0, h1⟩
  · have := values_index_lt exports k _ hk
    omega
  · omega

open createExportTable in
/-- The loop "Collect exports" on the relocated table. -/
theorem collect_spec (IB CB : Int) (lookup : String → Option Int) (pre : Hunk)
    (exports : List Export) (h : Linked IB CB lookup pre exports) (D : List Nat)
    (hT : TableAt IB CB lookup pre.data.length exports D)
    (L : List (Nat × Export × Nat)) (i : Nat)
    (hidx : L.map (fun t => t.1) = List.range' i L.length)
    (hL : ∀ t ∈ L, t ∈ entries exports 0 (names_offset exports))
    (hn : i + L.length ≤ exports.length) :
    stripExports.collect D (IB - CB)
      ((pre.data.length + addresses_offset exports : Nat) : Int)
      ((pre.data.length + name_pointers_offset exports : Nat) : Int)
      ((pre.data.length + ordinals_offset exports : Nat) : Int) L.length (i : Int) =
      some (L.map (pairOf lookup pre.data.length)) := by
  induction L generalizing i with
  | nil => rfl
  | cons t L ih =>
    simp only [List.map_cons, List.length_cons, List.range'_succ, List.cons.injEq] at hidx
    simp only [List.length_cons] at hn
    obtain ⟨hi, hidx⟩ := hidx
    have ht := hL t (List.mem_cons_self _ _)
    have hmem := (entries_mem_bounds _ _ _ t ht).2.2.1
    obtain ⟨target, hl, h0, h1⟩ := h.target_range t.2.1 hmem
    have hle := entries_offset_le exports 0 _ t ht
    have hfit := h.fits
    have hbase := h.bases
    have hhs : hunk_size exports = names_offset exports + total_name_length exports := rfl
    have htn : table_offset exports ≤ names_offset exports := by
      unfold names_offset ordinals_offset name_pointers_offset addresses_offset
      omega
    have e1 : ((pre.data.length + ordinals_offset exports : Nat) : Int) + 2 * (i : Int) =
        ((pre.data.length + ordinals_offset exports + 2 * i : Nat) : Int) := by
      push_cast; ring
    have e2 : ((pre.data.length + addresses_offset exports : Nat) : Int) + 4 * (i : Int) =
        ((pre.data.length + addresses_offset exports + 4 * t.1 : Nat) : Int) := by
      rw [hi]; push_cast; ring
    have e3 : ((pre.data.length + name_pointers_offset exports : Nat) : Int) + 4 * (i : Int) =
        ((pre.data.length + name_pointers_offset exports + 4 * t.1 : Nat) : Int) := by
      rw [hi]; push_cast; ring
    have e4 : (i : Int) + 1 = ((i + 1 : Nat) : Int) := by push_cast; rfl
    rw [List.length_cons, stripExports.collect]
    rw [e1, hT.ordinal i (by omega)]
    simp only
    rw [e2, e3, hT.address t ht target hl, hT.name_pointer t ht]
    simp only
    rw [e4, ih (i + 1) hidx (fun t' ht' => hL t' (List.mem_cons_of_mem _ ht')) (by omega)]
    simp only [pairOf, hl, Option.getD_some]
    have r1 : toInt32 (((pre.data.length + t.2.2 : Nat) : Int) + (CB - IB) + (IB - CB)) =
        ((pre.data.length + t.2.2 : Nat) : Int) := by
      unfold toInt32
      push_cast
      omega
    have r2 : toInt32 (toInt32 (target + (CB - IB)) + (IB - CB)) = target := by
      unfold toInt32
      omega
    rw [r1, r2, List.map_cons]
    simp only [pairOf, hl, Option.getD_some]

theorem sorted_getElem?_inj (l : List Int) (hl : l.Pairwise (· < ·)) (k k' : Nat) (v : Int)
    (h1 : l[k]? = some v) (h2 : l[k']? = some v) : k = k' := by
  obtain ⟨hk, e1⟩ := List.getElem?_eq_some_iff.mp h1
  obtain ⟨hk', e2⟩ := List.getElem?_eq_some_iff.mp h2
  rw [List.pairwise_iff_getElem] at hl
  rcases Nat.lt_trichotomy k k' with h | h | h
  · have := hl k k' hk hk' h
    omega
  · exact h
  · have := hl k' k hk' hk h
    omega

open createExportTable in
/-- The collected pairs of the relocated table: what their address offsets
are, and what `stripExports` reads through them. -/
theorem pairs_facts (IB CB : Int) (lookup : String → Option Int) (pre : Hunk)
    (exports : List Export) (h : Linked IB CB lookup pre exports) (D : List Nat)
    (hT : TableAt IB CB lookup pre.data.length exports D) :
    (∀ t ∈ entries exports 0 (names_offset exports),
      (readCString D (pairOf lookup pre.data.length t).1).isSome ∧
      ((pre.data.length : Int) ≤ (pairOf lookup pre.data.length t).2 →
        (read32 D (pairOf lookup pre.data.length t).2).isSome) ∧
      ((pairOf lookup pre.data.length t).2 < (pre.data.length : Int) - 4 ∨
        ((pre.data.length : Int) ≤ (pairOf lookup pre.data.length t).2 ∧
          (pairOf lookup pre.data.length t).2 ≤
            (pre.data.length : Int) + (table_offset exports : Int) ∧
          ((pairOf lookup pre.data.length t).2 - (pre.data.length : Int)) % 4 = 0)) ∧
      recAt D (pre.data.length : Int) (pairOf lookup pre.data.length t) = recovered t.2.1 ∧
      (decide ((pairOf lookup pre.data.length t).2 < (pre.data.length : Int) - 4) =
        !t.2.1.hasValue) ∧
      (t.2.1.hasValue = false →
        symbolAt D (pairOf lookup pre.data.length t) = recoveredSymbol lookup t.2.1)) := by
  intro t ht
  have hmem := (entries_mem_bounds _ _ _ t ht).2.2.1
  have hname := hT.name t ht
  have hnm : nameAt D (pairOf lookup pre.data.length t) = t.2.1.getName := by
    simp only [nameAt, pairOf, hname, Option.getD_some]
  obtain ⟨target, hl, hc⟩ := h.target t.2.1 hmem
  have hp2 : (pairOf lookup pre.data.length t).2 = target := by
    simp only [pairOf, hl, Option.getD_some]
  rw [hp2]
  refine ⟨by simp only [pairOf, hname]; rfl, ?_⟩
  rcases hc with ⟨hv, k, hk, rfl⟩ | ⟨hv, h0, h1⟩
  · have hlt := values_index_lt exports k _ hk
    have hcast : (pre.data.length : Int) + (k : Int) * 4 = ((pre.data.length + 4 * k : Nat) : Int) := by
      push_cast; ring
    have hval := hT.value k _ hk
    rw [← hcast] at hval
    have hrange := h.int_values t.2.1 hmem hv
    refine ⟨fun _ => by rw [hval]; rfl, Or.inr ⟨by omega, by omega, by omega⟩, ?_, ?_, ?_⟩
    · simp only [recAt, hp2, valueOf, hnm, hval, Option.getD_some, recovered, hv, if_true]
      rw [if_pos (by omega)]
      have : toInt32 t.2.1.getValue = t.2.1.getValue := toInt32_of_range _ hrange.1 hrange.2
      rw [this]
    · rw [hv]
      simp only [Bool.not_true, decide_eq_false_iff_not]
      omega
    · intro hf
      rw [hv] at hf
      exact absurd hf (by decide)
  · refine ⟨fun hge => by omega, Or.inl h1, ?_, ?_, ?_⟩
    · simp only [recAt, hp2, symbolOf, hnm, recovered, hv, Bool.false_eq_true, if_false]
      rw [if_neg (by omega)]
    · rw [hv]
      simpa using h1
    · intro _
      simp only [symbolAt, hnm, hp2, recoveredSymbol]
      have : lookup t.2.1.getSymbol = some target := by
        simpa only [exportLabel, hv, Bool.false_eq_true, if_false] using hl
      rw [this]
      rfl

open createExportTable in
/-- Every value slot is the address offset of some collected pair. -/
theorem pairs_cover (IB CB : Int) (lookup : String → Option Int) (pre : Hunk)
    (exports : List Export) (h : Linked IB CB lookup pre exports) (j : Int)
    (h1 : (pre.data.length : Int) ≤ j)
    (h2 : j < (pre.data.length : Int) + (table_offset exports : Int))
    (h3 : (j - (pre.data.length : Int)) % 4 = 0) :
    ∃ p ∈ (entries exports 0 (names_offset exports)).map (pairOf lookup pre.data.length),
      p.2 = j := by
  obtain ⟨k, hk⟩ : ∃ k : Nat, j = (pre.data.length : Int) + (k : Int) * 4 :=
    ⟨((j - pre.data.length) / 4).toNat, by omega⟩
  have hklt : k < ((values exports).map Prod.fst).length := by
    rw [List.length_map]
    unfold table_offset at h2
    omega
  have hget : ((values exports).map Prod.fst)[k]? =
      some (((values exports).map Prod.fst)[k]) := List.getElem?_eq_getElem hklt
  obtain ⟨e, he, hv, hval⟩ := (values_keys_mem exports _).mp (List.getElem_mem hklt)
  obtain ⟨t, ht, hte⟩ : ∃ t ∈ entries exports 0 (names_offset exports), t.2.1 = e := by
    have := entries_map_export exports 0 (names_offset exports)
    have he' : e ∈ (entries exports 0 (names_offset exports)).map (fun t => t.2.1) := by
      rw [this]; exact he
    obtain ⟨t, ht, hte⟩ := List.mem_map.mp he'
    exact ⟨t, ht, hte⟩
  refine ⟨pairOf lookup pre.data.length t, List.mem_map.mpr ⟨t, ht, rfl⟩, ?_⟩
  obtain ⟨k', hk', hl⟩ := h.value_label e he hv
  rw [← hval] at hget
  have := sorted_getElem?_inj _ (values_keys_sorted exports) k k' _ hget hk'
  subst this
  simp only [pairOf, hte, hl, Option.getD_some]
  omega

open createExportTable in
/-- The body of `stripExports` on the relocated table: the records of the
exports come back, the symbol exports get their symbols, and the hunk is cut
at the start of the Values block. -/
theorem fromTables_spec (IB CB : Int) (lookup : String → Option Int) (pre : Hunk)
    (exports : List Export) (h : Linked IB CB lookup pre exports) (D : List Nat)
    (hT : TableAt IB CB lookup pre.data.length exports D) (phase1 : Hunk) :
    ∃ added : List Symbol,
      stripExports.fromTables D phase1 (IB - CB)
        ((pre.data.length + table_offset exports : Nat) : Int) (exports.length : Int)
        ((pre.data.length + addresses_offset exports : Nat) : Int)
        ((pre.data.length + name_pointers_offset exports : Nat) : Int)
        ((pre.data.length + ordinals_offset exports : Nat) : Int) =
        some (exports.map recovered,
          Hunk.setRawSize { phase1 with symbols := phase1.symbols ++ added }
            (pre.data.length : Int)) ∧
      added.Perm ((exports.filter (fun e => !e.hasValue)).map (recoveredSymbol lookup)) := by
  have hfacts := pairs_facts IB CB lookup pre exports h D hT
  have hcover := pairs_cover IB CB lookup pre exports h
  have hfit := h.fits
  have hbase := h.bases
  have hts : table_offset exports ≤ hunk_size exports := by
    unfold hunk_size names_offset ordinals_offset name_pointers_offset addresses_offset
    omega
  have ht4 : table_offset exports = (values exports).length * 4 := rfl
  -- the collected pairs
  have hcol := collect_spec IB CB lookup pre exports h D hT
    (entries exports 0 (names_offset exports)) 0
    (by rw [entries_length]; exact entries_map_index _ _ _) (fun t ht => ht)
    (by rw [entries_length]; omega)
  rw [entries_length, Nat.cast_zero] at hcol
  generalize hP : (entries exports 0 (names_offset exports)).map
    (pairOf lookup pre.data.length) = P at hcol hcover
  have hPmem : ∀ p ∈ P, ∃ t ∈ entries exports 0 (names_offset exports),
      pairOf lookup pre.data.length t = p := by
    intro p hp
    rw [← hP] at hp
    exact List.mem_map.mp hp
  -- sorted, back to front
  have hperm : (stable_sort P).reverse.Perm P :=
    (List.reverse_perm _).trans (stable_sort_perm P)
  have hdesc : (stable_sort P).reverse.Pairwise (fun x y => y.2 ≤ x.2) :=
    List.pairwise_reverse.mpr (stable_sort_sorted P)
  have hRmem : ∀ p ∈ (stable_sort P).reverse,
      ∃ t ∈ entries exports 0 (names_offset exports), pairOf lookup pre.data.length t = p :=
    fun p hp => hPmem p (hperm.subset hp)
  have hev := extractValues_spec D (pre.data.length : Int) (by omega) (stable_sort P).reverse
    ((pre.data.length + table_offset exports : Nat) : Int) [] hdesc
    (fun p hp => by
      obtain ⟨t, ht, rfl⟩ := hRmem p hp
      have := (hfacts t ht).2.2.1
      push_cast
      exact this)
    (fun j h1 h2 h3 => by
      obtain ⟨p, hp, hj⟩ := hcover j h1 (by push_cast at h2; exact h2) h3
      exact ⟨p, hperm.mem_iff.mpr hp, hj⟩)
    ⟨by push_cast; omega, by push_cast; omega, by push_cast; omega⟩
    (fun p hp => by
      obtain ⟨t, ht, rfl⟩ := hRmem p hp
      exact ⟨(hfacts t ht).1, (hfacts t ht).2.1⟩)
  have hrem := remaining_spec D
    ((stable_sort P).reverse.filter (fun p => p.2 < (pre.data.length : Int) - 4)).reverse
    phase1
    (insertAll (((stable_sort P).reverse.filter
      (fun p => (pre.data.length : Int) ≤ p.2)).map (valueOf D)) [])
    (fun p hp => by
      obtain ⟨t, ht, rfl⟩ := hRmem p (List.mem_of_mem_filter (List.mem_reverse.mp hp))
      exact (hfacts t ht).1)
  refine ⟨((stable_sort P).reverse.filter
    (fun p => p.2 < (pre.data.length : Int) - 4)).reverse.map (symbolAt D), ?_, ?_⟩
  · unfold stripExports.fromTables
    simp only [Int.toNat_ofNat]
    rw [hcol]
    simp only
    rw [hev]
    simp only
    rw [hrem]
    simp only [Option.some.injEq, Prod.mk.injEq, and_true]
    -- the set
    rw [insertAll, insertAll, ← List.foldl_append, ← insertAll]
    apply insertAll_eq_of_perm
    · have e1 : ((stable_sort P).reverse.filter
          (fun p => (pre.data.length : Int) ≤ p.2)).map (valueOf D) =
          ((stable_sort P).reverse.filter
            (fun p => (pre.data.length : Int) ≤ p.2)).map (recAt D pre.data.length) := by
        apply List.map_congr_left
        intro p hp
        have := (List.mem_filter.mp hp).2
        simp only [decide_eq_true_eq] at this
        simp only [recAt, this, if_true]
      have e2 : (((stable_sort P).reverse.filter
          (fun p => p.2 < (pre.data.length : Int) - 4)).reverse).map (symbolOf D) =
          (((stable_sort P).reverse.filter
            (fun p => p.2 < (pre.data.length : Int) - 4)).reverse).map
              (recAt D pre.data.length) := by
        apply List.map_congr_left
        intro p hp
        have := (List.mem_filter.mp (List.mem_reverse.mp hp)).2
        simp only [decide_eq_true_eq] at this
        simp only [recAt]
        rw [if_neg (by omega)]
      have e3 : (stable_sort P).reverse.filter (fun p => p.2 < (pre.data.length : Int) - 4) =
          (stable_sort P).reverse.filter (fun p => !decide ((pre.data.length : Int) ≤ p.2)) := by
        apply List.filter_congr
        intro p hp
        obtain ⟨t, ht, rfl⟩ := hRmem p hp
        rcases (hfacts t ht).2.2.1 with hlow | ⟨hge, -, -⟩
        · simp only [hlow, decide_True, Bool.not_eq_true', decide_eq_false_iff_not]
          rw [eq_comm, Bool.not_eq_true', decide_eq_false_iff_not]
          omega
        · have : ¬ (pairOf lookup pre.data.length t).2 < (pre.data.length : Int) - 4 := by omega
          simp only [this, decide_False, hge, decide_True, Bool.not_true]
      rw [e1, e2, ← List.map_append]
      have hp1 : ((stable_sort P).reverse.filter (fun p => (pre.data.length : Int) ≤ p.2) ++
          ((stable_sort P).reverse.filter
            (fun p => p.2 < (pre.data.length : Int) - 4)).reverse).Perm P := by
        refine (List.Perm.append_left _ (List.reverse_perm _)).trans ?_
        rw [e3]
        exact (List.filter_append_perm _ _).trans hperm
      refine (hp1.map _).trans ?_
      rw [← hP, List.map_map]
      have : (entries exports 0 (names_offset exports)).map
          (recAt D pre.data.length ∘ pairOf lookup pre.data.length) =
          (entries exports 0 (names_offset exports)).map (recovered ∘ fun t => t.2.1) := by
        apply List.map_congr_left
        intro t ht
        exact (hfacts t ht).2.2.2.1
      rw [this, ← List.map_map, entries_map_export]
    · unfold IsExportSet
      rw [List.pairwise_map]
      refine h.sorted.imp ?_
      intro a b hab
      have ha : (recovered a).m_name = a.m_name := by
        unfold recovered; split_ifs <;> rfl
      have hb : (recovered b).m_name = b.m_name := by
        unfold recovered; split_ifs <;> rfl
      rw [ha, hb]
      exact hab
  · -- the symbols
    refine ((List.reverse_perm _).map _).trans ?_
    refine ((List.Perm.filter _ hperm).map _).trans ?_
    rw [← hP, List.filter_map, List.map_map]
    have e1 : (entries exports 0 (names_offset exports)).filter
        ((fun p : Int × Int => decide (p.2 < (pre.data.length : Int) - 4)) ∘
          pairOf lookup pre.data.length) =
        (entries exports 0 (names_offset exports)).filter (fun t => !t.2.1.hasValue) := by
      apply List.filter_congr
      intro t ht
      exact (hfacts t ht).2.2.2.2.1
    rw [e1]
    have e2 : ((entries exports 0 (names_offset exports)).filter (fun t => !t.2.1.hasValue)).map
        (symbolAt D ∘ pairOf lookup pre.data.length) =
        ((entries exports 0 (names_offset exports)).filter (fun t => !t.2.1.hasValue)).map
          (recoveredSymbol lookup ∘ fun t => t.2.1) := by
      apply List.map_congr_left
      intro t ht
      obtain ⟨ht1, ht2⟩ := List.mem_filter.mp ht
      exact (hfacts t ht1).2.2.2.2.2 (by simpa using ht2)
    rw [e2, ← List.map_map]
    have e3 : ((entries exports 0 (names_offset exports)).filter
        (fun t => !t.2.1.hasValue)).map (fun t => t.2.1) =
        exports.filter (fun e => !e.hasValue) := by
      have := List.filter_map (p := fun e : Export => !e.hasValue)
        (fun t : Nat × Export × Nat => t.2.1) (entries exports 0 (names_offset exports))
      rw [entries_map_export] at this
      rw [this]
      rfl
    rw [e3]

open createExportTable in
/-- Encoding, linking and stripping: the common ground of the round trip and
of the truncation. -/
theorem strip_linked (IB CB : Int) (lookup : String → Option Int) (pre : Hunk)
    (exports : List Export) (h : Linked IB CB lookup pre exports) :
    ∃ img stripped, link CB lookup pre (createExportTable IB exports) = some img ∧
      stripExports IB CB img
        ((pre.data.length : Int) + (table_offset exports : Int) + (CB - IB)) =
          some (exports.map recovered, stripped) ∧
      stripped.rawsize = (pre.data.length : Int) ∧
      stripped.data.take pre.data.length = pre.data ∧
      stripped.symbols.Perm (img.symbols ++
        (exports.filter (fun e => !e.hasValue)).map (recoveredSymbol lookup)) := by
  obtain ⟨data', hrel, hlen, htake, hT⟩ := linked_memory IB CB lookup pre exports h
  have hfit := h.fits
  have hbase := h.bases
  have hts : table_offset exports + 40 ≤ hunk_size exports := by
    unfold hunk_size names_offset ordinals_offset name_pointers_offset addresses_offset
    omega
  have hoff : addresses_offset exports ≤ hunk_size exports ∧
      name_pointers_offset exports ≤ hunk_size exports ∧
      ordinals_offset exports ≤ hunk_size exports := by
    unfold hunk_size names_offset ordinals_offset name_pointers_offset addresses_offset
    omega
  have hlink : link CB lookup pre (createExportTable IB exports) =
      some { pre with
        data := data'
        rawsize := (data'.length : Int)
        virtualsize := (data'.length : Int)
        symbols := pre.symbols ++ (createExportTable IB exports).symbols.map
          (fun s => { s with value := s.value + pre.data.length }) } := by
    unfold link
    rw [createExportTable_eq]
    simp only
    rw [hrel]
  obtain ⟨added, hft, hperm⟩ := fromTables_spec IB CB lookup pre exports h
    (data' ++ List.replicate 1 0) hT
    (Hunk.appendZeroes { pre with
        data := data'
        rawsize := (data'.length : Int)
        virtualsize := (data'.length : Int)
        symbols := pre.symbols ++ (createExportTable IB exports).symbols.map
          (fun s => { s with value := s.value + pre.data.length }) } 1)
  refine ⟨_, Hunk.setRawSize { (Hunk.appendZeroes { pre with
        data := data'
        rawsize := (data'.length : Int)
        virtualsize := (data'.length : Int)
        symbols := pre.symbols ++ (createExportTable IB exports).symbols.map
          (fun s => { s with value := s.value + pre.data.length }) } 1) with
      symbols := (Hunk.appendZeroes { pre with
        data := data'
        rawsize := (data'.length : Int)
        virtualsize := (data'.length : Int)
        symbols := pre.symbols ++ (createExportTable IB exports).symbols.map
          (fun s => { s with value := s.value + pre.data.length }) } 1).symbols ++ added }
      (pre.data.length : Int), hlink, ?_, ?_, ?_, ?_⟩
  · unfold stripExports
    have r0 : toInt32 (IB - CB) = IB - CB := by
      unfold toInt32
      omega
    have r1 : toInt32 ((pre.data.length : Int) + (table_offset exports : Int) + (CB - IB) +
        (IB - CB)) = ((pre.data.length + table_offset exports : Nat) : Int) := by
      unfold toInt32
      push_cast
      omega
    have c24 : ((pre.data.length + table_offset exports : Nat) : Int) + 24 =
        ((pre.data.length + table_offset exports + 24 : Nat) : Int) := by push_cast; ring
    have c28 : ((pre.data.length + table_offset exports : Nat) : Int) + 28 =
        ((pre.data.length + table_offset exports + 28 : Nat) : Int) := by push_cast; ring
    have c32 : ((pre.data.length + table_offset exports : Nat) : Int) + 32 =
        ((pre.data.length + table_offset exports + 32 : Nat) : Int) := by push_cast; ring
    have c36 : ((pre.data.length + table_offset exports : Nat) : Int) + 36 =
        ((pre.data.length + table_offset exports + 36 : Nat) : Int) := by push_cast; ring
    have a7 : toInt32 (((pre.data.length + addresses_offset exports : Nat) : Int) + (CB - IB) +
        (IB - CB)) = ((pre.data.length + addresses_offset exports : Nat) : Int) := by
      unfold toInt32
      push_cast
      omega
    have a8 : toInt32 (((pre.data.length + name_pointers_offset exports : Nat) : Int) +
        (CB - IB) + (IB - CB)) = ((pre.data.length + name_pointers_offset exports : Nat) : Int) := by
      unfold toInt32
      push_cast
      omega
    have a9 : toInt32 (((pre.data.length + ordinals_offset exports : Nat) : Int) + (CB - IB) +
        (IB - CB)) = ((pre.data.length + ordinals_offset exports : Nat) : Int) := by
      unfold toInt32
      push_cast
      omega
    simp only [r0, r1, c24, c28, c32, c36]
    have hD : (Hunk.appendZeroes { pre with
        data := data'
        rawsize := (data'.length : Int)
        virtualsize := (data'.length : Int)
        symbols := pre.symbols ++ (createExportTable IB exports).symbols.map
          (fun s => { s with value := s.value + pre.data.length }) } 1).getPtr =
        data' ++ List.replicate 1 0 := rfl
    rw [hD, hT.count, hT.addresses, hT.names, hT.ordinals]
    simp only [a7, a8, a9]
    exact hft
  · rfl
  · show (data' ++ List.replicate 1 0).take pre.data.length = pre.data
    rw [List.take_append_of_le_length (by omega)]
    exact htake
  · exact List.Perm.append_left _ hperm

/-- C2: for every name and every text that is a well-formed literal (`0x`/`0X`
with at least one hexadecimal digit, a leading `0` with octal digits, or a
decimal number) whose value is below `2^31`, `parseExport` returns the value
export with that name and the value of the digits in the implied base. -/
theorem parseExport_wellFormed_literal (name value : String) (base : Nat) (digits : List Char)
    (hwf : WellFormedLiteral value.data base digits)
    (hlt : literalValue base digits < 2 ^ 31) :
    parseExport name value = some (Export.fromValue name (literalValue base digits)) := by
  unfold parseExport
  generalize value.data = txt at hwf ⊢
  cases hwf with
  | hex x ds hx hne hd =>
    obtain ⟨c2, tl, rfl⟩ := List.exists_cons_of_ne_nil hne
    have hg : ('0' : Char) ≤ '0' ∧ ('0' : Char) ≤ '9' := by decide
    simp only [hg, and_self, if_true, hx, strtol_all 16 (c2 :: tl) hne hd]
    simp [toInt32_clamp_of_lt _ hlt]
  | octal ds hd =>
    have hall : ∀ c ∈ '0' :: ds, (digitIn 8 c).isSome := by
      intro c hc
      rcases List.mem_cons.mp hc with rfl | hc
      · decide
      · exact hd c hc
    have hg : ('0' : Char) ≤ '0' ∧ ('0' : Char) ≤ '9' := by decide
    have hnx : ∀ c1 ∈ ds, ¬ (c1 = 'x' ∨ c1 = 'X') := by
      intro c1 hc1 hx
      have h1 := digitIn_mono (by norm_num : 8 ≤ 16) (hd c1 hc1)
      rcases hx with rfl | rfl
      · rw [digitIn_x] at h1; simp at h1
      · rw [digitIn_X] at h1; simp at h1
    have hst := strtol_all 8 ('0' :: ds) (by simp) hall
    have hcl := toInt32_clamp_of_lt _ hlt
    rcases ds with _ | ⟨c1, _ | ⟨c2, tl⟩⟩
    · simp only [hg, and_self, if_true, hst]
      simp [hcl]
    · simp only [hg, and_self, if_true, hst]
      simp [hcl]
    · simp only [hg, and_self, if_true, hnx c1 (by simp), if_false, hst]
      simp [hcl]
  | decimal c ds hc0 hc hd =>
    have hall : ∀ c' ∈ c :: ds, (digitIn 10 c').isSome := by
      intro c' hc'
      rcases List.mem_cons.mp hc' with rfl | hc'
      · exact hc
      · exact hd c' hc'
    simp only [digitIn_ten_range hc, and_self, if_true, hc0, if_false,
      strtol_all 10 (c :: ds) (by simp) hall]
    simp [toInt32_clamp_of_lt _ hlt]

/-- Witness for C2: `"0x10"` gives 16, `"010"` gives 8 and `"10"` gives 10. -/
theorem parseExport_wellFormed_literal_witness :
    parseExport "X" "0x10" = some (Export.fromValue "X" 16) ∧
    parseExport "X" "010" = some (Export.fromValue "X" 8) ∧
    parseExport "X" "10" = some (Export.fromValue "X" 10) :=
  ⟨parseExport_wellFormed_literal "X" "0x10" 16 ['1', '0']
      (WellFormedLiteral.hex 'x' ['1', '0'] (Or.inl rfl) (by decide) (by decide)) (by decide),
   parseExport_wellFormed_literal "X" "010" 8 ['0', '1', '0']
      (WellFormedLiteral.octal ['1', '0'] (by decide)) (by decide),
   parseExport_wellFormed_literal "X" "10" 10 ['1', '0']
      (WellFormedLiteral.decimal '1' ['0'] (by decide) (by decide) (by decide)) (by decide)⟩

/-- C3: the text `0x-10` begins with a decimal digit and is not a well-formed
literal in any base (`-` is no hexadecimal digit), yet `parseExport` does not end
in the fatal error: `strtol` is handed the text after `0x` and takes the sign,
so the value export -16 comes back. White space (`0x 10`) and a second prefix
(`0x0x10`) after `0x` are taken the same way, while `10q` is fatal. -/
theorem parseExport_hex_sign_accepted :
    (¬ ∃ base digits, WellFormedLiteral "0x-10".data base digits) ∧
    parseExport "X" "0x-10" = some (Export.fromValue "X" (-16)) ∧
    parseExport "X" "0x 10" = some (Export.fromValue "X" 16) ∧
    parseExport "X" "0x0x10" = some (Export.fromValue "X" 16) ∧
    parseExport "X" "10q" = none := by
  refine ⟨?_, by decide, by decide, by decide, by decide⟩
  rintro ⟨base, digits, h⟩
  have hd : "0x-10".data = ['0', 'x', '-', '1', '0'] := rfl
  rw [hd] at h
  cases h with
  | hex x ds hx hne hall =>
    have := hall '-' (by simp)
    rw [digitIn_minus] at this
    simp at this
  | octal ds hall =>
    have := hall 'x' (by simp)
    revert this
    decide
  | decimal c ds hc => exact hc rfl

/-- C4, counterexample: with the empty name, `parseExport("", "")` builds the
record `Export("", "")`, whose symbol reference is empty: it is the very record
`parseExport("", "0")` returns, a value export with value 0. -/
theorem parseExport_empty_name_not_symbol :
    parseExport "" "" = some (Export.fromValue "" 0) ∧
    parseExport "" "" = parseExport "" "0" ∧
    (parseExport "" "").map Export.hasValue = some true := by
  decide

/-- C4, amended: for every non-empty name, `parseExport(name, "")` returns a
symbol export with `symbolRef = name`; and for every name and every non-empty
text whose first character is not a decimal digit, `parseExport` returns a
symbol export with that name and `symbolRef` the text. It never fails. -/
theorem parseExport_symbol (name value : String)
    (h : (value = "" ∧ name ≠ "") ∨
      (∃ c cs, value.data = c :: cs ∧ ¬ ('0' ≤ c ∧ c ≤ '9'))) :
    ∃ e, parseExport name value = some e ∧ e.hasValue = false ∧ e.getName = name ∧
      e.getSymbol = (if value = "" then name else value) ∧
      e = Export.fromSymbol name (if value = "" then name else value) := by
  rcases h with ⟨rfl, hn⟩ | ⟨c, cs, hv, hc⟩
  · refine ⟨Export.fromSymbol name name, by simp [parseExport], ?_, rfl, by simp [Export.getSymbol, Export.fromSymbol], by simp⟩
    have : name.data ≠ [] := fun h => hn (String.ext h)
    simp [Export.hasValue, Export.fromSymbol, this]
  · have hne : value ≠ "" := by
      rintro rfl
      simp at hv
    refine ⟨Export.fromSymbol name value, ?_, ?_, rfl, by simp [Export.getSymbol, Export.fromSymbol, hne], by simp [hne]⟩
    · unfold parseExport
      rw [hv]
      simp only [hc, if_false]
    · simp [Export.hasValue, Export.fromSymbol, hv]

/-- Witness for the amended C4: a self export and an alias. -/
theorem parseExport_symbol_witness :
    (∃ e, parseExport "X" "" = some e ∧ e.hasValue = false ∧ e.getName = "X" ∧
      e.getSymbol = (if ("" : String) = "" then "X" else "") ∧
      e = Export.fromSymbol "X" (if ("" : String) = "" then "X" else "")) ∧
    (∃ e, parseExport "X" "main" = some e ∧ e.hasValue = false ∧ e.getName = "X" ∧
      e.getSymbol = (if ("main" : String) = "" then "X" else "main") ∧
      e = Export.fromSymbol "X" (if ("main" : String) = "" then "X" else "main")) :=
  ⟨parseExport_symbol "X" "" (Or.inl ⟨rfl, by decide⟩),
   parseExport_symbol "X" "main" (Or.inr ⟨'m', ['a', 'i', 'n'], rfl, by decide⟩)⟩

open createExportTable in
/-- C10: for every list of exports with `n` exports and `d` distinct literal
values, the hunk of `createExportTable` has `4d + 40 + 10n + sum (l_i + 1)`
bytes (also its raw size); the bytes are the Values block (`4d` bytes), the
directory header (40), the address and name-pointer tables (`4n` each), the
ordinal table (`2n`) and the names block, so that these start at `4d`,
`4d+40`, `4d+40+4n`, `4d+40+8n` and `4d+40+10n`, the offsets the code
computes; and the symbols `exports`, `_ExportTable`, `_ExportAddresses`,
`_ExportNames`, `_ExportOrdinals` are registered at `0`, `4d`, `4d+40`,
`4d+40+4n`, `4d+40+8n`. -/
theorem createExportTable_layout (IB : Int) (exports : List Export) :
    (createExportTable IB exports).data.length =
      4 * distinctValues exports + 40 + 10 * exports.length +
        (exports.map (fun e => e.getName.length + 1)).sum ∧
    (createExportTable IB exports).rawsize =
      ((4 * distinctValues exports + 40 + 10 * exports.length +
        (exports.map (fun e => e.getName.length + 1)).sum : Nat) : Int) ∧
    (table_offset exports = 4 * distinctValues exports ∧
      addresses_offset exports = 4 * distinctValues exports + 40 ∧
      name_pointers_offset exports = 4 * distinctValues exports + 40 + 4 * exports.length ∧
      ordinals_offset exports = 4 * distinctValues exports + 40 + 8 * exports.length ∧
      names_offset exports = 4 * distinctValues exports + 40 + 10 * exports.length) ∧
    (∃ addressTable namePointerTable namesBlock : List Nat,
      (createExportTable IB exports).data =
        putValues exports ++ putTable IB exports ++ addressTable ++ namePointerTable ++
          putOrdinals exports ++ namesBlock ∧
      (putValues exports).length = 4 * distinctValues exports ∧
      (putTable IB exports).length = 40 ∧
      addressTable.length = 4 * exports.length ∧
      namePointerTable.length = 4 * exports.length ∧
      (putOrdinals exports).length = 2 * exports.length ∧
      namesBlock.length = (exports.map (fun e => e.getName.length + 1)).sum) ∧
    ({ name := "exports", value := 0,
       flags := [SymbolFlag.SYMBOL_IS_RELOCATEABLE, SymbolFlag.SYMBOL_IS_SECTION],
       miscString := "EXPORT" } : Symbol) ∈ (createExportTable IB exports).symbols ∧
    ({ name := "_ExportTable", value := ((4 * distinctValues exports : Nat) : Int),
       flags := [SymbolFlag.SYMBOL_IS_RELOCATEABLE], miscString := "" } : Symbol) ∈
      (createExportTable IB exports).symbols ∧
    ({ name := "_ExportAddresses", value := ((4 * distinctValues exports + 40 : Nat) : Int),
       flags := [SymbolFlag.SYMBOL_IS_RELOCATEABLE], miscString := "" } : Symbol) ∈
      (createExportTable IB exports).symbols ∧
    ({ name := "_ExportNames",
       value := ((4 * distinctValues exports + 40 + 4 * exports.length : Nat) : Int),
       flags := [SymbolFlag.SYMBOL_IS_RELOCATEABLE], miscString := "" } : Symbol) ∈
      (createExportTable IB exports).symbols ∧
    ({ name := "_ExportOrdinals",
       value := ((4 * distinctValues exports + 40 + 8 * exports.length : Nat) : Int),
       flags := [SymbolFlag.SYMBOL_IS_RELOCATEABLE], miscString := "" } : Symbol) ∈
      (createExportTable IB exports).symbols := by
  have hd := values_length_eq_distinct exports
  have ht : table_offset exports = 4 * distinctValues exports := by
    unfold table_offset; omega
  have ha : addresses_offset exports = 4 * distinctValues exports + 40 := by
    unfold addresses_offset; omega
  have hn : name_pointers_offset exports =
      4 * distinctValues exports + 40 + 4 * exports.length := by
    unfold name_pointers_offset; omega
  have ho : ordinals_offset exports = 4 * distinctValues exports + 40 + 8 * exports.length := by
    unfold ordinals_offset; omega
  have hs : names_offset exports = 4 * distinctValues exports + 40 + 10 * exports.length := by
    unfold names_offset; omega
  have hsize : hunk_size exports = 4 * distinctValues exports + 40 + 10 * exports.length +
      (exports.map (fun e => e.getName.length + 1)).sum := by
    unfold hunk_size total_name_length; omega
  rw [createExportTable_eq]
  refine ⟨?_, ?_, ⟨ht, ha, hn, ho, hs⟩, ?_, ?_, ?_, ?_, ?_, ?_⟩
  · simp only [data_length, hsize]
  · simp only [hsize]
  · refine ⟨(List.replicate exports.length (-IB)).flatMap le32,
      (List.replicate exports.length (-IB)).flatMap le32,
      putNames exports ++ List.replicate (hunk_size exports - (written IB exports).length) 0,
      ?_, ?_, putTable_length IB exports, ?_, ?_, ?_, ?_⟩
    · have : putAddresses IB exports = (List.replicate exports.length (-IB)).flatMap le32 ++
          (List.replicate exports.length (-IB)).flatMap le32 := by
        unfold putAddresses
        rw [← List.flatMap_append, ← List.replicate_add]
        congr 2
        ring
      simp only [data, written, this, List.append_assoc]
    · rw [putValues_length, ht]
    · rw [flatMap_length_const _ le32 4 (fun _ _ => rfl), List.length_replicate]; ring
    · rw [flatMap_length_const _ le32 4 (fun _ _ => rfl), List.length_replicate]; ring
    · rw [putOrdinals_length]; ring
    · have h1 := written_length IB exports
      have h2 := putNames_length_le exports
      simp only [List.length_append, List.length_replicate, hunk_size, total_name_length] at *
      omega
  · simp [symbols]
  · simp [symbols, ht]
  · simp [symbols, ha]
  · simp [symbols, hn]
  · simp [symbols, ho]

theorem char_lt_iff (a b : Char) : a < b ↔ a.toNat < b.toNat := by
  show a.val < b.val ↔ _
  rw [UInt32.lt_def]
  rfl

theorem toNat_ofNat_small (n : Nat) (h : n < 55296) : (Char.ofNat n).toNat = n := by
  have hv : n.isValidChar := Or.inl h
  unfold Char.ofNat
  rw [dif_pos hv]
  rfl

theorem ofNat_lt_ofNat (a b : Nat) (h : a < b) (hb : b < 55296) :
    Char.ofNat a < Char.ofNat b := by
  rw [char_lt_iff, toNat_ofNat_small a (by omega), toNat_ofNat_small b hb]
  exact h

theorem exportName_lt (i j : Nat) (h : i < j) (hj : j < 262144) :
    nameLt (exportName i) (exportName j) := by
  show [Char.ofNat (48 + i / 4096), Char.ofNat (48 + i / 64 % 64), Char.ofNat (48 + i % 64)] <
    [Char.ofNat (48 + j / 4096), Char.ofNat (48 + j / 64 % 64), Char.ofNat (48 + j % 64)]
  by_cases h2 : i / 4096 < j / 4096
  · exact List.Lex.rel (ofNat_lt_ofNat _ _ (by omega) (by omega))
  · have e2 : i / 4096 = j / 4096 := by omega
    rw [e2]
    apply List.Lex.cons
    by_cases h1 : i / 64 % 64 < j / 64 % 64
    · exact List.Lex.rel (ofNat_lt_ofNat _ _ (by omega) (by omega))
    · have e1 : i / 64 % 64 = j / 64 % 64 := by omega
      rw [e1]
      apply List.Lex.cons
      exact List.Lex.rel (ofNat_lt_ofNat _ _ (by omega) (by omega))

theorem manyExports_sorted (n : Nat) (hn : n ≤ 262144) : IsExportSet (manyExports n) := by
  unfold IsExportSet manyExports
  rw [List.pairwise_map]
  refine (List.Pairwise.and_mem.mp (List.pairwise_lt_range n)).imp ?_
  intro i j hij
  obtain ⟨_, hjm, hlt⟩ := hij
  exact exportName_lt i j hlt (by have := List.mem_range.mp hjm; omega)

theorem manyExports_nulFree (n : Nat) (hn : n ≤ 262144) : NulFree (manyExports n) := by
  intro e he c hc
  unfold manyExports at he
  rw [List.mem_map] at he
  obtain ⟨i, hi, rfl⟩ := he
  have hi2 := List.mem_range.mp hi
  have hc2 : c = Char.ofNat (48 + i / 4096) ∨ c = Char.ofNat (48 + i / 64 % 64) ∨
      c = Char.ofNat (48 + i % 64) := by
    simpa [Export.fromSymbol, exportName] using hc
  rcases hc2 with rfl | rfl | rfl
  · rw [toNat_ofNat_small _ (by omega)]
    omega
  · rw [toNat_ofNat_small _ (by omega)]
    omega
  · rw [toNat_ofNat_small _ (by omega)]
    omega

theorem foldl_collect_no_value (es : List Export) (m : List (Int × Int))
    (h : ∀ e ∈ es, e.hasValue = false) :
    es.foldl (fun m e => if e.hasValue then mapAssign m e.getValue 0 else m) m = m := by
  induction es generalizing m with
  | nil => rfl
  | cons e es ih =>
    rw [List.foldl_cons, h e (List.mem_cons_self _ _)]
    exact ih m (fun x hx => h x (List.mem_cons_of_mem _ hx))

open createExportTable in
theorem manyExports_hunk_size (n : Nat) : hunk_size (manyExports n) = 40 + 14 * n := by
  have hlen : (manyExports n).length = n := by simp [manyExports]
  have hval : values (manyExports n) = [] := by
    unfold values collectValues
    rw [foldl_collect_no_value]
    · rfl
    · intro e he
      unfold manyExports at he
      rw [List.mem_map] at he
      obtain ⟨i, _, rfl⟩ := he
      rfl
  have hnames : total_name_length (manyExports n) = 4 * n := by
    unfold total_name_length manyExports
    rw [List.map_map]
    have : ((fun e : Export => e.getName.length + 1) ∘
        (fun i => Export.fromSymbol (exportName i) "f")) = fun _ => 4 := by
      funext i
      rfl
    rw [this]
    clear hlen hval
    induction n with
    | zero => rfl
    | succ n ih =>
      rw [List.range_succ, List.map_append, List.sum_append, ih]
      simp only [List.map_cons, List.map_nil, List.sum_cons, List.sum_nil]
      omega
  unfold hunk_size names_offset ordinals_offset name_pointers_offset addresses_offset
    table_offset
  rw [hval, hlen, hnames]
  simp only [List.length_nil]
  omega

open createExportTable in
theorem ordinal_slot_wraps (IB : Int) (exports : List Export) (h : 65536 < exports.length) :
    (createExportTable IB exports).data[ordinals_offset exports + 2 * 65536]? = some 0 ∧
    (createExportTable IB exports).data[ordinals_offset exports + 2 * 65536 + 1]? = some 0 ∧
    read16 (createExportTable IB exports).data
      ((ordinals_offset exports + 2 * 65536 : Nat) : Int) = some 0 := by
  have hslot := data_ordinal_slot IB exports 65536 h
  have e0 : le16 ((65536 : Nat) : Int) = [0, 0] := by decide
  rw [e0] at hslot
  rw [createExportTable_eq]
  refine ⟨?_, ?_, ?_⟩
  · have := hslot 0 (by norm_num)
    rw [Nat.add_zero] at this
    rw [this]; rfl
  · have := hslot 1 (by norm_num)
    rw [this]; rfl
  · have := read16_of_le16 (data IB exports) (ordinals_offset exports + 2 * 65536) (65536 : Nat)
      (fun j hj => by rw [hslot j hj, e0])
    rw [this]
    decide

theorem manyExports_length (n : Nat) : (manyExports n).length = n := by
  simp [manyExports]

/-- C6, counterexample: the Export Set of 65537 symbol exports with the
three-character names `exportName 0`, ..., `exportName 65536`, strictly
ascending and without NUL, has a fragment of 917558 bytes, and in its table the
2-byte ordinal slot 65536 holds the bytes 0, 0 and is read as 0, not as
65536. -/
theorem createExportTable_ordinal_overflow :
    IsExportSet (manyExports 65537) ∧
    NulFree (manyExports 65537) ∧
    (manyExports 65537).length = 65537 ∧
    createExportTable.hunk_size (manyExports 65537) = 917558 ∧
    (createExportTable 4194304 (manyExports 65537)).data[
      createExportTable.ordinals_offset (manyExports 65537) + 2 * 65536]? = some 0 ∧
    (createExportTable 4194304 (manyExports 65537)).data[
      createExportTable.ordinals_offset (manyExports 65537) + 2 * 65536 + 1]? = some 0 ∧
    read16 (createExportTable 4194304 (manyExports 65537)).data
      ((createExportTable.ordinals_offset (manyExports 65537) + 2 * 65536 : Nat) : Int) =
        some 0 :=
  ⟨manyExports_sorted _ (by norm_num), manyExports_nulFree _ (by norm_num),
    manyExports_length _, manyExports_hunk_size _,
    ordinal_slot_wraps 4194304 (manyExports 65537)
      (lt_of_lt_of_eq (Nat.lt_succ_self 65536) (manyExports_length 65537).symm)⟩

open createExportTable in
/-- C6, amended: for every list of exports and every `i` below the number of
exports, the `i`-th 2-byte slot of the ordinal table holds `i` modulo `2^16`
(little endian); read as the `short` the code stores and `stripExports` loads,
it is `i` for every `i` below 32768. -/
theorem createExportTable_ordinal_identity (IB : Int) (exports : List Export) (i : Nat)
    (hi : i < exports.length) :
    (∃ b0 b1, (createExportTable IB exports).data[ordinals_offset exports + 2 * i]? = some b0 ∧
      (createExportTable IB exports).data[ordinals_offset exports + 2 * i + 1]? = some b1 ∧
      b0 < 256 ∧ b1 < 256 ∧ b0 + 256 * b1 = i % 65536) ∧
    (i < 32768 → read16 (createExportTable IB exports).data
      ((ordinals_offset exports + 2 * i : Nat) : Int) = some (i : Int)) := by
  have hslot := data_ordinal_slot IB exports i hi
  rw [createExportTable_eq]
  constructor
  · refine ⟨((i : Int) % 65536).toNat % 256, ((i : Int) % 65536).toNat / 256 % 256,
      ?_, ?_, by omega, by omega, by omega⟩
    · have := hslot 0 (by norm_num)
      simp only [le16, List.getElem?_cons_zero, Nat.add_zero] at this
      exact this
    · have := hslot 1 (by norm_num)
      simp only [le16, List.getElem?_cons_succ, List.getElem?_cons_zero] at this
      exact this
  · intro h
    have hr := read16_of_le16 (data IB exports) (ordinals_offset exports + 2 * i) (i : Int) hslot
    rw [hr]
    have : toInt16 (i : Int) = (i : Int) := by
      unfold toInt16
      omega
    rw [this]

/-- Witness for the amended C6: the second of three exports. -/
theorem createExportTable_ordinal_identity_witness :
    (∃ b0 b1, (createExportTable 4194304 (manyExports 3)).data[
        createExportTable.ordinals_offset (manyExports 3) + 2 * 1]? = some b0 ∧
      (createExportTable 4194304 (manyExports 3)).data[
        createExportTable.ordinals_offset (manyExports 3) + 2 * 1 + 1]? = some b1 ∧
      b0 < 256 ∧ b1 < 256 ∧ b0 + 256 * b1 = 1 % 65536) ∧
    (1 < 32768 → read16 (createExportTable 4194304 (manyExports 3)).data
      ((createExportTable.ordinals_offset (manyExports 3) + 2 * 1 : Nat) : Int) =
        some ((1 : Nat) : Int)) :=
  createExportTable_ordinal_identity 4194304 (manyExports 3) 1 (by decide)

theorem flatMap_map_fst (l : List (Int × Int)) :
    l.flatMap (fun v => le32 v.1) = (l.map Prod.fst).flatMap le32 := by
  induction l with
  | nil => rfl
  | cons p l ih => simp [List.flatMap_cons, ih]

open createExportTable in
/-- C5: for every list of exports, with `vs` the keys of the map `values`:
`vs` is strictly ascending and holds exactly the literal values of the exports
that have a value (one entry per distinct value); the Values block, the bytes
in front of the directory header, is one 4-byte slot per entry of `vs`, in
that order; and the symbol of every export with a value is registered at
offset `4 * k`, `k` being the position of its value in `vs`. -/
theorem createExportTable_values_block (IB : Int) (exports : List Export) :
    ((values exports).map Prod.fst).Pairwise (· < ·) ∧
    (∀ v, v ∈ (values exports).map Prod.fst ↔
      ∃ e ∈ exports, e.hasValue = true ∧ e.getValue = v) ∧
    ((values exports).map Prod.fst).length = distinctValues exports ∧
    table_offset exports = 4 * ((values exports).map Prod.fst).length ∧
    (createExportTable IB exports).data.take (table_offset exports) =
      ((values exports).map Prod.fst).flatMap le32 ∧
    (∀ e ∈ exports, e.hasValue = true →
      ∃ k, ((values exports).map Prod.fst)[k]? = some e.getValue ∧
        ({ name := String.mk (c_str e.getName), value := ((k : Nat) : Int) * 4,
           flags := [SymbolFlag.SYMBOL_IS_RELOCATEABLE], miscString := "" } : Symbol) ∈
          (createExportTable IB exports).symbols) := by
  refine ⟨values_keys_sorted exports, values_keys_mem exports, ?_, ?_, ?_, ?_⟩
  · rw [List.length_map, values_length_eq_distinct]
  · rw [List.length_map, table_offset]; ring
  · rw [createExportTable_eq]
    show (data IB exports).take (table_offset exports) = _
    rw [data_eq, ← putValues_length, List.take_left']
    · exact flatMap_map_fst _
    · rfl
  · exact createExportTable_values_block_aux IB exports

/-- Example for C5: `{A = 5, B = 5, C = 7}` gives a Values block of two slots,
5 then 7; `A` and `B` are registered at offset 0 and `C` at offset 4. -/
theorem createExportTable_values_block_example :
    ((createExportTable.values [Export.fromValue "A" 5, Export.fromValue "B" 5,
      Export.fromValue "C" 7]).map Prod.fst) = [5, 7] ∧
    (createExportTable 4194304 [Export.fromValue "A" 5, Export.fromValue "B" 5,
      Export.fromValue "C" 7]).data.take 8 = [5, 0, 0, 0, 7, 0, 0, 0] ∧
    (∃ k, ([5, 7] : List Int)[k]? = some 5 ∧
      ({ name := "A", value := ((k : Nat) : Int) * 4,
         flags := [SymbolFlag.SYMBOL_IS_RELOCATEABLE], miscString := "" } : Symbol) ∈
      (createExportTable 4194304 [Export.fromValue "A" 5, Export.fromValue "B" 5,
        Export.fromValue "C" 7]).symbols) ∧
    (createExportTable 4194304 [Export.fromValue "A" 5, Export.fromValue "B" 5,
      Export.fromValue "C" 7]).symbols.filter (fun s => s.name = "A" ∨ s.name = "B" ∨ s.name = "C") =
      [{ name := "A", value := 0, flags := [SymbolFlag.SYMBOL_IS_RELOCATEABLE], miscString := "" },
       { name := "B", value := 0, flags := [SymbolFlag.SYMBOL_IS_RELOCATEABLE], miscString := "" },
       { name := "C", value := 4, flags := [SymbolFlag.SYMBOL_IS_RELOCATEABLE], miscString := "" }] :=
  ⟨by decide, by decide,
   (createExportTable_values_block 4194304 [Export.fromValue "A" 5, Export.fromValue "B" 5,
      Export.fromValue "C" 7]).2.2.2.2.2 (Export.fromValue "A" 5) (by decide) (by decide),
   by decide⟩

/-- C8: the sort of `stripExports` returns a permutation of the collected
pairs, non-decreasing in the address offset, in which the pairs of any one
address offset stand in the order in which they were collected. -/
theorem stable_sort_stable (export_offsets : List (Int × Int)) :
    (stable_sort export_offsets).Perm export_offsets ∧
    (stable_sort export_offsets).Pairwise (fun a b => a.2 ≤ b.2) ∧
    ∀ offset : Int, (stable_sort export_offsets).filter (fun p => p.2 = offset) =
      export_offsets.filter (fun p => p.2 = offset) :=
  ⟨stable_sort_perm _, stable_sort_sorted _, stable_sort_filter _⟩

theorem extractValues_isExportSet (data : List Nat) (l : List (Int × Int)) (eho : Int)
    (s : List Export) (hs : IsExportSet s) (r : List (Int × Int) × Int × List Export)
    (h : stripExports.extractValues data l eho s = some r) : IsExportSet r.2.2 := by
  induction l generalizing eho s with
  | nil =>
    simp only [stripExports.extractValues, Option.some.injEq] at h
    subst h
    exact hs
  | cons p ps ih =>
    unfold stripExports.extractValues at h
    split_ifs at h with hc
    · split at h
      · exact ih _ _ (setInsert_isExportSet _ _ hs) h
      · simp at h
    · simp only [Option.some.injEq] at h
      subst h
      exact hs

theorem remaining_isExportSet (data : List Nat) (l : List (Int × Int)) (phase1 : Hunk)
    (s : List Export) (hs : IsExportSet s) (r : Hunk × List Export)
    (h : stripExports.remaining data l phase1 s = some r) : IsExportSet r.2 := by
  induction l generalizing phase1 s with
  | nil =>
    simp only [stripExports.remaining, Option.some.injEq] at h
    subst h
    exact hs
  | cons p ps ih =>
    unfold stripExports.remaining at h
    split at h
    · exact ih _ _ (setInsert_isExportSet _ _ hs) h
    · simp at h

theorem fromTables_isExportSet (data : List Nat) (phase1 : Hunk)
    (rto tab n a p o : Int) (exports : List Export) (stripped : Hunk)
    (h : stripExports.fromTables data phase1 rto tab n a p o = some (exports, stripped)) :
    IsExportSet exports := by
  unfold stripExports.fromTables at h
  split at h
  · simp at h
  · simp only at h
    split at h
    · simp at h
    · rename_i r1 eo eho ex hev
      split at h
      · simp at h
      · rename_i r2 ph ex2 hrem
        simp only [Option.some.injEq, Prod.mk.injEq] at h
        rw [← h.1]
        have h1 := extractValues_isExportSet _ _ _ _ (by simp [IsExportSet]) _ hev
        exact remaining_isExportSet _ _ _ _ h1 _ hrem

theorem stripExports_isExportSet (IB CB : Int) (phase1 : Hunk) (exports_rva : Int)
    (exports : List Export) (stripped : Hunk)
    (h : stripExports IB CB phase1 exports_rva = some (exports, stripped)) :
    IsExportSet exports := by
  unfold stripExports at h
  simp only at h
  split at h
  · exact fromTables_isExportSet _ _ _ _ _ _ _ _ _ _ h
  · simp at h

/-- C9: the set `stripExports` returns is strictly ascending by name, so no
two of its records have the same name; and inserting, into any Export Set, a
second record with a name just inserted leaves the set as it was, with exactly
one record of that name. -/
theorem stripExports_names_unique (IB CB : Int) (phase1 : Hunk) (exports_rva : Int)
    (exports : List Export) (stripped : Hunk)
    (h : stripExports IB CB phase1 exports_rva = some (exports, stripped)) :
    IsExportSet exports ∧
    (∀ name, (exports.filter (fun x => x.m_name = name)).length ≤ 1) ∧
    (∀ (s : List Export) (first second : Export), IsExportSet s →
      second.m_name = first.m_name →
      setInsert second (setInsert first s) = setInsert first s ∧
      ((setInsert second (setInsert first s)).filter
        (fun x => x.m_name = first.m_name)).length = 1) := by
  have hs := stripExports_isExportSet IB CB phase1 exports_rva exports stripped h
  refine ⟨hs, isExportSet_count_le_one exports hs, ?_⟩
  intro s first second hss hn
  have h1 := setInsert_isExportSet first s hss
  obtain ⟨x, hx, hxn⟩ := setInsert_mem_self first s
  have h2 := setInsert_present second (setInsert first s) h1 ⟨x, hx, by rw [hxn, hn]⟩
  refine ⟨h2, ?_⟩
  rw [h2]
  have hle := isExportSet_count_le_one _ h1 first.m_name
  have hpos : 0 < ((setInsert first s).filter (fun x => x.m_name = first.m_name)).length := by
    apply List.length_pos_of_mem (a := x)
    exact List.mem_filter.mpr ⟨hx, by simpa using hxn⟩
  omega

set_option maxRecDepth 100000 in
theorem link_exampleImage :
    link 4325376 exampleLookup examplePre (createExportTable 4194304 exampleExports) =
      some exampleImage := by
  decide

set_option maxRecDepth 100000 in
theorem stripExports_exampleImage :
    stripExports 4194304 4325376 exampleImage 131084 =
      some ([Export.fromValue "A" 5, Export.fromSymbol "D" "D"],
        ((exampleImage.appendZeroes 1).addSymbol
          { name := "D", value := 2, flags := [SymbolFlag.SYMBOL_IS_RELOCATEABLE],
            miscString := "EXPORT" }).setRawSize 8) := by
  decide

/-- Witness for C9: the strip of the example image. -/
theorem stripExports_names_unique_witness :
    IsExportSet [Export.fromValue "A" 5, Export.fromSymbol "D" "D"] ∧
    (∀ name, (([Export.fromValue "A" 5, Export.fromSymbol "D" "D"] : List Export).filter
      (fun x => x.m_name = name)).length ≤ 1) ∧
    (∀ (s : List Export) (first second : Export), IsExportSet s →
      second.m_name = first.m_name →
      setInsert second (setInsert first s) = setInsert first s ∧
      ((setInsert second (setInsert first s)).filter
        (fun x => x.m_name = first.m_name)).length = 1) :=
  stripExports_names_unique 4194304 4325376 exampleImage 131084 _ _ stripExports_exampleImage

theorem recovered_of_hasValue (e : Export) (h : e.hasValue = true) : recovered e = e := by
  obtain ⟨n, s, v⟩ := e
  have hs : s = "" := by
    apply String.ext
    simpa [Export.hasValue] using h
  subst hs
  simp [recovered, Export.hasValue, Export.fromValue, Export.getName, Export.getValue]

theorem recovered_name (e : Export) : (recovered e).getName = e.getName := by
  unfold recovered
  split_ifs <;> rfl

/-- The example image is linked as `Linked` asks. -/
theorem example_linked : Linked 4194304 4325376 exampleLookup examplePre exampleExports where
  sorted := by unfold IsExportSet; decide
  nul_free := by decide
  int_values := by decide
  count := by decide
  bases := by decide
  fits := by decide
  own_labels := by decide
  symbol_refs := by
    intro e he hv
    simp only [exampleExports, List.mem_cons, List.mem_singleton, List.not_mem_nil,
      or_false] at he
    rcases he with rfl | rfl
    · exact absurd hv (by decide)
    · exact ⟨2, by decide, by decide, by decide⟩

set_option maxRecDepth 100000 in
/-- C1, counterexample. With the fragment at offset 0 of the image, the symbol
export `x -> exports` (the label of the fragment itself) comes back as the
value export `x = 0`; and behind eight bytes of content, with `main` at
offset 5, less than four bytes below the table, the export `D -> main` of
`{A = 5, D -> main}` comes back as a value export. -/
theorem roundtrip_symbol_export_lost :
    ((link 4325376 (imageLookup [] [Export.fromSymbol "x" "exports"] 0) emptyPre
        (createExportTable 4194304 [Export.fromSymbol "x" "exports"])).bind
      (fun img => stripExports 4194304 4325376 img (0 + 0 + (4325376 - 4194304)))).map
        Prod.fst = some [Export.fromValue "x" 0] ∧
    ((link 4325376 (imageLookup [("main", 5)] exampleExports 8) examplePre
        (createExportTable 4194304 exampleExports)).bind
      (fun img => stripExports 4194304 4325376 img (8 + 4 + (4325376 - 4194304)))).map
        Prod.fst = some [Export.fromValue "A" 5, Export.fromValue "D" 93360272] := by
  constructor <;> decide

open createExportTable in
/-- C1, amended: let `exports` be an Export Set (strictly ascending names)
with NUL-free names, `int` values and at most 32768 exports, encoded by
`createExportTable`, placed behind the content `pre` of an image and
relocated, the labels of the fragment resolving into the fragment and the
symbol reference of every symbol export resolving to an offset of `pre` more
than four bytes below the table (`Linked`). Then `stripExports`, run at the
RVA of the directory header, returns the Export Set with the same names in
which every value export is the original record and every symbol export is
the self-referencing `Export(name, name)`, and it adds to the image, for each
symbol export, one symbol with the name of the export at the offset its symbol
reference resolves to. -/
theorem stripExports_createExportTable_roundtrip (IB CB : Int)
    (lookup : String → Option Int) (pre : Hunk) (exports : List Export)
    (h : Linked IB CB lookup pre exports) :
    ∃ img stripped, link CB lookup pre (createExportTable IB exports) = some img ∧
      stripExports IB CB img
        ((pre.data.length : Int) + (table_offset exports : Int) + (CB - IB)) =
          some (exports.map recovered, stripped) ∧
      (exports.map recovered).map Export.getName = exports.map Export.getName ∧
      (∀ e ∈ exports, e.hasValue = true → recovered e = e) ∧
      (∀ e ∈ exports, e.hasValue = false →
        recovered e = Export.fromSymbol e.getName e.getName) ∧
      stripped.symbols.Perm (img.symbols ++
        (exports.filter (fun e => !e.hasValue)).map (recoveredSymbol lookup)) := by
  obtain ⟨img, stripped, h1, h2, -, -, h5⟩ := strip_linked IB CB lookup pre exports h
  refine ⟨img, stripped, h1, h2, ?_, fun e _ hv => recovered_of_hasValue e hv, ?_, h5⟩
  · rw [List.map_map]
    exact List.map_congr_left (fun e _ => recovered_name e)
  · intro e _ hv
    simp [recovered, hv]

/-- Witness for the amended C1: the example image. -/
theorem stripExports_createExportTable_roundtrip_witness :
    ∃ img stripped,
      link 4325376 exampleLookup examplePre (createExportTable 4194304 exampleExports) =
        some img ∧
      stripExports 4194304 4325376 img
        ((examplePre.data.length : Int) +
          (createExportTable.table_offset exampleExports : Int) + (4325376 - 4194304)) =
          some (exampleExports.map recovered, stripped) ∧
      (exampleExports.map recovered).map Export.getName =
        exampleExports.map Export.getName ∧
      (∀ e ∈ exampleExports, e.hasValue = true → recovered e = e) ∧
      (∀ e ∈ exampleExports, e.hasValue = false →
        recovered e = Export.fromSymbol e.getName e.getName) ∧
      stripped.symbols.Perm (img.symbols ++
        (exampleExports.filter (fun e => !e.hasValue)).map (recoveredSymbol exampleLookup)) :=
  stripExports_createExportTable_roundtrip 4194304 4325376 exampleLookup examplePre
    exampleExports example_linked

set_option maxRecDepth 100000 in
/-- C7, counterexample. Behind eight bytes of content, the table of the one
export `D -> main` has no literal value and its directory header at offset 8;
with `main` at offset 5 the used length after `stripExports` is 5. With the
fragment at offset 0 and the export `x -> _ExportAddresses`, it is 40. -/
theorem truncation_below_and_above :
    ((link 4325376 (imageLookup [("main", 5)] [Export.fromSymbol "D" "main"] 8) examplePre
        (createExportTable 4194304 [Export.fromSymbol "D" "main"])).bind
      (fun img => stripExports 4194304 4325376 img (8 + 0 + (4325376 - 4194304)))).map
        (fun r => r.2.rawsize) = some 5 ∧
    ((link 4325376 (imageLookup [] [Export.fromSymbol "x" "_ExportAddresses"] 0) emptyPre
        (createExportTable 4194304 [Export.fromSymbol "x" "_ExportAddresses"])).bind
      (fun img => stripExports 4194304 4325376 img (0 + 0 + (4325376 - 4194304)))).map
        (fun r => r.2.rawsize) = some 40 := by
  constructor <;> decide

open createExportTable in
/-- C7, amended: for the table of an Export Set encoded by `createExportTable`
and linked behind the content `pre` as `Linked` describes (in particular the
symbol reference of every symbol export resolves more than four bytes below
the table), `stripExports` at the RVA of the directory header leaves the
content `pre` and nothing else below the used length: the used length is the
offset of the directory header less four bytes for each distinct literal
value, the offset of the first byte of the Values block, which is the offset
of the header when there is no literal value. -/
theorem stripExports_truncates (IB CB : Int) (lookup : String → Option Int) (pre : Hunk)
    (exports : List Export) (h : Linked IB CB lookup pre exports) :
    ∃ img result stripped, link CB lookup pre (createExportTable IB exports) = some img ∧
      stripExports IB CB img
        ((pre.data.length : Int) + (table_offset exports : Int) + (CB - IB)) =
          some (result, stripped) ∧
      stripped.rawsize =
        ((pre.data.length : Int) + (table_offset exports : Int)) -
          4 * (distinctValues exports : Int) ∧
      (distinctValues exports = 0 →
        stripped.rawsize = (pre.data.length : Int) + (table_offset exports : Int)) ∧
      stripped.data.take stripped.rawsize.toNat = pre.data := by
  obtain ⟨img, stripped, h1, h2, h3, h4, -⟩ := strip_linked IB CB lookup pre exports h
  have hd := values_length_eq_distinct exports
  have ht : table_offset exports = (values exports).length * 4 := rfl
  refine ⟨img, _, stripped, h1, h2, ?_, ?_, ?_⟩
  · rw [h3]
    omega
  · intro h0
    rw [h3]
    omega
  · rw [h3, Int.toNat_ofNat]
    exact h4

/-- Witness for the amended C7: the example image. -/
theorem stripExports_truncates_witness :
    ∃ img result stripped,
      link 4325376 exampleLookup examplePre (createExportTable 4194304 exampleExports) =
        some img ∧
      stripExports 4194304 4325376 img
        ((examplePre.data.length : Int) +
          (createExportTable.table_offset exampleExports : Int) + (4325376 - 4194304)) =
          some (result, stripped) ∧
      stripped.rawsize =
        ((examplePre.data.length : Int) +
          (createExportTable.table_offset exampleExports : Int)) -
          4 * (distinctValues exampleExports : Int) ∧
      (distinctValues exampleExports = 0 →
        stripped.rawsize = (examplePre.data.length : Int) +
          (createExportTable.table_offset exampleExports : Int)) ∧
      stripped.data.take stripped.rawsize.toNat = examplePre.data :=
  stripExports_truncates 4194304 4325376 exampleLookup examplePre exampleExports example_linked

open createExportTable in
/-- C11: for every list of exports with `n` exports, the directory header at
`table_offset` holds, as ten 32-bit words in order, 0, 0, 0, 0, 1, `n`, `n`
and three times the image-base sentinel `-CRINKLER_IMAGEBASE` (each word as
the `int` it is stored as), it is 40 bytes long, and every one of the `n`
address-table slots and `n` name-pointer slots holds that sentinel. -/
theorem createExportTable_header (IB : Int) (exports : List Export) :
    (∀ (w : Nat) (x : Int),
      ([0, 0, 0, 0, 1, (exports.length : Int), (exports.length : Int), -IB, -IB, -IB] :
        List Int)[w]? = some x →
      read32 (createExportTable IB exports).data ((table_offset exports + 4 * w : Nat) : Int) =
        some (toInt32 x)) ∧
    addresses_offset exports = table_offset exports + 40 ∧
    (∀ i, i < exports.length →
      read32 (createExportTable IB exports).data
        ((addresses_offset exports + 4 * i : Nat) : Int) = some (toInt32 (-IB))) ∧
    (∀ i, i < exports.length →
      read32 (createExportTable IB exports).data
        ((name_pointers_offset exports + 4 * i : Nat) : Int) = some (toInt32 (-IB))) ∧
    (∀ x : Int, -2147483648 ≤ x → x < 2147483648 → toInt32 x = x) := by
  rw [createExportTable_eq]
  refine ⟨?_, rfl, ?_, ?_, toInt32_of_range⟩
  · intro w x hw
    apply read32_of_le32
    intro j hj
    rw [Nat.mul_comm 4 w]
    exact data_header_word IB exports w x hw j hj
  · intro i hi
    apply read32_of_le32
    intro j hj
    rw [Nat.mul_comm 4 i]
    exact data_address_word IB exports i (by omega) j hj
  · intro i hi
    apply read32_of_le32
    intro j hj
    have := data_address_word IB exports (exports.length + i) (by omega) j hj
    rw [← this]
    unfold name_pointers_offset
    congr 1
    ring

set_option maxRecDepth 100000 in
/-- Example for C11: the header of the table of `{A = 5, D -> main}` with the
image base `0x400000`. -/
theorem createExportTable_header_example :
    (List.range 10).map (fun w => read32 (createExportTable 4194304 exampleExports).data
      ((createExportTable.table_offset exampleExports + 4 * w : Nat) : Int)) =
      [some 0, some 0, some 0, some 0, some 1, some 2, some 2, some (-4194304),
        some (-4194304), some (-4194304)] ∧
    read32 (createExportTable 4194304 exampleExports).data
      ((createExportTable.table_offset exampleExports + 4 * 7 : Nat) : Int) =
        some (toInt32 (-4194304)) :=
  ⟨by decide,
   (createExportTable_header 4194304 exampleExports).1 7 (-4194304) (by decide)⟩

open createExportTable in
theorem exportRelocations_enum (a p : Nat) (es : List Export) (i : Nat) :
    exportRelocations a p es i =
      (es.enumFrom i).flatMap (relocationsOf a p) := by
  induction es generalizing i with
  | nil => rfl
  | cons e es ih =>
    simp only [exportRelocations, List.enumFrom_cons, List.flatMap_cons]
    rw [ih (i + 1)]
    rfl

open createExportTable in
/-- C12: for every list of exports with `n` exports, `createExportTable`
registers exactly `3 + 2n` relocations: at the header offsets +28, +32 and
+36 against `_ExportAddresses`, `_ExportNames` and `_ExportOrdinals`, then for
the `i`-th export (counted from 0, in the order of the set) one at
`addresses_offset + 4i` against the name of the export if it has a value and
against its symbol reference otherwise, and one at `name_pointers_offset + 4i`
against `_ExportName_<name>`. -/
theorem createExportTable_relocations (IB : Int) (exports : List Export) :
    (createExportTable IB exports).relocations.length = 3 + 2 * exports.length ∧
    (createExportTable IB exports).relocations =
      [abs32 ("_ExportAddresses", table_offset exports + 28),
       abs32 ("_ExportNames", table_offset exports + 32),
       abs32 ("_ExportOrdinals", table_offset exports + 36)] ++
      exports.enum.flatMap (relocationsOf (addresses_offset exports) (name_pointers_offset exports)) ∧
    (∀ (i : Nat) (e : Export), exports[i]? = some e →
      (createExportTable IB exports).relocations[3 + 2 * i]? =
        some { symbolname := if e.hasValue then e.getName else e.getSymbol,
               offset := ((addresses_offset exports + 4 * i : Nat) : Int),
               type := RelocType.RELOCTYPE_ABS32, objectname := "EXPORT" } ∧
      (createExportTable IB exports).relocations[3 + 2 * i + 1]? =
        some { symbolname := "_ExportName_" ++ e.getName,
               offset := ((name_pointers_offset exports + 4 * i : Nat) : Int),
               type := RelocType.RELOCTYPE_ABS32, objectname := "EXPORT" }) := by
  have heq : (createExportTable IB exports).relocations =
      [abs32 ("_ExportAddresses", table_offset exports + 28),
       abs32 ("_ExportNames", table_offset exports + 32),
       abs32 ("_ExportOrdinals", table_offset exports + 36)] ++
      exports.enum.flatMap (relocationsOf (addresses_offset exports) (name_pointers_offset exports)) := by
    rw [createExportTable_eq]
    show relocations exports = _
    unfold relocations
    rw [exportRelocations_enum]
    rfl
  refine ⟨?_, heq, ?_⟩
  · rw [heq, List.length_append, flatMap_length_const _
      (relocationsOf (addresses_offset exports) (name_pointers_offset exports)) 2
      (fun _ _ => rfl), List.enum_length]
    simp only [List.length_cons, List.length_nil]
    ring
  · intro i e hi
    rw [heq]
    have hget : exports.enum[i]? = some (i, e) := by
      rw [List.getElem?_enum, hi]
      rfl
    have h0 := getElem?_flatMap_const exports.enum
      (relocationsOf (addresses_offset exports) (name_pointers_offset exports))
      2 (fun _ _ => rfl) i
    constructor
    · rw [List.getElem?_append_right (by simp), show 3 + 2 * i - ([abs32 ("_ExportAddresses",
        table_offset exports + 28), abs32 ("_ExportNames", table_offset exports + 32),
        abs32 ("_ExportOrdinals", table_offset exports + 36)] : List Relocation).length =
        i * 2 + 0 by simp; ring]
      rw [h0 0 (by norm_num), hget]
      simp only [Option.some_bind, relocationsOf, List.getElem?_cons_zero, abs32, Nat.mul_comm]
    · rw [List.getElem?_append_right (by simp; omega), show 3 + 2 * i + 1 -
        ([abs32 ("_ExportAddresses",
        table_offset exports + 28), abs32 ("_ExportNames", table_offset exports + 32),
        abs32 ("_ExportOrdinals", table_offset exports + 36)] : List Relocation).length =
        i * 2 + 1 by simp; omega]
      rw [h0 1 (by norm_num), hget]
      simp only [Option.some_bind, relocationsOf, List.getElem?_cons_succ,
        List.getElem?_cons_zero, abs32, Nat.mul_comm]

set_option maxRecDepth 100000 in
/-- The relocations of the table of `{A = 5, D -> main}`: the three of the
header, then for `A` its own name and `_ExportName_A`, for `D` the symbol
`main` and `_ExportName_D`. -/
theorem createExportTable_relocations_example :
    (createExportTable 4194304 exampleExports).relocations.map
        (fun r => (r.symbolname, r.offset)) =
      [("_ExportAddresses", 32), ("_ExportNames", 36), ("_ExportOrdinals", 40),
        ("A", 44), ("_ExportName_A", 52), ("main", 48), ("_ExportName_D", 56)] ∧
    (createExportTable 4194304 exampleExports).relocations[3 + 2 * 1]? =
      some { symbolname := "main", offset := 48, type := RelocType.RELOCTYPE_ABS32,
             objectname := "EXPORT" } :=
  ⟨by decide,
    ((createExportTable_relocations 4194304 exampleExports).2.2 1
      (Export.fromSymbol "D" "main") (by decide)).1⟩

namespace createExportTable

theorem putNames_of_nulFree (exports : List Export) (h : NulFree exports) :
    putNames exports = exports.flatMap nameBytes := by
  unfold putNames
  induction exports with
  | nil => rfl
  | cons e es ih =>
    rw [List.flatMap_cons, List.flatMap_cons, ih (fun e he => h e (List.mem_cons_of_mem _ he)),
      c_str_of_nul_free e.getName (h e (List.mem_cons_self _ _))]
    rfl

theorem nameBytes_length (e : Export) : (nameBytes e).length = e.getName.length + 1 := by
  unfold nameBytes Export.getName String.length
  rw [List.length_append, List.length_map]
  rfl

theorem putNames_length_of_nulFree (exports : List Export) (h : NulFree exports) :
    (putNames exports).length = total_name_length exports := by
  rw [putNames_of_nulFree exports h]
  unfold total_name_length
  induction exports with
  | nil => rfl
  | cons e es ih =>
    rw [List.flatMap_cons, List.length_append, List.map_cons, List.sum_cons,
      ih (fun e he => h e (List.mem_cons_of_mem _ he)), nameBytes_length]

theorem data_of_nulFree (IB : Int) (exports : List Export) (h : NulFree exports) :
    data IB exports = putValues exports ++ putTable IB exports ++ putAddresses IB exports ++
      putOrdinals exports ++ exports.flatMap nameBytes := by
  have h1 := written_length IB exports
  have h2 := putNames_length_of_nulFree exports h
  have h3 : hunk_size exports - (written IB exports).length = 0 := by
    unfold hunk_size
    omega
  unfold data
  rw [h3, List.replicate_zero, List.append_nil]
  unfold written
  rw [putNames_of_nulFree exports h]

end createExportTable

theorem entries_getElem? (es : List Export) (i0 off k : Nat) :
    (entries es i0 off)[k]? =
      (es[k]?).map (fun e => (i0 + k, e, off + nameOffset es k)) := by
  induction es generalizing i0 off k with
  | nil => simp [entries]
  | cons e es ih =>
    cases k with
    | zero => simp [entries, nameOffset]
    | succ k =>
      simp only [entries, List.getElem?_cons_succ, ih]
      cases es[k]? with
      | none => rfl
      | some e' =>
        simp only [Option.map_some', nameOffset, List.take_succ_cons, List.map_cons,
          List.sum_cons, Option.some.injEq, Prod.mk.injEq, true_and]
        constructor <;> omega

theorem flatMap_drop_blocks (es : List Export) (i : Nat) :
    (es.flatMap nameBytes).drop (nameOffset es i) = (es.drop i).flatMap nameBytes := by
  induction es generalizing i with
  | nil => simp [nameOffset]
  | cons e es ih =>
    cases i with
    | zero => simp [nameOffset]
    | succ i =>
      have : nameOffset (e :: es) (i + 1) = (nameBytes e).length + nameOffset es i := by
        simp only [nameOffset, List.take_succ_cons, List.map_cons, List.sum_cons,
          createExportTable.nameBytes_length]
      rw [this, List.flatMap_cons, List.drop_append, List.drop_succ_cons, ih]

open createExportTable in
/-- C13: for every list of exports whose names hold no NUL character, the
Names block, the bytes of the hunk from `names_offset` on, is the
concatenation in the order of the set of each name followed by one NUL byte;
and for the `i`-th export the symbol `_ExportName_<name>` is registered at the
offset where the bytes of its name, followed by the NUL, start in the hunk. -/
theorem createExportTable_names_block (IB : Int) (exports : List Export)
    (h : NulFree exports) :
    (createExportTable IB exports).data.drop (names_offset exports) =
      exports.flatMap nameBytes ∧
    (∀ (i : Nat) (e : Export), exports[i]? = some e →
      ({ name := "_ExportName_" ++ e.getName,
         value := ((names_offset exports + nameOffset exports i : Nat) : Int),
         flags := [SymbolFlag.SYMBOL_IS_RELOCATEABLE], miscString := "" } : Symbol) ∈
        (createExportTable IB exports).symbols ∧
      ((createExportTable IB exports).data.drop
        (names_offset exports + nameOffset exports i)).take (e.getName.length + 1) =
          nameBytes e) := by
  have hdrop : (data IB exports).drop (names_offset exports) = exports.flatMap nameBytes := by
    rw [data_of_nulFree IB exports h]
    apply List.drop_left'
    simp only [List.length_append, putValues_length, putTable_length, putAddresses_length,
      putOrdinals_length, names_offset, ordinals_offset, name_pointers_offset, addresses_offset]
    ring
  rw [createExportTable_eq]
  refine ⟨hdrop, ?_⟩
  intro i e hi
  constructor
  · show _ ∈ symbols exports
    unfold symbols
    rw [nameSymbols_eq exports 0]
    refine List.mem_append_right _ (List.mem_map.mpr
      ⟨(0 + i, e, names_offset exports + nameOffset exports i), ?_, ?_⟩)
    · rw [List.mem_iff_getElem?]
      exact ⟨i, by rw [entries_getElem?, hi]; rfl⟩
    · simp only
      rw [c_str_name_label e.getName (h e (List.getElem?_mem hi))]
  · show ((data IB exports).drop _).take _ = _
    rw [← List.drop_drop, hdrop, flatMap_drop_blocks]
    have hd : exports.drop i = e :: exports.drop (i + 1) := by
      obtain ⟨hlt, he⟩ := List.getElem?_eq_some_iff.mp hi
      rw [← he]
      exact List.drop_eq_getElem_cons hlt
    rw [hd, List.flatMap_cons]
    exact List.take_left' (nameBytes_length e)

/-- Witness for C13: the table of `{A = 5, D -> main}`. -/
theorem createExportTable_names_block_witness :
    (createExportTable 4194304 exampleExports).data.drop
        (createExportTable.names_offset exampleExports) =
      exampleExports.flatMap nameBytes ∧
    (∀ (i : Nat) (e : Export), exampleExports[i]? = some e →
      ({ name := "_ExportName_" ++ e.getName,
         value := ((createExportTable.names_offset exampleExports +
           nameOffset exampleExports i : Nat) : Int),
         flags := [SymbolFlag.SYMBOL_IS_RELOCATEABLE], miscString := "" } : Symbol) ∈
        (createExportTable 4194304 exampleExports).symbols ∧
      ((createExportTable 4194304 exampleExports).data.drop
        (createExportTable.names_offset exampleExports +
          nameOffset exampleExports i)).take (e.getName.length + 1) = nameBytes e) :=
  createExportTable_names_block 4194304 exampleExports (by unfold NulFree; decide)

open createExportTable in
/-- C17: for every list of exports whose names hold no NUL character, each of
the five assertions of `createExportTable` holds: the write cursor is at
`table_offset` after the Values block, at `addresses_offset` after the header,
at `ordinals_offset` after the address and name-pointer tables, at
`names_offset` after the ordinal table and at `hunk_size` after the names. -/
theorem createExportTable_assertions (IB : Int) (exports : List Export)
    (h : NulFree exports) :
    (∀ a ∈ assertions IB exports, a) ∧
    cursorAfterValues exports = table_offset exports ∧
    cursorAfterTable IB exports = addresses_offset exports ∧
    cursorAfterAddresses IB exports = ordinals_offset exports ∧
    cursorAfterOrdinals IB exports = names_offset exports ∧
    cursorAfterNames IB exports = hunk_size exports := by
  have h1 : cursorAfterValues exports = table_offset exports := putValues_length exports
  have h2 : cursorAfterTable IB exports = addresses_offset exports := by
    unfold cursorAfterTable addresses_offset
    rw [h1, putTable_length]
  have h3 : cursorAfterAddresses IB exports = ordinals_offset exports := by
    unfold cursorAfterAddresses ordinals_offset name_pointers_offset
    rw [h2, putAddresses_length]
    ring
  have h4 : cursorAfterOrdinals IB exports = names_offset exports := by
    unfold cursorAfterOrdinals names_offset
    rw [h3, putOrdinals_length]
  have h5 : cursorAfterNames IB exports = hunk_size exports := by
    unfold cursorAfterNames hunk_size
    rw [h4, putNames_length_of_nulFree exports h]
  refine ⟨?_, h1, h2, h3, h4, h5⟩
  intro a ha
  simp only [assertions, List.mem_cons, List.mem_singleton, List.not_mem_nil, or_false] at ha
  rcases ha with rfl | rfl | rfl | rfl | rfl
  · exact h1
  · exact h2
  · exact h3
  · exact h4
  · exact h5

/-- Witness for C17: the table of `{A = 5, D -> main}`. -/
theorem createExportTable_assertions_witness :
    (∀ a ∈ createExportTable.assertions 4194304 exampleExports, a) ∧
    createExportTable.cursorAfterValues exampleExports =
      createExportTable.table_offset exampleExports ∧
    createExportTable.cursorAfterTable 4194304 exampleExports =
      createExportTable.addresses_offset exampleExports ∧
    createExportTable.cursorAfterAddresses 4194304 exampleExports =
      createExportTable.ordinals_offset exampleExports ∧
    createExportTable.cursorAfterOrdinals 4194304 exampleExports =
      createExportTable.names_offset exampleExports ∧
    createExportTable.cursorAfterNames 4194304 exampleExports =
      createExportTable.hunk_size exampleExports :=
  createExportTable_assertions 4194304 exampleExports (by unfold NulFree; decide)

/-! ## The printer -/

theorem hexChar_spec : ∀ d < 16, digitValue (hexChar d) = some d ∧ IsUpperHex (hexChar d) := by
  unfold IsUpperHex
  decide

theorem literalValue_snoc (b : Nat) (ds : List Char) (c : Char) :
    literalValue b (ds ++ [c]) = literalValue b ds * b + (digitValue c).getD 0 := by
  unfold literalValue
  rw [List.reverse_append, List.reverse_singleton, List.singleton_append, List.map_cons,
    Nat.ofDigits_cons]
  ring

theorem literalValue_zero_cons (ds : List Char) :
    literalValue 16 ('0' :: ds) = literalValue 16 ds := by
  unfold literalValue
  rw [List.reverse_cons, List.map_append, Nat.ofDigits_append]
  simp [digitValue]

theorem literalValue_replicate_zero (k : Nat) (ds : List Char) :
    literalValue 16 (List.replicate k '0' ++ ds) = literalValue 16 ds := by
  induction k with
  | zero => rfl
  | succ k ih => rw [List.replicate_succ, List.cons_append, literalValue_zero_cons, ih]

theorem hexUpper_length (fuel n : Nat) : (hexUpper fuel n).length ≤ fuel := by
  induction fuel generalizing n with
  | zero => simp [hexUpper]
  | succ f ih =>
    unfold hexUpper
    split
    · simp
    · have := ih (n / 16)
      simp only [List.length_append, List.length_singleton]
      omega

theorem hexUpper_isUpperHex (fuel n : Nat) : ∀ c ∈ hexUpper fuel n, IsUpperHex c := by
  induction fuel generalizing n with
  | zero => simp [hexUpper]
  | succ f ih =>
    unfold hexUpper
    split
    · rename_i h
      intro c hc
      rw [List.mem_singleton] at hc
      rw [hc]
      exact (hexChar_spec n h).2
    · intro c hc
      rw [List.mem_append, List.mem_singleton] at hc
      rcases hc with hc | hc
      · exact ih _ c hc
      · rw [hc]
        exact (hexChar_spec _ (Nat.mod_lt _ (by decide))).2

theorem hexUpper_value (fuel n : Nat) (h : n < 16 ^ fuel) :
    literalValue 16 (hexUpper fuel n) = n := by
  induction fuel generalizing n with
  | zero =>
    have : n = 0 := by simpa using h
    subst this
    rfl
  | succ f ih =>
    unfold hexUpper
    split
    · rename_i hlt
      have := literalValue_snoc 16 [] (hexChar n)
      rw [List.nil_append] at this
      rw [this, (hexChar_spec n hlt).1]
      simp [literalValue]
    · have h1 : n / 16 < 16 ^ f := by
        rw [Nat.div_lt_iff_lt_mul (by decide)]
        rw [pow_succ] at h
        exact h
      rw [literalValue_snoc, ih _ h1, (hexChar_spec _ (Nat.mod_lt _ (by decide))).1]
      simp only [Option.getD_some]
      omega

theorem printf08X_spec (value : Int) :
    (printf08X value).length = 8 ∧ (∀ c ∈ printf08X value, IsUpperHex c) ∧
    (literalValue 16 (printf08X value) : Int) = value % 4294967296 := by
  have hu : (value % 4294967296).toNat < 16 ^ 8 := by
    have : (16 : Nat) ^ 8 = 4294967296 := by norm_num
    omega
  have hl := hexUpper_length 8 (value % 4294967296).toNat
  refine ⟨?_, ?_, ?_⟩
  · simp only [printf08X, List.length_append, List.length_replicate]
    omega
  · intro c hc
    simp only [printf08X, List.mem_append] at hc
    rcases hc with hc | hc
    · rw [(List.mem_replicate.mp hc).2]
      unfold IsUpperHex
      decide
    · exact hexUpper_isUpperHex _ _ c hc
  · simp only [printf08X]
    rw [literalValue_replicate_zero, hexUpper_value _ _ hu]
    omega

theorem printExports_eq_flatMap (exports : List Export) :
    printExports exports = exports.flatMap printExports.line := by
  unfold printExports
  have h : ∀ (es : List Export) (acc : List Char),
      es.foldl (fun out e => out ++ printExports.line e) acc =
        acc ++ es.flatMap printExports.line := by
    intro es
    induction es with
    | nil => simp
    | cons e es ih =>
      intro acc
      rw [List.foldl_cons, ih, List.flatMap_cons, List.append_assoc]
  rw [h, List.nil_append]

theorem line_of_nulFree (e : Export) (hn : ∀ c ∈ e.m_name.data, c.toNat ≠ 0)
    (hs : ∀ c ∈ e.m_symbol.data, c.toNat ≠ 0) :
    printExports.line e = "  ".data ++ renderedText e ++ "\n".data := by
  unfold printExports.line renderedText
  rw [c_str_of_nul_free e.getName hn, c_str_of_nul_free e.getSymbol hs]
  split
  · simp only [List.append_assoc]
  · split
    · rfl
    · simp only [List.append_assoc]

/-- C14, the line as the property words it, refuted: for the value export
`X = 16` the printer writes `  X = 0x00000010` and a line feed, which starts
with two spaces, and not the text `X = 0x00000010` the property gives. -/
theorem printExports_line_is_indented :
    printExports [Export.fromValue "X" 16] = "  X = 0x00000010\n".data ∧
    renderedText (Export.fromValue "X" 16) = "X = 0x00000010".data ∧
    printExports [Export.fromValue "X" 16] ≠
      renderedText (Export.fromValue "X" 16) ++ "\n".data := by
  decide

/-- C14, amended: for every list of exports whose names and symbol references
hold no NUL character, `printExports` writes, in the order of the set, for
each export two spaces, the text of the property and a line feed, the text
being for a value export the name, ` = 0x` and exactly 8 upper-case
hexadecimal digits whose value is the export's value modulo `2 ^ 32`, for a
symbol export whose symbol reference equals its name the name alone, and
otherwise the name, ` -> ` and the symbol reference. -/
theorem printExports_lines (exports : List Export) (h : NulFreeText exports) :
    printExports exports =
      exports.flatMap (fun e => "  ".data ++ renderedText e ++ "\n".data) ∧
    (∀ e ∈ exports, e.hasValue = true →
      renderedText e = e.getName.data ++ " = 0x".data ++ printf08X e.getValue ∧
      (printf08X e.getValue).length = 8 ∧
      (∀ c ∈ printf08X e.getValue, IsUpperHex c) ∧
      (literalValue 16 (printf08X e.getValue) : Int) = e.getValue % 4294967296) ∧
    (∀ e ∈ exports, e.hasValue = false → e.getSymbol = e.getName →
      renderedText e = e.getName.data) ∧
    (∀ e ∈ exports, e.hasValue = false → e.getSymbol ≠ e.getName →
      renderedText e = e.getName.data ++ " -> ".data ++ e.getSymbol.data) := by
  refine ⟨?_, ?_, ?_, ?_⟩
  · rw [printExports_eq_flatMap]
    induction exports with
    | nil => rfl
    | cons e es ih =>
      rw [List.flatMap_cons, List.flatMap_cons,
        ih (fun x hx => h x (List.mem_cons_of_mem _ hx)),
        line_of_nulFree e (h e (List.mem_cons_self _ _)).1 (h e (List.mem_cons_self _ _)).2]
  · intro e _ hv
    refine ⟨?_, printf08X_spec e.getValue⟩
    unfold renderedText
    rw [if_pos hv]
  · intro e _ hv hs
    unfold renderedText
    rw [if_neg (by simp [hv]), if_pos hs]
  · intro e _ hv hs
    unfold renderedText
    rw [if_neg (by simp [hv]), if_neg hs]

set_option maxRecDepth 100000 in
/-- Witness for C14: the lines printed for `{A = 5, D -> main}`. -/
theorem printExports_lines_witness :
    printExports exampleExports = "  A = 0x00000005\n  D -> main\n".data ∧
    printExports exampleExports =
      exampleExports.flatMap (fun e => "  ".data ++ renderedText e ++ "\n".data) :=
  ⟨by decide, (printExports_lines exampleExports (by unfold NulFreeText; decide)).1⟩

/-! ## The passes of `stripExports`, one by one -/

theorem extractValues_trace (D : List Nat) (R : List (Int × Int)) (b : Int) (s : List Export)
    (r : List (Int × Int) × Int × List Export)
    (h : stripExports.extractValues D R b s = some r) :
    r = (R.drop (stripExports.scanCount R b), stripExports.scanBoundary R b,
      insertAll ((R.take (stripExports.scanCount R b)).map (valueOf D)) s) ∧
    ∀ p ∈ R.take (stripExports.scanCount R b),
      (read32 D p.2).isSome ∧ (readCString D p.1).isSome := by
  induction R generalizing b s with
  | nil =>
    simp only [stripExports.extractValues, Option.some.injEq] at h
    subst h
    simp [stripExports.scanCount, stripExports.scanBoundary, insertAll]
  | cons p R ih =>
    unfold stripExports.extractValues at h
    unfold stripExports.scanCount stripExports.scanBoundary
    by_cases hc : p.2 ≥ toInt32 (b - 4)
    · rw [if_pos hc] at h
      rw [if_pos hc, if_pos hc]
      cases hv : read32 D p.2 with
      | none => rw [hv] at h; exact absurd h (by simp)
      | some value =>
        cases hn : readCString D p.1 with
        | none => rw [hv, hn] at h; exact absurd h (by simp)
        | some name =>
          rw [hv, hn] at h
          obtain ⟨h1, h2⟩ := ih p.2 _ h
          have hvo : valueOf D p = Export.fromValue (String.mk name) value := by
            simp [valueOf, nameAt, hv, hn]
          refine ⟨?_, ?_⟩
          · rw [h1]
            simp only [List.drop_succ_cons, List.take_succ_cons, List.map_cons, insertAll,
              List.foldl_cons, hvo]
          · intro q hq
            rw [List.take_succ_cons, List.mem_cons] at hq
            rcases hq with rfl | hq
            · simp [hv, hn]
            · exact h2 q hq
    · rw [if_neg hc] at h
      rw [if_neg hc, if_neg hc]
      simp only [Option.some.injEq] at h
      subst h
      simp [insertAll]

theorem remaining_reads (D : List Nat) (L : List (Int × Int)) (phase1 : Hunk) (s : List Export)
    (r : Hunk × List Export) (h : stripExports.remaining D L phase1 s = some r) :
    ∀ p ∈ L, (readCString D p.1).isSome := by
  induction L generalizing phase1 s with
  | nil => simp
  | cons p L ih =>
    unfold stripExports.remaining at h
    cases hn : readCString D p.1 with
    | none => rw [hn] at h; exact absurd h (by simp)
    | some name =>
      rw [hn] at h
      intro q hq
      rw [List.mem_cons] at hq
      rcases hq with rfl | hq
      · simp [hn]
      · exact ih _ _ h q hq

theorem stripExports_eq_locate (IB CB : Int) (phase1 : Hunk) (rva : Int) :
    stripExports IB CB phase1 rva =
      match stripExports.locate IB CB phase1 rva with
      | some t =>
        stripExports.fromTables (stripExports.memory phase1) (phase1.appendZeroes 1)
          (toInt32 (IB - CB)) (stripExports.headerOffset IB CB rva) t.1 t.2.1 t.2.2.1 t.2.2.2
      | none => none := by
  unfold stripExports stripExports.locate stripExports.memory stripExports.headerOffset
  simp only
  split <;> simp_all

theorem stripExports_trace (IB CB : Int) (phase1 : Hunk) (rva : Int) (exports : List Export)
    (stripped : Hunk) (h : stripExports IB CB phase1 rva = some (exports, stripped)) :
    ∃ S, stripExports.sortedOffsets IB CB phase1 rva = some S ∧
      (∀ p ∈ S, (readCString (stripExports.memory phase1) p.1).isSome) ∧
      (∀ p ∈ stripExports.consumed S (stripExports.headerOffset IB CB rva),
        (read32 (stripExports.memory phase1) p.2).isSome) ∧
      exports = insertAll
        ((stripExports.unconsumed S (stripExports.headerOffset IB CB rva)).map
          (symbolOf (stripExports.memory phase1)))
        (insertAll ((stripExports.consumed S (stripExports.headerOffset IB CB rva)).map
          (valueOf (stripExports.memory phase1))) []) ∧
      stripped = Hunk.setRawSize
        { (phase1.appendZeroes 1) with
          symbols := (phase1.appendZeroes 1).symbols ++
            (stripExports.unconsumed S (stripExports.headerOffset IB CB rva)).map
              (symbolAt (stripExports.memory phase1)) }
        (stripExports.scanBoundary S.reverse (stripExports.headerOffset IB CB rva)) := by
  rw [stripExports_eq_locate] at h
  unfold stripExports.sortedOffsets stripExports.collected
  cases hl : stripExports.locate IB CB phase1 rva with
  | none => rw [hl] at h; exact absurd h (by simp)
  | some t =>
    rw [hl] at h
    simp only at h ⊢
    unfold stripExports.fromTables at h
    cases hc : stripExports.collect (stripExports.memory phase1) (toInt32 (IB - CB)) t.2.1
        t.2.2.1 t.2.2.2 t.1.toNat 0 with
    | none => rw [hc] at h; exact absurd h (by simp)
    | some C =>
      rw [hc] at h
      simp only at h
      refine ⟨stable_sort C, rfl, ?_⟩
      cases he : stripExports.extractValues (stripExports.memory phase1) (stable_sort C).reverse
          (stripExports.headerOffset IB CB rva) [] with
      | none => rw [he] at h; exact absurd h (by simp)
      | some r =>
        rw [he] at h
        obtain ⟨hr, hreads⟩ := extractValues_trace _ _ _ _ _ he
        subst hr
        simp only at h
        cases hm : stripExports.remaining (stripExports.memory phase1)
            (List.drop (stripExports.scanCount (stable_sort C).reverse
              (stripExports.headerOffset IB CB rva)) (stable_sort C).reverse).reverse
            (phase1.appendZeroes 1)
            (insertAll ((List.take (stripExports.scanCount (stable_sort C).reverse
              (stripExports.headerOffset IB CB rva)) (stable_sort C).reverse).map
                (valueOf (stripExports.memory phase1))) []) with
        | none => rw [hm] at h; exact absurd h (by simp)
        | some r2 =>
          rw [hm] at h
          have hrd := remaining_reads _ _ _ _ _ hm
          rw [remaining_spec _ _ _ _ hrd] at hm
          simp only [Option.some.injEq] at hm
          subst hm
          simp only [Option.some.injEq, Prod.mk.injEq] at h
          refine ⟨?_, fun p hp => (hreads p hp).1, h.1.symm, h.2.symm⟩
          intro p hp
          have hp2 : p ∈ (stable_sort C).reverse := List.mem_reverse.mpr hp
          rw [← List.take_append_drop (stripExports.scanCount (stable_sort C).reverse
            (stripExports.headerOffset IB CB rva)) (stable_sort C).reverse,
            List.mem_append] at hp2
          rcases hp2 with hp2 | hp2
          · exact (hreads p hp2).2
          · exact hrd p (List.mem_reverse.mpr hp2)

/-! ## The scan of the value block -/

theorem toInt32_range (x : Int) : -2147483648 ≤ toInt32 x ∧ toInt32 x < 2147483648 := by
  unfold toInt32
  omega

theorem read32_nonneg (D : List Nat) (i w : Int) (h : read32 D i = some w) : 0 ≤ i := by
  by_contra hneg
  have h0 : readByte D i = none := by
    unfold readByte
    rw [if_neg hneg]
  unfold read32 at h
  rw [h0] at h
  exact absurd h (by simp)

theorem collect_trace (D : List Nat) (rto a p o : Int) (k : Nat) (i : Int)
    (C : List (Int × Int)) (h : stripExports.collect D rto a p o k i = some C) :
    C.length = k ∧
    (∀ q ∈ C, -2147483648 ≤ q.2 ∧ q.2 < 2147483648) ∧
    ∀ (j : Nat) (q : Int × Int), C[j]? = some q →
      ∃ w, read32 D (p + 4 * (i + j)) = some w ∧ q.1 = toInt32 (w + rto) := by
  induction k generalizing i C with
  | zero =>
    simp only [stripExports.collect, Option.some.injEq] at h
    subst h
    simp
  | succ k ih =>
    unfold stripExports.collect at h
    cases h16 : read16 D (o + 2 * i) with
    | none => rw [h16] at h; exact absurd h (by simp)
    | some ordinal =>
      rw [h16] at h
      simp only at h
      cases ha : read32 D (a + 4 * ordinal) with
      | none => rw [ha] at h; exact absurd h (by simp)
      | some address =>
        cases hp : read32 D (p + 4 * i) with
        | none => rw [ha, hp] at h; exact absurd h (by simp)
        | some np =>
          rw [ha, hp] at h
          simp only at h
          cases hc : stripExports.collect D rto a p o k (i + 1) with
          | none => rw [hc] at h; exact absurd h (by simp)
          | some l =>
            rw [hc] at h
            simp only [Option.some.injEq] at h
            subst h
            obtain ⟨h1, h2, h3⟩ := ih (i + 1) l hc
            refine ⟨by simp [h1], ?_, ?_⟩
            · intro q hq
              rw [List.mem_cons] at hq
              rcases hq with rfl | hq
              · exact toInt32_range _
              · exact h2 q hq
            · intro j q hj
              cases j with
              | zero =>
                simp only [List.getElem?_cons_zero, Option.some.injEq] at hj
                subst hj
                exact ⟨np, by simpa using hp, rfl⟩
              | succ j =>
                rw [List.getElem?_cons_succ] at hj
                obtain ⟨w, hw, hq⟩ := h3 j q hj
                refine ⟨w, ?_, hq⟩
                rw [← hw]
                congr 1
                push_cast
                ring

theorem scanCount_le (R : List (Int × Int)) (b : Int) :
    stripExports.scanCount R b ≤ R.length := by
  induction R generalizing b with
  | nil => simp [stripExports.scanCount]
  | cons p R ih =>
    unfold stripExports.scanCount
    split
    · have := ih p.2
      simp only [List.length_cons]
      omega
    · omega

theorem scan_first (R : List (Int × Int)) (b : Int) (p : Int × Int)
    (h : (R.take (stripExports.scanCount R b)).head? = some p) : toInt32 (b - 4) ≤ p.2 := by
  cases R with
  | nil => simp at h
  | cons q R =>
    unfold stripExports.scanCount at h
    by_cases hc : q.2 ≥ toInt32 (b - 4)
    · rw [if_pos hc, List.take_succ_cons, List.head?_cons, Option.some.injEq] at h
      subst h
      exact hc
    · rw [if_neg hc] at h
      simp at h

theorem scan_chain (R : List (Int × Int)) (b : Int)
    (hR : R.Pairwise (fun x y => y.2 ≤ x.2)) :
    List.Chain' (fun x y => toInt32 (x.2 - 4) ≤ y.2 ∧ y.2 ≤ x.2)
      (R.take (stripExports.scanCount R b)) := by
  induction R generalizing b with
  | nil => simp
  | cons p R ih =>
    rw [List.pairwise_cons] at hR
    unfold stripExports.scanCount
    by_cases hc : p.2 ≥ toInt32 (b - 4)
    · rw [if_pos hc, List.take_succ_cons, List.chain'_cons']
      refine ⟨?_, ih p.2 hR.2⟩
      intro q hq
      exact ⟨scan_first R p.2 q hq, hR.1 q (List.mem_of_mem_take (List.mem_of_mem_head? hq))⟩
    · rw [if_neg hc]
      simp

theorem scan_stop (R : List (Int × Int)) (b : Int)
    (hR : R.Pairwise (fun x y => y.2 ≤ x.2)) :
    ∀ q ∈ R.drop (stripExports.scanCount R b),
      q.2 < toInt32 (stripExports.scanBoundary R b - 4) := by
  induction R generalizing b with
  | nil => simp
  | cons p R ih =>
    rw [List.pairwise_cons] at hR
    unfold stripExports.scanCount stripExports.scanBoundary
    by_cases hc : p.2 ≥ toInt32 (b - 4)
    · rw [if_pos hc, if_pos hc, List.drop_succ_cons]
      exact ih p.2 hR.2
    · rw [if_neg hc, if_neg hc, List.drop_zero]
      intro q hq
      rw [List.mem_cons] at hq
      rcases hq with rfl | hq
      · omega
      · have := hR.1 q hq
        omega

theorem scanBoundary_eq_getLast (R : List (Int × Int)) (b : Int) :
    stripExports.scanBoundary R b =
      (((R.take (stripExports.scanCount R b)).getLast?).map Prod.snd).getD b := by
  induction R generalizing b with
  | nil => simp [stripExports.scanBoundary]
  | cons p R ih =>
    unfold stripExports.scanCount stripExports.scanBoundary
    by_cases hc : p.2 ≥ toInt32 (b - 4)
    · rw [if_pos hc, if_pos hc, List.take_succ_cons, List.getLast?_cons, ih p.2]
      cases (R.take (stripExports.scanCount R p.2)).getLast? <;> rfl
    · rw [if_neg hc, if_neg hc]
      simp

theorem scanBoundary_le (R : List (Int × Int)) (b B : Int) (hb : b ≤ B)
    (hR : ∀ p ∈ R, p.2 ≤ B) : stripExports.scanBoundary R b ≤ B := by
  induction R generalizing b with
  | nil => simpa [stripExports.scanBoundary] using hb
  | cons p R ih =>
    unfold stripExports.scanBoundary
    split
    · exact ih p.2 (hR p (List.mem_cons_self _ _)) (fun q hq => hR q (List.mem_cons_of_mem _ hq))
    · exact hb

theorem sorted_split (S : List (Int × Int)) (T : Int) :
    S = stripExports.unconsumed S T ++ (stripExports.consumed S T).reverse := by
  unfold stripExports.unconsumed stripExports.consumed
  rw [← List.reverse_append, List.take_append_drop, List.reverse_reverse]

theorem sortedOffsets_facts (IB CB : Int) (phase1 : Hunk) (rva : Int) (S : List (Int × Int))
    (hS : stripExports.sortedOffsets IB CB phase1 rva = some S) :
    S.reverse.Pairwise (fun x y => y.2 ≤ x.2) ∧
    (∀ q ∈ S, -2147483648 ≤ q.2 ∧ q.2 < 2147483648) ∧
    0 ≤ stripExports.headerOffset IB CB rva + 24 := by
  unfold stripExports.sortedOffsets stripExports.collected at hS
  cases hl : stripExports.locate IB CB phase1 rva with
  | none => rw [hl] at hS; exact absurd hS (by simp)
  | some t =>
    rw [hl] at hS
    simp only [Option.map_eq_some'] at hS
    obtain ⟨C, hC, rfl⟩ := hS
    refine ⟨List.pairwise_reverse.mpr (stable_sort_sorted C), ?_, ?_⟩
    · intro q hq
      exact (collect_trace _ _ _ _ _ _ _ _ hC).2.1 q ((stable_sort_perm C).mem_iff.mp hq)
    · unfold stripExports.locate at hl
      simp only at hl
      cases h6 : read32 (stripExports.memory phase1)
          (stripExports.headerOffset IB CB rva + 24) with
      | none => rw [h6] at hl; exact absurd hl (by simp)
      | some n => exact read32_nonneg _ _ _ h6

theorem setInsert_keeps (e : Export) (s : List Export) (x : Export) (hx : x ∈ s) :
    x ∈ setInsert e s := by
  induction s with
  | nil => exact absurd hx (List.not_mem_nil _)
  | cons y s ih =>
    unfold setInsert
    split
    · exact List.mem_cons_of_mem _ hx
    · split
      · rw [List.mem_cons] at hx ⊢
        rcases hx with rfl | hx
        · exact Or.inl rfl
        · exact Or.inr (ih hx)
      · exact hx

theorem strip_records_perm (D : List Nat) (U K : List (Int × Int))
    (hnd : ((U ++ K).map (nameAt D)).Nodup) :
    (insertAll (U.map (symbolOf D)) (insertAll (K.map (valueOf D)) [])).Perm
      (U.map (symbolOf D) ++ K.map (valueOf D)) := by
  rw [List.map_append, List.nodup_append] at hnd
  obtain ⟨hU, hK, hdis⟩ := hnd
  have hKn : (K.map (valueOf D)).map (fun e => e.m_name) = K.map (nameAt D) := by
    rw [List.map_map]
    rfl
  have hUn : (U.map (symbolOf D)).map (fun e => e.m_name) = U.map (nameAt D) := by
    rw [List.map_map]
    rfl
  have h1 : (insertAll (K.map (valueOf D)) []).Perm (K.map (valueOf D)) := by
    have := insertAll_perm (K.map (valueOf D)) []
      (by rw [hKn]; exact hK) (fun x hx => absurd hx (List.not_mem_nil _))
    rwa [List.append_nil] at this
  refine (insertAll_perm _ _ (by rw [hUn]; exact hU) ?_).trans (List.Perm.append_left _ h1)
  intro x hx e he hxe
  rw [h1.mem_iff, List.mem_map] at hx
  rw [List.mem_map] at he
  obtain ⟨k, hk, rfl⟩ := hx
  obtain ⟨u, hu, rfl⟩ := he
  have hxe2 : nameAt D k = nameAt D u := hxe
  exact hdis (List.mem_map_of_mem _ hu) (hxe2 ▸ List.mem_map_of_mem _ hk)

theorem sorted_split_perm (S : List (Int × Int)) (T : Int) :
    S.Perm (stripExports.unconsumed S T ++ stripExports.consumed S T) := by
  have h := sorted_split S T
  have h1 : (stripExports.unconsumed S T ++ (stripExports.consumed S T).reverse).Perm
      (stripExports.unconsumed S T ++ stripExports.consumed S T) :=
    List.Perm.append_left _ (List.reverse_perm _)
  rw [← h] at h1
  exact h1

set_option maxRecDepth 100000 in
/-- C15, counterexample. Behind eight bytes of content the table of the one
export `x -> _ExportOrdinals` has its directory header at offset 8, and the
only pair has the address offset 56, the offset of the ordinal table. The
scan starts with the boundary 8; the offset 56 is not between 4 and 8, and the
pair is consumed all the same: `stripExports` gives back the value export
`x = 7864320`. -/
theorem scan_consumes_above_boundary :
    (link 4325376 (imageLookup [] [Export.fromSymbol "x" "_ExportOrdinals"] 8) examplePre
        (createExportTable 4194304 [Export.fromSymbol "x" "_ExportOrdinals"])).bind
      (fun img => (stripExports.sortedOffsets 4194304 4325376 img 131080).map
        (fun S => (stripExports.headerOffset 4194304 4325376 131080,
          stripExports.consumed S (stripExports.headerOffset 4194304 4325376 131080)))) =
      some (8, [(58, 56)]) ∧
    ((link 4325376 (imageLookup [] [Export.fromSymbol "x" "_ExportOrdinals"] 8) examplePre
        (createExportTable 4194304 [Export.fromSymbol "x" "_ExportOrdinals"])).bind
      (fun img => stripExports 4194304 4325376 img 131080)).map Prod.fst =
      some [Export.fromValue "x" 7864320] := by
  constructor <;> decide

/-- C15, amended: when `stripExports` returns, the scan of the sorted pairs
from the end backward consumes the first pair only if its address offset is at
least the offset of the directory header less 4 (there is no upper bound for
it), and each later pair only if its address offset lies between the address
offset of the pair consumed before it, which is the boundary then, less 4 and
that boundary; the value of a consumed pair is the 32-bit word at its address
offset; the scan stops at the first pair whose address offset is below the
boundary less 4, and so is the address offset of every pair left; the pairs
left and the pairs consumed make up the sorted vector, and the set returned is
made of the value exports of the pairs consumed and the symbol exports of the
pairs left. -/
theorem stripExports_value_scan (IB CB : Int) (phase1 : Hunk) (rva : Int)
    (exports : List Export) (stripped : Hunk) (S : List (Int × Int))
    (h : stripExports IB CB phase1 rva = some (exports, stripped))
    (hS : stripExports.sortedOffsets IB CB phase1 rva = some S) :
    (∀ p, (stripExports.consumed S (stripExports.headerOffset IB CB rva)).head? = some p →
      stripExports.headerOffset IB CB rva - 4 ≤ p.2) ∧
    List.Chain' (fun p q => p.2 - 4 ≤ q.2 ∧ q.2 ≤ p.2)
      (stripExports.consumed S (stripExports.headerOffset IB CB rva)) ∧
    (∀ p ∈ stripExports.consumed S (stripExports.headerOffset IB CB rva),
      read32 (stripExports.memory phase1) p.2 =
        some (valueOf (stripExports.memory phase1) p).getValue) ∧
    (∀ q ∈ stripExports.unconsumed S (stripExports.headerOffset IB CB rva),
      q.2 < (((stripExports.consumed S (stripExports.headerOffset IB CB rva)).getLast?).map
        Prod.snd).getD (stripExports.headerOffset IB CB rva) - 4) ∧
    S = stripExports.unconsumed S (stripExports.headerOffset IB CB rva) ++
      (stripExports.consumed S (stripExports.headerOffset IB CB rva)).reverse ∧
    exports = insertAll
      ((stripExports.unconsumed S (stripExports.headerOffset IB CB rva)).map
        (symbolOf (stripExports.memory phase1)))
      (insertAll ((stripExports.consumed S (stripExports.headerOffset IB CB rva)).map
        (valueOf (stripExports.memory phase1))) []) := by
  obtain ⟨S', hS', _, hread, hexp, _⟩ := stripExports_trace IB CB phase1 rva exports stripped h
  rw [hS, Option.some.injEq] at hS'
  subst hS'
  obtain ⟨hdesc, hrange, hT⟩ := sortedOffsets_facts IB CB phase1 rva S hS
  have hTr := toInt32_range (rva + toInt32 (IB - CB))
  have hT4 : toInt32 (stripExports.headerOffset IB CB rva - 4) =
      stripExports.headerOffset IB CB rva - 4 := by
    apply toInt32_of_range
    · omega
    · unfold stripExports.headerOffset
      omega
  have hmem : ∀ p ∈ stripExports.consumed S (stripExports.headerOffset IB CB rva),
      0 ≤ p.2 ∧ p.2 < 2147483648 := by
    intro p hp
    have h1 := hread p hp
    obtain ⟨w, hw⟩ := Option.isSome_iff_exists.mp h1
    exact ⟨read32_nonneg _ _ _ hw,
      (hrange p (List.mem_reverse.mp (List.mem_of_mem_take hp))).2⟩
  have hp4 : ∀ p ∈ stripExports.consumed S (stripExports.headerOffset IB CB rva),
      toInt32 (p.2 - 4) = p.2 - 4 := by
    intro p hp
    have := hmem p hp
    apply toInt32_of_range <;> omega
  refine ⟨?_, ?_, ?_, ?_, sorted_split S _, hexp⟩
  · intro p hp
    have := scan_first S.reverse _ p hp
    rw [hT4] at this
    exact this
  · have hch := scan_chain S.reverse (stripExports.headerOffset IB CB rva) hdesc
    have hall : ∀ p ∈ S.reverse.take (stripExports.scanCount S.reverse
        (stripExports.headerOffset IB CB rva)), toInt32 (p.2 - 4) = p.2 - 4 := hp4
    unfold stripExports.consumed
    generalize S.reverse.take (stripExports.scanCount S.reverse
        (stripExports.headerOffset IB CB rva)) = K at hch hall
    induction K with
    | nil => exact List.chain'_nil
    | cons a K ih =>
      rw [List.chain'_cons'] at hch ⊢
      refine ⟨?_, ih hch.2 (fun p hp => hall p (List.mem_cons_of_mem _ hp))⟩
      intro q hq
      have := hch.1 q hq
      rw [hall a (List.mem_cons_self _ _)] at this
      exact this
  · intro p hp
    obtain ⟨w, hw⟩ := Option.isSome_iff_exists.mp (hread p hp)
    rw [hw]
    simp [valueOf, Export.getValue, Export.fromValue, hw]
  · intro q hq
    have hq2 : q ∈ S.reverse.drop (stripExports.scanCount S.reverse
        (stripExports.headerOffset IB CB rva)) := List.mem_reverse.mp hq
    have hst := scan_stop S.reverse (stripExports.headerOffset IB CB rva) hdesc q hq2
    have hb := scanBoundary_eq_getLast S.reverse (stripExports.headerOffset IB CB rva)
    have hbr : toInt32 (stripExports.scanBoundary S.reverse
        (stripExports.headerOffset IB CB rva) - 4) =
        stripExports.scanBoundary S.reverse (stripExports.headerOffset IB CB rva) - 4 := by
      rw [hb]
      cases hl : (S.reverse.take (stripExports.scanCount S.reverse
          (stripExports.headerOffset IB CB rva))).getLast? with
      | none => exact hT4
      | some a => exact hp4 a (List.mem_of_mem_getLast? hl)
    rw [hbr, hb] at hst
    exact hst

set_option maxRecDepth 100000 in
/-- Witness for the amended C15: the scan of the example image, whose header
lies at offset 12; the pair of `A` at offset 8 is consumed, the pair of `D` at
offset 2 is left. -/
theorem stripExports_value_scan_witness :
    stripExports.consumed exampleSorted (stripExports.headerOffset 4194304 4325376 131084) =
      [(72, 8)] ∧
    stripExports.unconsumed exampleSorted (stripExports.headerOffset 4194304 4325376 131084) =
      [(74, 2)] ∧
    (∀ p ∈ stripExports.consumed exampleSorted
        (stripExports.headerOffset 4194304 4325376 131084),
      read32 (stripExports.memory exampleImage) p.2 =
        some (valueOf (stripExports.memory exampleImage) p).getValue) :=
  ⟨by decide, by decide,
    (stripExports_value_scan 4194304 4325376 exampleImage 131084 _ exampleStripped
      exampleSorted stripExports_exampleImage (by decide)).2.2.1⟩

set_option maxRecDepth 100000 in
/-- C16, counterexample. Behind eight bytes of content with `main` at offset
2, the table of the one export with the empty name, for the symbol `main`, has
its only pair, with the address offset 2, left by the scan; `stripExports`
gives back the record `Export("", "")`, which has a value and so is no symbol
export. In `duplicateImage` both entries are named `A`; the pair with the
address offset 8 is consumed as the value export `A = 5`, the pair with the
address offset 2 is left and the symbol `A` is added at offset 2, and the set
returned holds the value export alone: no symbol export is returned. -/
theorem symbol_recovery_without_symbol_export :
    (link 4325376 (imageLookup [("main", 2)] [Export.fromSymbol "" "main"] 8) examplePre
        (createExportTable 4194304 [Export.fromSymbol "" "main"])).bind
      (fun img => (stripExports.sortedOffsets 4194304 4325376 img 131080).map
        (fun S => stripExports.unconsumed S
          (stripExports.headerOffset 4194304 4325376 131080))) = some [(58, 2)] ∧
    ((link 4325376 (imageLookup [("main", 2)] [Export.fromSymbol "" "main"] 8) examplePre
        (createExportTable 4194304 [Export.fromSymbol "" "main"])).bind
      (fun img => stripExports 4194304 4325376 img 131080)).map
        (fun r => (r.1, r.1.map (fun e => e.hasValue))) =
      some ([Export.fromSymbol "" ""], [true]) ∧
    (stripExports.sortedOffsets 4194304 4325376 duplicateImage 131084).map
        (fun S => stripExports.unconsumed S
          (stripExports.headerOffset 4194304 4325376 131084)) = some [(72, 2)] ∧
    (stripExports 4194304 4325376 duplicateImage 131084).map
        (fun r => (r.1, r.2.symbols.map (fun s => (s.name, s.value)))) =
      some ([Export.fromValue "A" 5], [("main", 2), ("A", 2)]) := by
  refine ⟨?_, ?_, ?_, ?_⟩ <;> decide

/-- C16, amended: when `stripExports` returns, the symbols of the fragment are
those it had followed by exactly one new symbol for every pair the scan of the
value block left, in the order of the sorted vector, and none for a pair
consumed as a value export; the new symbol is named with the name of the
export, the C string the name pointer of the pair addresses, and lies at the
address offset of the pair; for every pair left the record `Export(name,
name)`, whose symbol reference equals its name, is inserted into the set
returned, which then holds a record of that name; this record is a symbol
export when the name is not empty, and it is in the set returned when the
names of the pairs are pairwise distinct. -/
theorem stripExports_symbol_recovery (IB CB : Int) (phase1 : Hunk) (rva : Int)
    (exports : List Export) (stripped : Hunk) (S : List (Int × Int))
    (h : stripExports IB CB phase1 rva = some (exports, stripped))
    (hS : stripExports.sortedOffsets IB CB phase1 rva = some S) :
    stripped.symbols = phase1.symbols ++
      (stripExports.unconsumed S (stripExports.headerOffset IB CB rva)).map
        (symbolAt (stripExports.memory phase1)) ∧
    stripped.symbols.length = phase1.symbols.length +
      (stripExports.unconsumed S (stripExports.headerOffset IB CB rva)).length ∧
    exports = insertAll
      ((stripExports.unconsumed S (stripExports.headerOffset IB CB rva)).map
        (symbolOf (stripExports.memory phase1)))
      (insertAll ((stripExports.consumed S (stripExports.headerOffset IB CB rva)).map
        (valueOf (stripExports.memory phase1))) []) ∧
    (∀ p ∈ stripExports.unconsumed S (stripExports.headerOffset IB CB rva),
      readCString (stripExports.memory phase1) p.1 =
        some (nameAt (stripExports.memory phase1) p).data ∧
      symbolAt (stripExports.memory phase1) p =
        { name := nameAt (stripExports.memory phase1) p, value := p.2,
          flags := [SymbolFlag.SYMBOL_IS_RELOCATEABLE], miscString := "EXPORT" } ∧
      (symbolOf (stripExports.memory phase1) p).getName = nameAt (stripExports.memory phase1) p ∧
      (symbolOf (stripExports.memory phase1) p).getSymbol =
        (symbolOf (stripExports.memory phase1) p).getName ∧
      (nameAt (stripExports.memory phase1) p ≠ "" →
        (symbolOf (stripExports.memory phase1) p).hasValue = false) ∧
      ∃ e ∈ exports, e.getName = nameAt (stripExports.memory phase1) p) ∧
    ((S.map (nameAt (stripExports.memory phase1))).Nodup →
      ∀ p ∈ stripExports.unconsumed S (stripExports.headerOffset IB CB rva),
        symbolOf (stripExports.memory phase1) p ∈ exports) := by
  obtain ⟨S', hS', hnames, _, hexp, hstr⟩ :=
    stripExports_trace IB CB phase1 rva exports stripped h
  rw [hS, Option.some.injEq] at hS'
  subst hS'
  have hsym : stripped.symbols = phase1.symbols ++
      (stripExports.unconsumed S (stripExports.headerOffset IB CB rva)).map
        (symbolAt (stripExports.memory phase1)) := by
    rw [hstr]
    rfl
  refine ⟨hsym, ?_, hexp, ?_, ?_⟩
  · rw [hsym, List.length_append, List.length_map]
  · intro p hp
    have hpS : p ∈ S := by
      rw [sorted_split S (stripExports.headerOffset IB CB rva)]
      exact List.mem_append_left _ hp
    obtain ⟨n, hn⟩ := Option.isSome_iff_exists.mp (hnames p hpS)
    refine ⟨by simp [nameAt, hn], rfl, rfl, rfl, ?_, ?_⟩
    · intro hne
      show (nameAt (stripExports.memory phase1) p).data.isEmpty = false
      cases hd : (nameAt (stripExports.memory phase1) p).data with
      | nil => exact absurd (String.ext hd) hne
      | cons c cs => rfl
    rw [hexp]
    have hkeep : ∀ (X s : List Export) (n : String), (∃ e ∈ s, e.getName = n) →
        ∃ e ∈ insertAll X s, e.getName = n := by
      intro X
      induction X with
      | nil => intro s n hs; exact hs
      | cons x X ih =>
        intro s n hs
        apply ih
        obtain ⟨e, he, hen⟩ := hs
        by_cases hx : x.m_name = n
        · obtain ⟨y, hy, hyn⟩ := setInsert_mem_self x s
          exact ⟨y, hy, hyn.trans hx⟩
        · by_cases hes : ∃ y ∈ setInsert x s, y.m_name = n
          · obtain ⟨y, hy, hyn⟩ := hes
            exact ⟨y, hy, hyn⟩
          · exact absurd ⟨e, setInsert_keeps x s e he, hen⟩ hes
    have hins : ∀ (X s : List Export) (x : Export), x ∈ X →
        ∃ e ∈ insertAll X s, e.getName = x.getName := by
      intro X
      induction X with
      | nil => intro s x hx; exact absurd hx (List.not_mem_nil _)
      | cons y X ih =>
        intro s x hx
        rw [List.mem_cons] at hx
        rcases hx with rfl | hx
        · exact hkeep X _ _ (setInsert_mem_self x s)
        · exact ih _ x hx
    exact hins _ _ _ (List.mem_map_of_mem _ hp)
  · intro hnd p hp
    have hperm := sorted_split_perm S (stripExports.headerOffset IB CB rva)
    have h2 := strip_records_perm (stripExports.memory phase1) _ _
      ((hperm.map _).nodup_iff.mp hnd)
    rw [hexp, h2.mem_iff]
    exact List.mem_append_left _ (List.mem_map_of_mem _ hp)

set_option maxRecDepth 100000 in
/-- Witness for the amended C16: the example image, in which the pair of `D`
is left, the symbol `D` is added at offset 2 and the symbol export `D -> D` is
in the set returned. -/
theorem stripExports_symbol_recovery_witness :
    stripExports.unconsumed exampleSorted (stripExports.headerOffset 4194304 4325376 131084) =
      [(74, 2)] ∧
    symbolAt (stripExports.memory exampleImage) (74, 2) =
      { name := "D", value := 2, flags := [SymbolFlag.SYMBOL_IS_RELOCATEABLE],
        miscString := "EXPORT" } ∧
    symbolOf (stripExports.memory exampleImage) (74, 2) = Export.fromSymbol "D" "D" ∧
    exampleStripped.symbols = exampleImage.symbols ++
      (stripExports.unconsumed exampleSorted
        (stripExports.headerOffset 4194304 4325376 131084)).map
        (symbolAt (stripExports.memory exampleImage)) ∧
    symbolOf (stripExports.memory exampleImage) (74, 2) ∈
      ([Export.fromValue "A" 5, Export.fromSymbol "D" "D"] : List Export) ∧
    (symbolOf (stripExports.memory exampleImage) (74, 2)).hasValue = false :=
  ⟨by decide, by decide, by decide,
    (stripExports_symbol_recovery 4194304 4325376 exampleImage 131084 _ exampleStripped
      exampleSorted stripExports_exampleImage (by decide)).1,
    (stripExports_symbol_recovery 4194304 4325376 exampleImage 131084 _ exampleStripped
      exampleSorted stripExports_exampleImage (by decide)).2.2.2.2 (by decide) (74, 2)
      (by decide),
    ((stripExports_symbol_recovery 4194304 4325376 exampleImage 131084 _ exampleStripped
      exampleSorted stripExports_exampleImage (by decide)).2.2.2.1 (74, 2)
      (by decide)).2.2.2.2.1 (by decide)⟩

set_option maxRecDepth 100000 in
/-- C18, counterexample. With the fragment at offset 0 of the image, the
directory header of the table of the one export `x -> _ExportNames` lies at
offset 0, and the used length `stripExports` sets is 44, the offset of the
name-pointer table, which is greater. -/
theorem used_length_above_header :
    stripExports.headerOffset 4194304 4325376 131072 = 0 ∧
    ((link 4325376 (imageLookup [] [Export.fromSymbol "x" "_ExportNames"] 0) emptyPre
        (createExportTable 4194304 [Export.fromSymbol "x" "_ExportNames"])).bind
      (fun img => stripExports 4194304 4325376 img 131072)).map
        (fun r => (r.2.rawsize,
          decide (r.2.rawsize ≤ stripExports.headerOffset 4194304 4325376 131072))) =
      some (44, false) := by
  constructor <;> decide

/-- C18, amended: when `stripExports` returns, the used length it sets is the
offset of the directory header if the scan of the value block consumes no
pair, and else the address offset of the pair consumed last; and it is not
greater than the offset of the directory header when no address offset of the
sorted vector is greater than the offset of the directory header. -/
theorem stripExports_used_length (IB CB : Int) (phase1 : Hunk) (rva : Int)
    (exports : List Export) (stripped : Hunk) (S : List (Int × Int))
    (h : stripExports IB CB phase1 rva = some (exports, stripped))
    (hS : stripExports.sortedOffsets IB CB phase1 rva = some S) :
    stripped.rawsize =
      (((stripExports.consumed S (stripExports.headerOffset IB CB rva)).getLast?).map
        Prod.snd).getD (stripExports.headerOffset IB CB rva) ∧
    (stripExports.consumed S (stripExports.headerOffset IB CB rva) = [] →
      stripped.rawsize = stripExports.headerOffset IB CB rva) ∧
    ((∀ p ∈ S, p.2 ≤ stripExports.headerOffset IB CB rva) →
      stripped.rawsize ≤ stripExports.headerOffset IB CB rva) := by
  obtain ⟨S', hS', _, _, _, hstr⟩ := stripExports_trace IB CB phase1 rva exports stripped h
  rw [hS, Option.some.injEq] at hS'
  subst hS'
  have hraw : stripped.rawsize =
      stripExports.scanBoundary S.reverse (stripExports.headerOffset IB CB rva) := by
    rw [hstr]
    rfl
  have hlast := scanBoundary_eq_getLast S.reverse (stripExports.headerOffset IB CB rva)
  refine ⟨hraw.trans hlast, ?_, ?_⟩
  · intro hnil
    rw [hraw, hlast]
    unfold stripExports.consumed at hnil
    rw [hnil]
    rfl
  · intro hle
    rw [hraw]
    exact scanBoundary_le _ _ _ (le_refl _) (fun p hp => hle p (List.mem_reverse.mp hp))

set_option maxRecDepth 100000 in
/-- Witness for the amended C18: the example image, with its header at offset
12, is cut at offset 8. -/
theorem stripExports_used_length_witness :
    stripExports.headerOffset 4194304 4325376 131084 = 12 ∧
    exampleStripped.rawsize = 8 ∧
    exampleStripped.rawsize ≤ stripExports.headerOffset 4194304 4325376 131084 :=
  ⟨by decide, by decide,
    (stripExports_used_length 4194304 4325376 exampleImage 131084 _ exampleStripped
      exampleSorted stripExports_exampleImage (by decide)).2.2 (by decide)⟩

/-- C19: when `stripExports` returns for a table of `n` entries and the names
of the collected pairs are pairwise distinct, there are `n` collected pairs,
the name of the pair `j` being the C string the entry `j` of the name-pointer
table addresses; the set returned has exactly `n` records; its names are the
names of the collected pairs; and its records are, up to their order, one
record for each collected pair: the value export of a pair the scan of the
value block consumed, the self-referencing symbol export of a pair it left. -/
theorem stripExports_no_export_lost (IB CB : Int) (phase1 : Hunk) (rva : Int)
    (exports : List Export) (stripped : Hunk) (t : Int × Int × Int × Int)
    (C : List (Int × Int))
    (h : stripExports IB CB phase1 rva = some (exports, stripped))
    (hl : stripExports.locate IB CB phase1 rva = some t)
    (hC : stripExports.collected IB CB phase1 rva = some C)
    (hd : (C.map (nameAt (stripExports.memory phase1))).Nodup) :
    C.length = t.1.toNat ∧
    (∀ (j : Nat) (q : Int × Int), C[j]? = some q →
      ∃ w, read32 (stripExports.memory phase1) (t.2.2.1 + 4 * j) = some w ∧
        q.1 = toInt32 (w + toInt32 (IB - CB)) ∧
        readCString (stripExports.memory phase1) q.1 =
          some (nameAt (stripExports.memory phase1) q).data) ∧
    exports.length = t.1.toNat ∧
    (exports.map (fun e => e.getName)).Perm (C.map (nameAt (stripExports.memory phase1))) ∧
    C.Perm (stripExports.unconsumed (stable_sort C) (stripExports.headerOffset IB CB rva) ++
      stripExports.consumed (stable_sort C) (stripExports.headerOffset IB CB rva)) ∧
    exports.Perm
      ((stripExports.unconsumed (stable_sort C) (stripExports.headerOffset IB CB rva)).map
          (symbolOf (stripExports.memory phase1)) ++
        (stripExports.consumed (stable_sort C) (stripExports.headerOffset IB CB rva)).map
          (valueOf (stripExports.memory phase1))) ∧
    (∀ p, symbolOf (stripExports.memory phase1) p =
        Export.fromSymbol (nameAt (stripExports.memory phase1) p)
          (nameAt (stripExports.memory phase1) p) ∧
      (valueOf (stripExports.memory phase1) p).hasValue = true) := by
  obtain ⟨S, hS, hnames, _, hexp, _⟩ := stripExports_trace IB CB phase1 rva exports stripped h
  have hSC : S = stable_sort C := by
    unfold stripExports.sortedOffsets at hS
    rw [hC] at hS
    exact (Option.some.inj hS).symm
  subst hSC
  have hcol : stripExports.collect (stripExports.memory phase1) (toInt32 (IB - CB)) t.2.1
      t.2.2.1 t.2.2.2 t.1.toNat 0 = some C := by
    unfold stripExports.collected at hC
    rw [hl] at hC
    exact hC
  obtain ⟨hlen, _, hptr⟩ := collect_trace _ _ _ _ _ _ _ _ hcol
  have hperm : C.Perm
      (stripExports.unconsumed (stable_sort C) (stripExports.headerOffset IB CB rva) ++
        stripExports.consumed (stable_sort C) (stripExports.headerOffset IB CB rva)) :=
    (stable_sort_perm C).symm.trans (sorted_split_perm _ _)
  generalize stripExports.unconsumed (stable_sort C) (stripExports.headerOffset IB CB rva) = U
    at hperm hexp ⊢
  generalize stripExports.consumed (stable_sort C) (stripExports.headerOffset IB CB rva) = K
    at hperm hexp ⊢
  have h2 : exports.Perm (U.map (symbolOf (stripExports.memory phase1)) ++
      K.map (valueOf (stripExports.memory phase1))) := by
    rw [hexp]
    exact strip_records_perm _ U K ((hperm.map _).nodup_iff.mp hd)
  have hlenE : exports.length = C.length := by
    rw [h2.length_eq, hperm.length_eq]
    simp
  refine ⟨hlen, ?_, hlenE.trans hlen, ?_, hperm, h2, fun p => ⟨rfl, rfl⟩⟩
  · intro j q hj
    obtain ⟨w, hw, hq⟩ := hptr j q hj
    refine ⟨w, ?_, hq, ?_⟩
    · rw [← hw]
      congr 1
      omega
    · have hqS : q ∈ stable_sort C :=
        (stable_sort_perm C).mem_iff.mpr (List.getElem?_mem hj)
      obtain ⟨n, hn⟩ := Option.isSome_iff_exists.mp (hnames q hqS)
      simp [nameAt, hn]
  · have h3 := h2.map (fun e => e.getName)
    refine h3.trans ?_
    have h4 : (U.map (symbolOf (stripExports.memory phase1)) ++
        K.map (valueOf (stripExports.memory phase1))).map (fun e => e.getName) =
        (U ++ K).map (nameAt (stripExports.memory phase1)) := by
      rw [List.map_append, List.map_append, List.map_map, List.map_map]
      rfl
    rw [h4]
    exact (hperm.map _).symm

set_option maxRecDepth 100000 in
/-- Witness for C19: the example image, whose table has the two entries `A`
and `D`. -/
theorem stripExports_no_export_lost_witness :
    stripExports.locate 4194304 4325376 exampleImage 131084 = some (2, 52, 60, 68) ∧
    stripExports.collected 4194304 4325376 exampleImage 131084 = some [(72, 8), (74, 2)] ∧
    ([Export.fromValue "A" 5, Export.fromSymbol "D" "D"] : List Export).length =
      ((2 : Int), (52 : Int), (60 : Int), (68 : Int)).1.toNat ∧
    (([Export.fromValue "A" 5, Export.fromSymbol "D" "D"] : List Export).map
      (fun e => e.getName)).Perm
        (([(72, 8), (74, 2)] : List (Int × Int)).map
          (nameAt (stripExports.memory exampleImage))) :=
  ⟨by decide, by decide,
    (stripExports_no_export_lost 4194304 4325376 exampleImage 131084 _ exampleStripped
      (2, 52, 60, 68) [(72, 8), (74, 2)] stripExports_exampleImage (by decide) (by decide)
      (by decide)).2.2.1,
    (stripExports_no_export_lost 4194304 4325376 exampleImage 131084 _ exampleStripped
      (2, 52, 60, 68) [(72, 8), (74, 2)] stripExports_exampleImage (by decide) (by decide)
      (by decide)).2.2.2.1⟩

/-! ## Well-formedness of the fragment -/

theorem mem_symbols_iff (exports : List Export) (s : Symbol) :
    s ∈ createExportTable.symbols exports ↔
      s = { name := "exports", value := 0,
            flags := [SymbolFlag.SYMBOL_IS_RELOCATEABLE, SymbolFlag.SYMBOL_IS_SECTION],
            miscString := "EXPORT" } ∨
      s ∈ createExportTable.valueSymbols exports ∨
      s = { name := "_ExportTable", value := (createExportTable.table_offset exports : Int),
            flags := [SymbolFlag.SYMBOL_IS_RELOCATEABLE], miscString := "" } ∨
      s = { name := "_ExportAddresses",
            value := (createExportTable.addresses_offset exports : Int),
            flags := [SymbolFlag.SYMBOL_IS_RELOCATEABLE], miscString := "" } ∨
      s = { name := "_ExportNames",
            value := (createExportTable.name_pointers_offset exports : Int),
            flags := [SymbolFlag.SYMBOL_IS_RELOCATEABLE], miscString := "" } ∨
      s = { name := "_ExportOrdinals",
            value := (createExportTable.ordinals_offset exports : Int),
            flags := [SymbolFlag.SYMBOL_IS_RELOCATEABLE], miscString := "" } ∨
      s ∈ createExportTable.nameSymbols exports (createExportTable.names_offset exports) := by
  unfold createExportTable.symbols
  simp only [List.mem_append, List.mem_cons, List.mem_singleton, List.not_mem_nil, or_false,
    or_assoc]

open createExportTable in
theorem valueSymbol_bounds (exports : List Export) (s : Symbol)
    (h : s ∈ valueSymbols exports) : 0 ≤ s.value ∧ s.value + 4 ≤ (table_offset exports : Int) := by
  unfold valueSymbols at h
  rw [List.mem_map] at h
  obtain ⟨e, he, rfl⟩ := h
  rw [List.mem_filter] at he
  have hk : e.getValue ∈ (values exports).map Prod.fst :=
    (values_keys_mem exports e.getValue).mpr ⟨e, he.1, he.2, rfl⟩
  obtain ⟨j, hj⟩ := List.mem_iff_getElem?.mp hk
  have hm := mapAt_values exports j e.getValue hj
  have hlt : j < (values exports).length := by
    have := (List.getElem?_eq_some_iff.mp hj).1
    simpa using this
  simp only [hm]
  unfold table_offset
  push_cast
  omega

open createExportTable in
theorem nameSymbol_bounds (exports : List Export) (s : Symbol)
    (h : s ∈ nameSymbols exports (names_offset exports)) :
    (names_offset exports : Int) ≤ s.value ∧ s.value < (hunk_size exports : Int) := by
  rw [nameSymbols_eq exports 0, List.mem_map] at h
  obtain ⟨t, ht, rfl⟩ := h
  have h1 := (entries_mem_bounds _ _ _ t ht).2.2.2
  have h2 := entries_offset_le _ _ _ t ht
  simp only
  unfold hunk_size
  omega

open createExportTable in
theorem nameLabel_registered (exports : List Export) (h : NulFree exports) (e : Export)
    (he : e ∈ exports) :
    ∃ s ∈ symbols exports, s.name = "_ExportName_" ++ e.getName := by
  have hmem : e ∈ (entries exports 0 (names_offset exports)).map (fun t => t.2.1) := by
    rw [entries_map_export]
    exact he
  rw [List.mem_map] at hmem
  obtain ⟨t, ht, rfl⟩ := hmem
  refine ⟨{ name := String.mk (c_str ("_ExportName_" ++ t.2.1.getName)), value := (t.2.2 : Int),
            flags := [SymbolFlag.SYMBOL_IS_RELOCATEABLE], miscString := "" }, ?_, ?_⟩
  · rw [mem_symbols_iff, nameSymbols_eq exports 0]
    exact Or.inr (Or.inr (Or.inr (Or.inr (Or.inr (Or.inr (List.mem_map_of_mem _ ht))))))
  · exact c_str_name_label _ (h _ he)

open createExportTable in
theorem valueLabel_registered (exports : List Export) (h : NulFree exports) (e : Export)
    (he : e ∈ exports) (hv : e.hasValue = true) :
    ∃ s ∈ symbols exports, s.name = e.getName := by
  refine ⟨{ name := String.mk (c_str e.getName),
            value := mapAt (values exports) e.getValue * 4,
            flags := [SymbolFlag.SYMBOL_IS_RELOCATEABLE], miscString := "" }, ?_, ?_⟩
  · rw [mem_symbols_iff]
    refine Or.inr (Or.inl ?_)
    unfold valueSymbols
    exact List.mem_map.mpr ⟨e, List.mem_filter.mpr ⟨he, hv⟩, rfl⟩
  · simp only
    rw [c_str_of_nul_free e.getName (h e he)]

theorem takeWhile_length_eq {α : Type} (p : α → Bool) (l : List α)
    (h : (l.takeWhile p).length = l.length) : ∀ x ∈ l, p x = true := by
  induction l with
  | nil => intro x hx; exact absurd hx (List.not_mem_nil _)
  | cons a l ih =>
    rw [List.takeWhile_cons] at h
    cases hp : p a with
    | false =>
      rw [hp] at h
      simp at h
    | true =>
      rw [hp] at h
      simp only [if_true, List.length_cons, Nat.add_right_cancel_iff] at h
      intro x hx
      rw [List.mem_cons] at hx
      rcases hx with rfl | hx
      · exact hp
      · exact ih h x hx

open createExportTable in
theorem nulFree_of_putNames_length (exports : List Export)
    (h : (putNames exports).length = total_name_length exports) : NulFree exports := by
  induction exports with
  | nil => intro e he; exact absurd he (List.not_mem_nil _)
  | cons e es ih =>
    have hle := putNames_length_le es
    have hc := c_str_length_le e.getName
    have hcons : (putNames (e :: es)).length =
        ((c_str e.getName).length + 1) + (putNames es).length := by
      unfold putNames
      rw [List.flatMap_cons, List.length_append, strcpyBytes_length]
    have htot : total_name_length (e :: es) =
        (e.getName.length + 1) + total_name_length es := by
      unfold total_name_length
      rw [List.map_cons, List.sum_cons]
    rw [hcons, htot] at h
    intro x hx
    rw [List.mem_cons] at hx
    rcases hx with rfl | hx
    · intro c hcm
      have hlen : (x.getName.data.takeWhile (fun c => decide (c.toNat ≠ 0))).length =
          x.getName.data.length := by
        have : (c_str x.getName).length = x.getName.length := by omega
        exact this
      have := takeWhile_length_eq _ _ hlen c hcm
      simpa using this
    · exact ih (by omega) x hx

open createExportTable in
theorem cursorAfterOrdinals_eq (IB : Int) (exports : List Export) :
    cursorAfterOrdinals IB exports = names_offset exports := by
  unfold cursorAfterOrdinals cursorAfterAddresses cursorAfterTable cursorAfterValues
    names_offset ordinals_offset name_pointers_offset addresses_offset
  rw [putValues_length, putTable_length, putAddresses_length, putOrdinals_length]
  ring

open createExportTable in
theorem nulFree_of_assertions (IB : Int) (exports : List Export)
    (h : ∀ a ∈ assertions IB exports, a) : NulFree exports := by
  have h5 : cursorAfterNames IB exports = hunk_size exports :=
    h _ (by simp [assertions])
  unfold cursorAfterNames hunk_size at h5
  rw [cursorAfterOrdinals_eq] at h5
  exact nulFree_of_putNames_length exports (by omega)

open createExportTable in
theorem assertions_of_last (IB : Int) (exports : List Export)
    (h : cursorAfterNames IB exports = hunk_size exports) : ∀ a ∈ assertions IB exports, a := by
  have h4 := cursorAfterOrdinals_eq IB exports
  have h1 : cursorAfterValues exports = table_offset exports := putValues_length exports
  have h2 : cursorAfterTable IB exports = addresses_offset exports := by
    unfold cursorAfterTable addresses_offset
    rw [h1, putTable_length]
  have h3 : cursorAfterAddresses IB exports = ordinals_offset exports := by
    unfold cursorAfterAddresses ordinals_offset name_pointers_offset
    rw [h2, putAddresses_length]
    ring
  intro a ha
  simp only [assertions, List.mem_cons, List.mem_singleton, List.not_mem_nil, or_false] at ha
  rcases ha with rfl | rfl | rfl | rfl | rfl
  · exact h1
  · exact h2
  · exact h3
  · exact h4
  · exact h

open createExportTable in
/-- C20: for every list of exports on which the five assertions of
`createExportTable` hold, so that the fragment is produced, in the fragment
the bytes are `hunk_size` many, the 4-byte slot of every relocation lies
inside them, the offset of every symbol is between 0 and `hunk_size`, the
targets `_ExportAddresses`, `_ExportNames` and `_ExportOrdinals` are names of
symbols of the fragment, so are for every export `_ExportName_<name>` and, if
the export has a value, its name, and every relocation target is the name of
a symbol of the fragment or the symbol reference of a symbol export. -/
theorem createExportTable_well_formed (IB : Int) (exports : List Export)
    (hassert : ∀ a ∈ assertions IB exports, a) :
    (createExportTable IB exports).data.length = hunk_size exports ∧
    (∀ r ∈ (createExportTable IB exports).relocations,
      0 ≤ r.offset ∧ r.offset + 4 ≤ ((createExportTable IB exports).data.length : Int)) ∧
    (∀ s ∈ (createExportTable IB exports).symbols,
      0 ≤ s.value ∧ s.value ≤ (hunk_size exports : Int)) ∧
    (∀ l ∈ ["_ExportAddresses", "_ExportNames", "_ExportOrdinals"],
      ∃ s ∈ (createExportTable IB exports).symbols, s.name = l) ∧
    (∀ e ∈ exports,
      (∃ s ∈ (createExportTable IB exports).symbols,
        s.name = "_ExportName_" ++ e.getName) ∧
      (e.hasValue = true →
        ∃ s ∈ (createExportTable IB exports).symbols, s.name = e.getName)) ∧
    (∀ r ∈ (createExportTable IB exports).relocations,
      (∃ s ∈ (createExportTable IB exports).symbols, s.name = r.symbolname) ∨
      ∃ e ∈ exports, e.hasValue = false ∧ r.symbolname = e.getSymbol) := by
  have h : NulFree exports := nulFree_of_assertions IB exports hassert
  rw [createExportTable_eq]
  simp only
  have hto : table_offset exports + 40 = addresses_offset exports := rfl
  have hoff : ordinals_offset exports ≤ hunk_size exports := by
    unfold hunk_size names_offset
    omega
  have hao : addresses_offset exports ≤ ordinals_offset exports := by
    unfold ordinals_offset name_pointers_offset
    omega
  have hheader : ∀ l ∈ ["_ExportAddresses", "_ExportNames", "_ExportOrdinals"],
      ∃ s ∈ symbols exports, s.name = l := by
    intro l hl
    simp only [List.mem_cons, List.mem_singleton, List.not_mem_nil, or_false] at hl
    rcases hl with rfl | rfl | rfl
    · exact ⟨_, (mem_symbols_iff exports _).mpr (Or.inr (Or.inr (Or.inr (Or.inl rfl)))), rfl⟩
    · exact ⟨_, (mem_symbols_iff exports _).mpr
        (Or.inr (Or.inr (Or.inr (Or.inr (Or.inl rfl))))), rfl⟩
    · exact ⟨_, (mem_symbols_iff exports _).mpr
        (Or.inr (Or.inr (Or.inr (Or.inr (Or.inr (Or.inl rfl)))))), rfl⟩
  refine ⟨data_length IB exports, ?_, ?_, hheader, ?_, ?_⟩
  · intro r hr
    rw [relocations_eq, List.mem_map] at hr
    obtain ⟨x, hx, rfl⟩ := hr
    have hb := relocSlots_bounds exports x hx
    rw [data_length]
    simp only [abs32]
    omega
  · intro s hs
    rw [mem_symbols_iff] at hs
    have hno : names_offset exports ≤ hunk_size exports := by
      unfold hunk_size
      omega
    have hon : ordinals_offset exports ≤ names_offset exports := by
      unfold names_offset
      omega
    have hna : addresses_offset exports ≤ name_pointers_offset exports ∧
        name_pointers_offset exports ≤ ordinals_offset exports := by
      unfold ordinals_offset name_pointers_offset
      omega
    rcases hs with rfl | hs | rfl | rfl | rfl | rfl | hs
    · simp only
      omega
    · have := valueSymbol_bounds exports s hs
      omega
    · simp only
      omega
    · simp only
      omega
    · simp only
      omega
    · simp only
      omega
    · have := nameSymbol_bounds exports s hs
      omega
  · intro e he
    exact ⟨nameLabel_registered exports h e he, valueLabel_registered exports h e he⟩
  · intro r hr
    rw [relocations_eq, List.mem_map] at hr
    obtain ⟨x, hx, rfl⟩ := hr
    unfold relocSlots at hx
    rw [List.mem_append] at hx
    rcases hx with hx | hx
    · left
      apply hheader
      simp only [List.mem_cons, List.mem_singleton, List.not_mem_nil, or_false] at hx ⊢
      rcases hx with rfl | rfl | rfl
      · exact Or.inl rfl
      · exact Or.inr (Or.inl rfl)
      · exact Or.inr (Or.inr rfl)
    · rw [List.mem_flatMap] at hx
      obtain ⟨t, ht, hxt⟩ := hx
      have hte := (entries_mem_bounds _ _ _ t ht).2.2.1
      simp only [slotsOf, List.mem_cons, List.mem_singleton, List.not_mem_nil, or_false] at hxt
      rcases hxt with rfl | rfl
      · cases hv : t.2.1.hasValue with
        | true =>
          left
          simp only [abs32, exportLabel, hv, if_true]
          exact valueLabel_registered exports h _ hte hv
        | false =>
          right
          refine ⟨t.2.1, hte, hv, ?_⟩
          simp [abs32, exportLabel, hv]
      · left
        exact nameLabel_registered exports h _ hte

/-- Witness for C20: the fragment of `{A = 5, D -> main}`, on which the
assertions hold; every target but `main` is a symbol of the fragment. -/
theorem createExportTable_well_formed_witness :
    (∀ a ∈ createExportTable.assertions 4194304 exampleExports, a) ∧
    (∀ r ∈ (createExportTable 4194304 exampleExports).relocations,
      0 ≤ r.offset ∧
        r.offset + 4 ≤ ((createExportTable 4194304 exampleExports).data.length : Int)) ∧
    (∀ r ∈ (createExportTable 4194304 exampleExports).relocations,
      (∃ s ∈ (createExportTable 4194304 exampleExports).symbols, s.name = r.symbolname) ∨
      ∃ e ∈ exampleExports, e.hasValue = false ∧ r.symbolname = e.getSymbol) :=
  ⟨assertions_of_last 4194304 exampleExports (by decide),
    (createExportTable_well_formed 4194304 exampleExports
      (assertions_of_last 4194304 exampleExports (by decide))).2.1,
    (createExportTable_well_formed 4194304 exampleExports
      (assertions_of_last 4194304 exampleExports (by decide))).2.2.2.2.2⟩

end Crinkler
